import Mathlib

/-!
Verification of the JSON-to-HTML formatter core: the number-preservation
encoder (`safeStringEncodeNums`), the recursive value renderer
(`valueToHTML` / `arrayToHTML` / `objectToHTML`), and the parse-error
page (`massageError` / `highlightError` / `errorPageBody`).

The JavaScript source is embedded shallowly: JS strings become `String`
(manipulated as `List Char`), the parsed JSON value becomes the inductive
`PValue`, stateful regex-replace loops become fueled recursive functions,
and JS library semantics that the code relies on (string `replace`,
`isNaN` coercion, `for`-`in` property order, `JSON.stringify` escaping)
are modelled explicitly where the code uses them.
-/

set_option maxRecDepth 10000

/-- Zero-width space U+200B, the number-preservation marker character. -/
def markerChar : Char := '\u200B'

/-- Decimal digit test for the JSON number grammar ('0'-'9'). -/
def isDigitC (c : Char) : Bool := decide (48 ≤ c.toNat ∧ c.toNat ≤ 57)

/-- Nonzero decimal digit test ('1'-'9'). -/
def isDigit19 (c : Char) : Bool := decide (49 ≤ c.toNat ∧ c.toNat ≤ 57)

/-- Global single-character replacement: models JS `str.replace(/c/g, r)`
when the pattern is one fixed character. -/
def replaceAllC (p : Char) (r : List Char) (cs : List Char) : List Char :=
  cs.flatMap (fun c => if c = p then r else [c])

/-- Character-level body of `htmlEncode`: the source's four chained global
replaces, ampersand first. -/
def htmlEncodeL (cs : List Char) : List Char :=
  replaceAllC '>' ("&gt;".data)
    (replaceAllC '<' ("&lt;".data)
      (replaceAllC '"' ("&quot;".data)
        (replaceAllC '&' ("&amp;".data) cs)))

/-- Embeds `htmlEncode` (src/unnamed/part_000 lines 35-42) on an actual
string argument: `.replace(/&/g,"&amp;").replace(/"/g,"&quot;")
.replace(/</g,"&lt;").replace(/>/g,"&gt;")`.  The `undefined`/`null`
guard of the source (which yields `''`) is modelled at the single call
site that can receive `undefined`, via `htmlEncodeOpt`. -/
def htmlEncode (t : String) : String := String.mk (htmlEncodeL t.data)

/-- Embeds `htmlEncode` applied to a possibly-`undefined` argument
(`highlightError` may pass `line[columnNum-1]` out of range): the source
returns `''` for `undefined`. -/
def htmlEncodeOpt (t : Option String) : String :=
  match t with
  | none => ""
  | some s => htmlEncode s

/-- Lower-case hex digit of a value below 16, as emitted by
`JSON.stringify` in `\u00XX` escapes. -/
def hexDigitLower (n : Nat) : Char :=
  if n < 10 then Char.ofNat (48 + n) else Char.ofNat (87 + n)

/-- Escape of one character under `JSON.stringify` string serialization:
quote and backslash get a backslash escape, the five named control
characters get their short escapes, the remaining control characters get
`\u00XX`, everything else is kept verbatim. -/
def jsonEscapeChar (c : Char) : List Char :=
  if c = '"' then ['\\', '"']
  else if c = '\\' then ['\\', '\\']
  else if c = '\u0008' then ['\\', 'b']
  else if c = '\t' then ['\\', 't']
  else if c = '\n' then ['\\', 'n']
  else if c = '\u000C' then ['\\', 'f']
  else if c = '\r' then ['\\', 'r']
  else if c.toNat < 32 then
    '\\' :: 'u' :: '0' :: '0' :: [hexDigitLower (c.toNat / 16), hexDigitLower (c.toNat % 16)]
  else [c]

/-- Body of `JSON.stringify(s)` with the surrounding quotes sliced off,
i.e. the source's `JSON.stringify(s).slice(1, -1)`. -/
def jsonEscape (cs : List Char) : List Char := cs.flatMap jsonEscapeChar

/-- Embeds `jsString` (src lines 46-50): JSON-string-escape, then
HTML-encode. -/
def jsString (s : String) : String := htmlEncode (String.mk (jsonEscape s.data))

/-- Head character class of the bare-property regex `[A-Za-z_$]`. -/
def isBareHead (c : Char) : Bool :=
  decide ((65 ≤ c.toNat ∧ c.toNat ≤ 90) ∨ (97 ≤ c.toNat ∧ c.toNat ≤ 122)) ||
    c = '_' || c = '$'

/-- Tail character class of the bare-property regex `[A-Za-z0-9_\-$]`. -/
def isBareTail (c : Char) : Bool := isBareHead c || isDigitC c || c = '-'

/-- Embeds `isBareProp` (src lines 54-56): full-string match of
`/^[A-Za-z_$][A-Za-z0-9_\-$]*$/`. -/
def isBareProp (prop : String) : Bool :=
  match prop.data with
  | [] => false
  | c :: cs => isBareHead c && cs.all isBareTail

/-- Embeds `decorateWithSpan` (src lines 60-62). -/
def decorateWithSpan (value className : String) : String :=
  "<span class=\"" ++ className ++ "\">" ++ htmlEncode value ++ "</span>"

example : htmlEncode "a<b&c>\"d\"" = "a&lt;b&amp;c&gt;&quot;d&quot;" := by decide
example : jsString "a\"b\\c" = "a\\&quot;b\\\\c" := by decide
example : isBareProp "a_b-c$1" = true := by decide
example : isBareProp "1ab" = false := by decide
example : isBareProp "a b" = false := by decide
example : jsonEscape ['\u0001'] = '\\' :: 'u' :: ['0', '0', '0', '1'] := by decide

/-- Integer part of the JSON number grammar `(?:0|[1-9]\d*)`: a single
`0`, or a nonzero digit followed by greedily consumed digits. -/
def numIntPart : List Char → Option (List Char × List Char)
  | [] => none
  | c :: cs =>
    if c = '0' then some ([c], cs)
    else if isDigit19 c then some (c :: cs.takeWhile isDigitC, cs.dropWhile isDigitC)
    else none

/-- Fraction part `(?:\.\d+)?`: consumed only when a `.` is immediately
followed by a digit, else nothing is consumed (regex group backtracks). -/
def numFracPart (cs : List Char) : List Char × List Char :=
  match cs with
  | p :: d :: rest =>
    if p = '.' ∧ isDigitC d then
      (p :: d :: rest.takeWhile isDigitC, rest.dropWhile isDigitC)
    else ([], cs)
  | _ => ([], cs)

/-- Exponent part `(?:[eE][+-]?\d+)?`: consumed only when `e`/`E`, an
optional sign, and at least one digit follow, else nothing is consumed. -/
def numExpPart (cs : List Char) : List Char × List Char :=
  match cs with
  | e :: s :: rest =>
    if e = 'e' ∨ e = 'E' then
      if s = '+' ∨ s = '-' then
        match rest with
        | d :: rest2 =>
          if isDigitC d then (e :: s :: d :: rest2.takeWhile isDigitC, rest2.dropWhile isDigitC)
          else ([], cs)
        | [] => ([], cs)
      else if isDigitC s then (e :: s :: rest.takeWhile isDigitC, rest.dropWhile isDigitC)
      else ([], cs)
    else ([], cs)
  | _ => ([], cs)

/-- Attempt of the source's JSON-legal-number regex
`-?(?:0|[1-9]\d*)(?:\.\d+)?(?:[eE][+-]?\d+)?` anchored at the head of the
input, with JS greedy semantics (maximal munch, optional groups dropped
when their mandatory tail is absent).  Returns the matched characters and
the remaining input. -/
def numMatch (cs : List Char) : Option (List Char × List Char) :=
  match cs with
  | [] => none
  | c :: rest =>
    if c = '-' then
      match numIntPart rest with
      | some (ip, r1) =>
        let fr := numFracPart r1
        let ex := numExpPart fr.2
        some (c :: (ip ++ fr.1 ++ ex.1), ex.2)
      | none => none
    else
      match numIntPart (c :: rest) with
      | some (ip, r1) =>
        let fr := numFracPart r1
        let ex := numExpPart fr.2
        some (ip ++ fr.1 ++ ex.1, ex.2)
      | none => none

/-- Leftmost match search of the number regex, as performed by JS
`String.replace` with a global regex: positions are tried left to right;
the result is (unmatched prefix, match, rest). -/
def findNum : List Char → Option (List Char × List Char × List Char)
  | [] => none
  | c :: cs =>
    match numMatch (c :: cs) with
    | some (m, rest) => some ([], m, rest)
    | none =>
      match findNum cs with
      | some (p, m, r) => some (c :: p, m, r)
      | none => none

/-- Length of the run of consecutive backslashes at the head of the
reversed already-scanned prefix, i.e. immediately preceding the current
character: the source's backward `lookback` loop in `isInsideQuotes`. -/
def backRun (rev : List Char) : Nat := (rev.takeWhile (fun c => c = '\\')).length

/-- Character loop of the source's `isInsideQuotes` (src lines 201-218):
on each double quote, count the immediately preceding backslashes, and
toggle the inside-string flag when that count is even. -/
def quotesGo (rev : List Char) : List Char → Bool → Bool
  | [], inQ => inQ
  | c :: cs, inQ =>
    quotesGo (c :: rev) cs (if c = '"' ∧ backRun rev % 2 = 0 then !inQ else inQ)

/-- Quote parity of one chunk of text, scanned from a fresh state: the
body of the source's `isInsideQuotes` before the `wasInQuotes` flip. -/
def isInsideQuotes (cs : List Char) : Bool := quotesGo [] cs false

/-- Wrapped replacement emitted by `replaceNumbers` for a match outside
quotes: `"​" + match + "\""` as a quoted, marker-tagged string. -/
def wrapNumL (m : List Char) : List Char := '"' :: markerChar :: (m ++ ['"'])

/-- Embeds the `viewString.replace(numberFinder, replaceNumbers)` loop of
`safeStringEncodeNums` together with its closure state: `wasInQuotes` is
the carried quote parity, and each callback classifies its match by
scanning only the chunk since the previous match (`startIndex`) and
XOR-ing with the carried parity.  Also returns the per-match trace of
(match, inside-quotes decision) pairs.  Fueled: one unit of fuel per
match, so fuel = input length always suffices. -/
def safeGoT : Nat → List Char → Bool → List Char × List (List Char × Bool)
  | 0, rest, _ => (rest, [])
  | fuel + 1, rest, was =>
    match findNum rest with
    | none => (rest, [])
    | some (pre, m, rest2) =>
      let inQ := xor (isInsideQuotes pre) was
      let r := safeGoT fuel rest2 inQ
      (pre ++ (if inQ then m else wrapNumL m) ++ r.1, (m, inQ) :: r.2)

/-- Doubling of pre-existing marker characters: the source's
`jsonString.replace(/​/g, "​​")`. -/
def doubleMarkersL (cs : List Char) : List Char :=
  cs.flatMap (fun c => if c = markerChar then [markerChar, markerChar] else [c])

/-- Embeds `safeStringEncodeNums` (src lines 197-236): double pre-existing
markers, then replace every number-regex match that is not inside a
string literal by a quoted, marker-prefixed copy. -/
def safeStringEncodeNums (jsonString : String) : String :=
  let viewString := doubleMarkersL jsonString.data
  String.mk (safeGoT viewString.length viewString false).1

/-- One number-regex match of the scan, with the full already-consumed
prefix (`absPre`), the unmatched chunk since the previous match
(`localPre`), the matched characters, and the inside-string
classification. -/
structure MatchPiece where
  absPre : List Char
  localPre : List Char
  matchStr : List Char
  inside : Bool
deriving DecidableEq, Repr

/-- From-scratch decomposition of the text into number-regex matches: the
classification of each match re-scans the entire consumed prefix from
offset 0 with parity initially outside-string (this is the
specification's description of the scan; the source instead carries
incremental state).  Returns the pieces and the leftover text after the
last match. -/
def encodePiecesGo : Nat → List Char → List Char → List MatchPiece × List Char
  | 0, _, rest => ([], rest)
  | fuel + 1, done, rest =>
    match findNum rest with
    | none => ([], rest)
    | some (pre, m, rest2) =>
      let p : MatchPiece := ⟨done ++ pre, pre, m, isInsideQuotes (done ++ pre)⟩
      let r := encodePiecesGo fuel (done ++ pre ++ m) rest2
      (p :: r.1, r.2)

/-- From-scratch match decomposition of a whole text. -/
def encodePieces (cs : List Char) : List MatchPiece × List Char :=
  encodePiecesGo cs.length [] cs

/-- Emission of one piece: the unmatched chunk verbatim, then the match
itself if it is inside a string literal, else the wrapped match. -/
def pieceOut (p : MatchPiece) : List Char :=
  p.localPre ++ (if p.inside then p.matchStr else wrapNumL p.matchStr)

/-- Emission of a whole piece decomposition. -/
def piecesOut (ps : List MatchPiece) (leftover : List Char) : List Char :=
  (ps.map pieceOut).flatten ++ leftover

/-- From-scratch (quadratic re-scan) version of the encoder, following the
specification's description of the quote-parity scan: every match is
classified by scanning the whole consumed prefix from offset 0. -/
def safeStringEncodeNumsSpec (jsonString : String) : String :=
  let viewString := doubleMarkersL jsonString.data
  let r := encodePieces viewString
  String.mk (piecesOut r.1 r.2)

example : numMatch "123x".data = some ("123".data, ['x']) := by decide
example : numMatch "-0.5e+3]".data = some ("-0.5e+3".data, [']']) := by decide
example : numMatch "1e]".data = some (['1'], ['e', ']']) := by decide
example : numMatch "007".data = some (['0'], ['0', '7']) := by decide
example : numMatch "-x".data = none := by decide
example : safeStringEncodeNums "123" = "\"​123\"" := by decide
example : safeStringEncodeNums "[1,2]" = "[\"​1\",\"​2\"]" := by decide
example : safeStringEncodeNums "\x7b\"a\": \"x 42 y\"\x7d" = "\x7b\"a\": \"x 42 y\"\x7d" := by decide
example : safeStringEncodeNums "\x7b\"a\": 5\x7d" = "\x7b\"a\": \"​5\"\x7d" := by decide
example : safeStringEncodeNums "\"a​b\"" = "\"a​​b\"" := by decide
example : safeStringEncodeNums "\"a\\\" 7\"" = "\"a\\\" 7\"" := by decide
example : safeStringEncodeNumsSpec "\x7b\"a\": 5\x7d" = "\x7b\"a\": \"​5\"\x7d" := by decide

/-- JS whitespace class: the characters trimmed by `ToNumber` on strings
and matched by `\s` in regexes. -/
def isJsWS (c : Char) : Bool :=
  ([' ', '\t', '\n', '\r', '\u000B', '\u000C', ' ', '﻿', ' ',
    ' ', ' ', ' ', ' ', ' ', ' ', ' ',
    ' ', ' ', ' ', ' ', ' ', ' ', ' ',
    ' ', '　'] : List Char).contains c

/-- Hexadecimal digit test. -/
def isHexDigitC (c : Char) : Bool :=
  isDigitC c || decide (97 ≤ c.toNat ∧ c.toNat ≤ 102) || decide (65 ≤ c.toNat ∧ c.toNat ≤ 70)

/-- Consume a well-formed exponent part `[eE][+-]?\d+` of a JS string
numeric literal if present; otherwise consume nothing. -/
def jsExpConsume (t : List Char) : List Char :=
  match t with
  | e :: s :: rest =>
    if e = 'e' ∨ e = 'E' then
      if s = '+' ∨ s = '-' then
        match rest with
        | d :: rest2 => if isDigitC d then rest2.dropWhile isDigitC else t
        | [] => t
      else if isDigitC s then rest.dropWhile isDigitC else t
    else t
  | _ => t

/-- Consume a `StrUnsignedDecimalLiteral` other than `Infinity`:
`\d+(\.\d*)?` or `\.\d+`, with optional exponent; leading zeros are legal
here (string-to-number conversion, unlike JSON).  Returns the rest on
success. -/
def jsDecMatch (t : List Char) : Option (List Char) :=
  match t with
  | '.' :: rest =>
    if rest.takeWhile isDigitC = [] then none
    else some (jsExpConsume (rest.dropWhile isDigitC))
  | _ =>
    if t.takeWhile isDigitC = [] then none
    else
      match t.dropWhile isDigitC with
      | '.' :: r2 => some (jsExpConsume (r2.dropWhile isDigitC))
      | r1 => some (jsExpConsume r1)

/-- Full-string test for a JS `StrNumericLiteral` (the non-empty,
already-trimmed case): optionally signed decimal literal or `Infinity`,
or an unsigned `0x`/`0o`/`0b` literal. -/
def jsNumericLiteral (t : List Char) : Bool :=
  let core := fun (u : List Char) =>
    decide (u = "Infinity".data) ||
      (match jsDecMatch u with
       | some [] => true
       | _ => false)
  match t with
  | '+' :: rest => core rest
  | '-' :: rest => core rest
  | '0' :: x :: rest =>
    core ('0' :: x :: rest) ||
      ((decide (x = 'x') || decide (x = 'X')) && !rest.isEmpty && rest.all isHexDigitC) ||
      ((decide (x = 'o') || decide (x = 'O')) && !rest.isEmpty &&
        rest.all (fun c => decide (48 ≤ c.toNat ∧ c.toNat ≤ 55))) ||
      ((decide (x = 'b') || decide (x = 'B')) && !rest.isEmpty &&
        rest.all (fun c => c = '0' ∨ c = '1'))
  | _ => core t

/-- Model of JS `isNaN(s)` for a string argument: `ToNumber` trims JS
whitespace, maps the empty remainder to `0`, parses a `StrNumericLiteral`,
and yields `NaN` (so `isNaN` is `true`) exactly when that fails. -/
def strToNumberIsNaN (s : List Char) : Bool :=
  let t := ((s.dropWhile isJsWS).reverse.dropWhile isJsWS).reverse
  if t.isEmpty then false else !jsNumericLiteral t

/-- Lower-casing of ASCII letters, for the case-insensitive URL regex. -/
def asciiLower (c : Char) : Char :=
  if 65 ≤ c.toNat ∧ c.toNat ≤ 90 then Char.ofNat (c.toNat + 32) else c

/-- Scheme test helper: the lower-cased text starts with the scheme and
the remainder is one or more non-whitespace characters ending the
string. -/
def urlCheck (cs sch : List Char) : Bool :=
  decide (cs.take sch.length = sch) && !(cs.drop sch.length).isEmpty &&
    (cs.drop sch.length).all (fun c => !isJsWS c)

/-- Model of the source's URL regex test
`/^(http|https|file):\/\/[^\s]+$/i.test(value)`. -/
def urlTest (s : String) : Bool :=
  let cs := s.data.map asciiLower
  urlCheck cs ("http://".data) || urlCheck cs ("https://".data) ||
    urlCheck cs ("file://".data)

/-- Parsed JSON value, as delivered by `JSON.parse` to the renderer.
`num` carries the display string of the JS number (its `toString`
rendering); in the verified pipeline the encoder runs first, so no `num`
value ever reaches the renderer and no binary64 semantics are modelled.
`obj` keeps the property creation order of the parsed document. -/
inductive PValue where
  | null : PValue
  | bool (b : Bool) : PValue
  | num (display : String) : PValue
  | str (s : String) : PValue
  | arr (elems : List PValue) : PValue
  | obj (props : List (String × PValue)) : PValue

/-- Marker test of the renderer's special string branch:
`value.charCodeAt(0) === 8203 && !isNaN(value.slice(1))`. -/
def markerNumTest (s : String) : Bool :=
  match s.data with
  | c :: rest => decide (c.toNat = 8203) && !strToNumberIsNaN rest
  | [] => false

/-- JS `value.slice(1)` on a string. -/
def sliceFrom1 (s : String) : String := String.mk s.data.tail

/-- String dispatch of `valueToHTML` (src lines 78-90): marker-prefixed
number-like strings render as bare numeric tokens, URLs as links wrapping
the quoted escaped string, everything else as a quoted escaped string. -/
def stringToHTML (s : String) : String :=
  if markerNumTest s then decorateWithSpan (sliceFrom1 s) "num"
  else if urlTest s then
    "<a href=\"" ++ htmlEncode s ++ "\"><span class=\"q\">&quot;</span>" ++
      jsString s ++ "<span class=\"q\">&quot;</span></a>"
  else "<span class=\"string\">&quot;" ++ jsString s ++ "&quot;</span>"

/-- Numeric value of a digit string (used for array-index ordering). -/
def digitsToNat (ds : List Char) : Nat :=
  ds.foldl (fun acc c => acc * 10 + (c.toNat - 48)) 0

/-- Canonical array-index test: a key enumerated first by JS `for`-`in`,
i.e. the canonical decimal form of an integer in `[0, 2^32-1)`. -/
def isArrayIndexKey (k : String) : Bool :=
  !k.data.isEmpty && k.data.all isDigitC &&
    (decide (k.data = ['0']) || decide (k.data.head? ≠ some '0')) &&
    decide (digitsToNat k.data < 4294967295)

/-- Stable insertion (ascending numeric key) used to model the integer
part of `for`-`in` enumeration order. -/
def insertByKey (x : String × PValue) : List (String × PValue) → List (String × PValue)
  | [] => [x]
  | y :: ys =>
    if digitsToNat x.1.data < digitsToNat y.1.data then x :: y :: ys
    else y :: insertByKey x ys

/-- JS `for (const prop in json)` enumeration order over the object's own
properties: canonical array-index keys first in ascending numeric order,
then the remaining keys in property creation order. -/
def jsForInOrder (ps : List (String × PValue)) : List (String × PValue) :=
  (ps.filter (fun p => isArrayIndexKey p.1)).foldl (fun acc x => insertByKey x acc) [] ++
    ps.filter (fun p => !isArrayIndexKey p.1)

/-- Loop body of `arrayToHTML` (src lines 101-109): one `<li>` per
element, comma after every element except the last, the element rendered
at path `path[i]` by the supplied recursive renderer `g`. -/
def arrayItemsGo (g : PValue → String → String) (path : String) :
    List PValue → Nat → Nat → String
  | [], _, _ => ""
  | v :: rest, i, len =>
    "<li>" ++ g v (path ++ "[" ++ toString i ++ "]") ++
      (if i < len - 1 then "," else "") ++ "</li>" ++
      arrayItemsGo g path rest (i + 1) len

/-- Embeds `arrayToHTML` (src lines 97-112) over a recursive renderer
`g`. -/
def arrayBodyCore (g : PValue → String → String) (json : List PValue) (path : String) :
    String :=
  if json.length = 0 then "[ ]"
  else
    (if json.length = 0 then "" else "<span class=\"collapser\"></span>") ++
      "[<ul class=\"array collapsible\">" ++ arrayItemsGo g path json 0 json.length ++
      "</ul>]"

/-- Property label and value of one `objectToHTML` loop iteration (src
lines 120-135): a quoted label (bare keys extend the path and carry it as
the `title` attribute; non-bare keys get the `quoted` class, an empty
sub-path, and an empty title) followed by `": "` and the value rendered
at the sub-path by the supplied recursive renderer `g`. -/
def propItemCore (g : PValue → String → String) (path : String) (p : String × PValue) :
    String :=
  let escapedProp := String.mk (jsonEscape p.1.data)
  let bare := isBareProp p.1
  let subPath := if bare then path ++ "." ++ escapedProp else ""
  "<span class=\"prop" ++ (if bare then "" else " quoted") ++ "\" title=\"" ++
    htmlEncode subPath ++ "\"><span class=\"q\">&quot;</span>" ++ jsString p.1 ++
    "<span class=\"q\">&quot;</span></span>: " ++ g p.2 subPath

/-- Loop of `objectToHTML` (src lines 120-136): one `<li>` per property,
comma while `numProps > 1`, counting down. -/
def objItemsGo (g : PValue → String → String) (path : String) :
    List (String × PValue) → Nat → String
  | [], _ => ""
  | (prop, v) :: rest, numProps =>
    "<li>" ++ propItemCore g path (prop, v) ++
      (if numProps > 1 then "," else "") ++ "</li>" ++
      objItemsGo g path rest (numProps - 1)

/-- Embeds `objectToHTML` (src lines 114-138) over a recursive renderer
`g`; property enumeration follows JS `for`-`in` order. -/
def objBodyCore (g : PValue → String → String) (json : List (String × PValue))
    (path : String) : String :=
  let ordered := jsForInOrder json
  if ordered.length = 0 then "\x7b \x7d"
  else
    "<span class=\"collapser\"></span>\x7b<ul class=\"obj collapsible\">" ++
      objItemsGo g path ordered ordered.length ++ "</ul>\x7d"

/-- Fueled form of the mutually recursive
`valueToHTML`/`arrayToHTML`/`objectToHTML` (src lines 64-138): one unit
of fuel per nesting level, so `sizeOf value` always suffices. -/
def renderF : Nat → PValue → String → String
  | 0, _, _ => ""
  | fuel + 1, v, path =>
    match v with
    | .null => decorateWithSpan "null" "null"
    | .arr l => arrayBodyCore (renderF fuel) l path
    | .obj ps => objBodyCore (renderF fuel) ps path
    | .num display => decorateWithSpan display "num"
    | .str s => stringToHTML s
    | .bool b => decorateWithSpan (if b then "true" else "false") "bool"

mutual

/-- Structural node-count of a parsed value, used as render fuel
(`pvSize v` strictly exceeds the nesting depth of `v`). -/
def pvSize : PValue → Nat
  | .null => 1
  | .bool _b => 1
  | .num _d => 1
  | .str _t => 1
  | .arr l => pvSizeList l + 1
  | .obj ps => pvSizeProps ps + 1

/-- Node-count of an element list. -/
def pvSizeList : List PValue → Nat
  | [] => 1
  | v :: rest => pvSize v + pvSizeList rest

/-- Node-count of a property list. -/
def pvSizeProps : List (String × PValue) → Nat
  | [] => 1
  | (_k, v) :: more => pvSize v + pvSizeProps more

end

/-- Embeds `valueToHTML` (src lines 64-95). -/
def valueToHTML (value : PValue) (path : String) : String :=
  renderF (pvSize value) value path

/-- Embeds `arrayToHTML` (src lines 97-112). -/
def arrayToHTML (json : List PValue) (path : String) : String :=
  arrayBodyCore valueToHTML json path

/-- Embeds `objectToHTML` (src lines 114-138). -/
def objectToHTML (json : List (String × PValue)) (path : String) : String :=
  objBodyCore valueToHTML json path

/-- Embeds `jsonToHTMLBody` (src lines 13-15). -/
def jsonToHTMLBody (json : PValue) : String :=
  "<div id=\"json\">" ++ valueToHTML json "<root>" ++ "</div>"

example : valueToHTML .null "p" = "<span class=\"null\">null</span>" := by decide
example : valueToHTML (.bool true) "p" = "<span class=\"bool\">true</span>" := by decide
example : valueToHTML (.str "​12345678901234567890") "p" =
    "<span class=\"num\">12345678901234567890</span>" := by decide
example : valueToHTML (.str "​12a") "p" =
    "<span class=\"string\">&quot;​12a&quot;</span>" := by decide
example : valueToHTML (.str "​") "p" = "<span class=\"num\"></span>" := by decide
example : valueToHTML (.str "​ 12 ") "p" = "<span class=\"num\"> 12 </span>" := by decide
example : valueToHTML (.arr []) "p" = "[ ]" := by decide
example : valueToHTML (.arr [.null, .bool false]) "p" =
    "<span class=\"collapser\"></span>[<ul class=\"array collapsible\">" ++
    "<li><span class=\"null\">null</span>,</li><li><span class=\"bool\">false</span></li></ul>]" := by
  decide
example : valueToHTML (.obj []) "p" = "\x7b \x7d" := by decide
example : strToNumberIsNaN "0x1F".data = false := by decide
example : strToNumberIsNaN "Infinity".data = false := by decide
example : strToNumberIsNaN " 12 ".data = false := by decide
example : strToNumberIsNaN "".data = false := by decide
example : strToNumberIsNaN "12a".data = true := by decide
example : urlTest "HTTP://x.y/z" = true := by decide
example : urlTest "http://a b" = false := by decide
example : urlTest "http://" = false := by decide

/-- JSON source whitespace (the set skipped by `JSON.parse`). -/
def isJsonWS (c : Char) : Bool := c = ' ' ∨ c = '\t' ∨ c = '\n' ∨ c = '\r'

/-- Skip JSON whitespace. -/
def skipWs (cs : List Char) : List Char := cs.dropWhile isJsonWS

/-- Hex digit value. -/
def hexVal (c : Char) : Option Nat :=
  if isDigitC c then some (c.toNat - 48)
  else if decide (97 ≤ c.toNat ∧ c.toNat ≤ 102) then some (c.toNat - 87)
  else if decide (65 ≤ c.toNat ∧ c.toNat ≤ 70) then some (c.toNat - 55)
  else none

/-- JSON string body parser (model of `JSON.parse` string handling),
starting after the opening quote; returns the decoded characters and the
input after the closing quote.  `\uXXXX` escapes decode through
`Char.ofNat`; lone-surrogate escapes (impossible in this pipeline's
inputs) are not modelled beyond that. -/
def parseStr : List Char → Option (List Char × List Char)
  | [] => none
  | c :: rest =>
    if c = '"' then some ([], rest)
    else if c = '\\' then
      match rest with
      | [] => none
      | e :: rest2 =>
        if e = 'u' then
          match rest2 with
          | a :: b :: c2 :: d :: rest3 =>
            match hexVal a, hexVal b, hexVal c2, hexVal d with
            | some ha, some hb, some hc, some hd =>
              match parseStr rest3 with
              | some (s, r) =>
                some (Char.ofNat (((ha * 16 + hb) * 16 + hc) * 16 + hd) :: s, r)
              | none => none
            | _, _, _, _ => none
          | _ => none
        else
          match parseStr rest2 with
          | some (s, r) =>
            if e = '"' then some ('"' :: s, r)
            else if e = '\\' then some ('\\' :: s, r)
            else if e = '/' then some ('/' :: s, r)
            else if e = 'b' then some ('\u0008' :: s, r)
            else if e = 'f' then some ('\u000C' :: s, r)
            else if e = 'n' then some ('\n' :: s, r)
            else if e = 'r' then some ('\r' :: s, r)
            else if e = 't' then some ('\t' :: s, r)
            else none
          | none => none
    else if c.toNat < 32 then none
    else
      match parseStr rest with
      | some (s, r) => some (c :: s, r)
      | none => none

/-- Array element list parser over a value parser `g`: value, then `,`
and further elements or the closing bracket. -/
def parseElemsF (g : List Char → Option (PValue × List Char)) :
    Nat → List Char → Option (List PValue × List Char)
  | 0, _ => none
  | fuel + 1, cs =>
    match g cs with
    | none => none
    | some (pv, ra) =>
      match skipWs ra with
      | ',' :: rb =>
        match parseElemsF g fuel (skipWs rb) with
        | some (tl, rc) => some (pv :: tl, rc)
        | none => none
      | ']' :: rb => some ([pv], rb)
      | _ => none

/-- Object member list parser over a value parser `g`: quoted key, `:`,
value, then `,` and further members or the closing brace. -/
def parseMembersF (g : List Char → Option (PValue × List Char)) :
    Nat → List Char → Option (List (String × PValue) × List Char)
  | 0, _ => none
  | fuel + 1, cs =>
    match cs with
    | '"' :: ks =>
      match parseStr ks with
      | none => none
      | some (key, ra) =>
        match skipWs ra with
        | ':' :: rb =>
          match g (skipWs rb) with
          | none => none
          | some (pv, rc) =>
            match skipWs rc with
            | ',' :: rd =>
              match parseMembersF g fuel (skipWs rd) with
              | some (mm, re) => some ((String.mk key, pv) :: mm, re)
              | none => none
            | '\x7d' :: rd => some ([(String.mk key, pv)], rd)
            | _ => none
        | _ => none
    | _ => none

/-- Fueled JSON value parser (model of `JSON.parse`): literals, strings,
numbers (kept as their source token, see `PValue.num`), arrays, objects.
Objects are returned as property lists in document order; the pipeline
only ever parses documents with distinct keys, so JS duplicate-key
overwriting is not modelled. -/
def parseValF : Nat → List Char → Option (PValue × List Char)
  | 0, _ => none
  | fuel + 1, cs =>
    match cs with
    | 'n' :: 'u' :: '\x6c' :: 'l' :: rest => some (.null, rest)
    | 't' :: '\x72' :: 'u' :: 'e' :: rest => some (.bool true, rest)
    | 'f' :: 'a' :: '\x6c' :: 's' :: 'e' :: rest => some (.bool false, rest)
    | '"' :: rest =>
      match parseStr rest with
      | some (s, r) => some (.str (String.mk s), r)
      | none => none
    | '[' :: rest =>
      match skipWs rest with
      | ']' :: r2 => some (.arr [], r2)
      | r1 =>
        match parseElemsF (parseValF fuel) (r1.length + 1) r1 with
        | some (vs, r) => some (.arr vs, r)
        | none => none
    | '\x7b' :: rest =>
      match skipWs rest with
      | '\x7d' :: r2 => some (.obj [], r2)
      | r1 =>
        match parseMembersF (parseValF fuel) (r1.length + 1) r1 with
        | some (ms, r) => some (.obj ms, r)
        | none => none
    | _ =>
      match numMatch cs with
      | some (m, rest) => some (.num (String.mk m), rest)
      | none => none

/-- Model of `JSON.parse` on a whole document: parse one value surrounded
by optional whitespace; `none` models a thrown `SyntaxError`. -/
def parseJson (s : String) : Option PValue :=
  let cs := skipWs s.data
  match parseValF (cs.length + 1) cs with
  | some (v, rest) => if (skipWs rest).isEmpty then some v else none
  | none => none

/-- Thrown JS error as seen by the error page: only its `message`
property is consumed; a missing or empty message is falsy. -/
structure JsError where
  message : Option String

/-- Result of `massageError`: either the original error passed through
(raw message, no position) or the cleaned record with an HTML-encoded
message and a 1-based line and column. -/
structure ErrorInfo where
  message : Option String
  line : Option Nat
  column : Option Nat
deriving DecidableEq

/-- Strip of the `/^JSON.parse: /` prefix (the unescaped `.` matches any
character except a line terminator). -/
def stripParseHead (cs : List Char) : List Char :=
  match cs with
  | 'J' :: 'S' :: 'O' :: 'N' :: d :: 'p' :: 'a' :: 'r' :: 's' :: 'e' :: ':' :: ' ' :: rest =>
    if d = '\n' ∨ d = '\r' ∨ d = ' ' ∨ d = ' ' then cs else rest
  | _ => cs

/-- Removal of the first occurrence of a literal pattern, modelling
`String.replace` with a non-global literal regex and empty replacement. -/
def removeFirstSub (pat : List Char) : List Char → List Char
  | [] => []
  | c :: cs =>
    if (c :: cs).take pat.length = pat then (c :: cs).drop pat.length
    else c :: removeFirstSub pat cs

/-- Match of `/line (\d+) column (\d+)/` anchored at the head: the two
greedy digit runs as numbers. -/
def lineColHere (cs : List Char) : Option (Nat × Nat) :=
  if cs.take 5 = "line ".data then
    let t := cs.drop 5
    let ds := t.takeWhile isDigitC
    if ds.isEmpty then none
    else
      let t2 := t.dropWhile isDigitC
      if t2.take 8 = " column ".data then
        let ds2 := (t2.drop 8).takeWhile isDigitC
        if ds2.isEmpty then none else some (digitsToNat ds, digitsToNat ds2)
      else none
  else none

/-- Leftmost match of `/line (\d+) column (\d+)/`, as `RegExp.exec`. -/
def findLineCol : List Char → Option (Nat × Nat)
  | [] => none
  | c :: cs =>
    match lineColHere (c :: cs) with
    | some r => some r
    | none => findLineCol cs

/-- Embeds `massageError` (src lines 140-154).  A falsy (absent or empty)
`message` returns the error unchanged; a message without an extractable
`line N column M` pattern also returns the error unchanged (raw message,
no positions, no HTML encoding); only on a successful pattern match are
the stripped, HTML-encoded message and the two numbers returned. -/
def massageError (error : JsError) : ErrorInfo :=
  match error.message with
  | none => ⟨none, none, none⟩
  | some msg =>
    if msg.isEmpty then ⟨some msg, none, none⟩
    else
      let m2 := removeFirstSub ("of the JSON data".data) (stripParseHead msg.data)
      match findLineCol m2 with
      | none => ⟨some msg, none, none⟩
      | some (l, c) => ⟨some (htmlEncode (String.mk m2)), some l, some c⟩

/-- Line splitting of `data.match(/^.*((\r\n|\n|\r)|$)/gm)`: every line
keeps its terminator, and a trailing terminator contributes a final empty
line (the regex's final empty match). -/
def splitLinesGo : Nat → List Char → List (List Char)
  | 0, _ => []
  | fuel + 1, cs =>
    let line := cs.takeWhile (fun c => c ≠ '\r' ∧ c ≠ '\n')
    match cs.dropWhile (fun c => c ≠ '\r' ∧ c ≠ '\n') with
    | '\r' :: '\n' :: r2 => (line ++ ['\r', '\n']) :: splitLinesGo fuel r2
    | '\r' :: r2 => (line ++ ['\r']) :: splitLinesGo fuel r2
    | '\n' :: r2 => (line ++ ['\n']) :: splitLinesGo fuel r2
    | _ => [line]

/-- Line splitting with terminators kept. -/
def splitLinesKeep (cs : List Char) : List (List Char) :=
  splitLinesGo (cs.length + 1) cs

/-- Falsiness of a JS number-or-undefined: `undefined` and `0` are
falsy. -/
def jsFalsyNat : Option Nat → Bool
  | none => true
  | some n => n = 0

/-- Loop of `highlightError` over the split lines: the error line is
emitted in three HTML-escaped spans (before the column, the single
character at the column, after it); all other lines are HTML-escaped
verbatim. -/
def highlightGo (lineIdx colIdx : Nat) : List (List Char) → Nat → String
  | [], _ => ""
  | line :: rest, i =>
    (if i = lineIdx - 1 then
      "<span class=\"errorline\">" ++ htmlEncode (String.mk (line.take (colIdx - 1))) ++
        "<span class=\"errorcolumn\">" ++
        htmlEncodeOpt (((line.drop (colIdx - 1)).head?).map (fun c => String.mk [c])) ++
        "</span>" ++ htmlEncode (String.mk (line.drop colIdx)) ++ "</span>"
    else htmlEncode (String.mk line)) ++ highlightGo lineIdx colIdx rest (i + 1)

/-- Embeds `highlightError` (src lines 155-173): without a truthy line
and column, the whole text is HTML-escaped with no markup; otherwise the
reported line is split around the reported column and highlighted. -/
def highlightError (data : String) (lineNum columnNum : Option Nat) : String :=
  if jsFalsyNat lineNum || jsFalsyNat columnNum then htmlEncode data
  else
    highlightGo (lineNum.getD 0) (columnNum.getD 0) (splitLinesKeep data.data) 0

/-- First-occurrence single-character replacement, modelling JS
`String.replace` with a string pattern (`data.replace("\u0000",
"�")` replaces only the first NUL). -/
def replaceFirstChar (p r : Char) : List Char → List Char
  | [] => []
  | c :: cs => if c = p then r :: cs else c :: replaceFirstChar p r cs

/-- Embeds `errorPageBody` (src lines 21-31).  The host-supplied
localized banner `chrome.i18n.getMessage('errorParsing')` is abstracted
as the `errorParsingMsg` argument (host API, not part of the core). -/
def errorPageBody (errorParsingMsg : String) (error : JsError) (data : String) : String :=
  let data2 := String.mk (replaceFirstChar '\u0000' '�' data.data)
  let errorInfo := massageError error
  "<div id=\"error\">" ++ errorParsingMsg ++
    (match errorInfo.message with
     | some m => if m.isEmpty then "" else "<div class=\"errormessage\">" ++ m ++ "</div>"
     | none => "") ++
    "</div><div id=\"json\">" ++
    highlightError data2 errorInfo.line errorInfo.column ++ "</div>"

example : parseJson "\x7b\"a\": [1, true, \"x\"]\x7d" =
    some (.obj [("a", .arr [.num "1", .bool true, .str "x"])]) := rfl
example : parseJson "\"a\\u0041\\n\"" = some (.str "aA\n") := rfl
example : parseJson "[1," = none := rfl
example : parseJson (safeStringEncodeNums "\x7b\"a\":12345678901234567890\x7d") =
    some (.obj [("a", .str "​12345678901234567890")]) := rfl
example : massageError ⟨some "JSON.parse: unexpected character at line 2 column 5 of the JSON data"⟩ =
    ⟨some "unexpected character at line 2 column 5 ", some 2, some 5⟩ := by decide
example : massageError ⟨some "Unexpected token < in JSON"⟩ =
    ⟨some "Unexpected token < in JSON", none, none⟩ := by decide
example : splitLinesKeep "a\nb".data = [['a', '\n'], ['b']] := by decide
example : splitLinesKeep "a\r\n".data = [['a', '\r', '\n'], []] := by decide
example : highlightError "ab\ncd" (some 2) (some 1) =
    "ab\n<span class=\"errorline\"><span class=\"errorcolumn\">c</span>d</span>" := by decide
example : errorPageBody "EP" ⟨some "boom"⟩ "x<y" =
    "<div id=\"error\">EP<div class=\"errormessage\">boom</div></div>" ++
    "<div id=\"json\">x&lt;y</div>" := by decide

mutual

/-- Compact serialization of a value tree: the canonical (whitespace-free)
JSON text in which every `num` leaf appears as its literal token.  This
generates the family of valid JSON documents the round-trip theorems
quantify over. -/
def serVal : PValue → List Char
  | .null => "null".data
  | .bool b => if b then "true".data else "false".data
  | .num s => s.data
  | .str s => '"' :: (jsonEscape s.data ++ ['"'])
  | .arr l => '[' :: (serElems l ++ [']'])
  | .obj ps => '\x7b' :: (serMembers ps ++ ['\x7d'])

/-- Serialization of array elements, comma-separated. -/
def serElems : List PValue → List Char
  | [] => []
  | [v] => serVal v
  | v :: rest => serVal v ++ ',' :: serElems rest

/-- Serialization of object members, comma-separated. -/
def serMembers : List (String × PValue) → List Char
  | [] => []
  | [(k, v)] => '"' :: (jsonEscape k.data ++ '"' :: ':' :: serVal v)
  | (k, v) :: rest =>
    '"' :: (jsonEscape k.data ++ '"' :: ':' :: serVal v) ++ ',' :: serMembers rest

end

/-- Serialization of a value tree as a string document. -/
def serialize (v : PValue) : String := String.mk (serVal v)

mutual

/-- Marker doubling lifted to parsed values: the effect of the encoder's
first pass (`replace(/​/g, "​​")`) on every string and key of the
document. -/
def doubleVal : PValue → PValue
  | .null => .null
  | .bool b => .bool b
  | .num s => .num s
  | .str s => .str (String.mk (doubleMarkersL s.data))
  | .arr l => .arr (doubleValList l)
  | .obj ps => .obj (doubleValProps ps)

/-- Marker doubling over element lists. -/
def doubleValList : List PValue → List PValue
  | [] => []
  | v :: rest => doubleVal v :: doubleValList rest

/-- Marker doubling over property lists (keys included). -/
def doubleValProps : List (String × PValue) → List (String × PValue)
  | [] => []
  | (k, v) :: rest => (String.mk (doubleMarkersL k.data), doubleVal v) :: doubleValProps rest

end

mutual

/-- Number wrapping lifted to parsed values: the effect of the encoder's
second pass, turning every number value into a marker-prefixed string. -/
def wrapNums : PValue → PValue
  | .null => .null
  | .bool b => .bool b
  | .num s => .str (String.mk (markerChar :: s.data))
  | .str s => .str s
  | .arr l => .arr (wrapNumsList l)
  | .obj ps => .obj (wrapNumsProps ps)

/-- Number wrapping over element lists. -/
def wrapNumsList : List PValue → List PValue
  | [] => []
  | v :: rest => wrapNums v :: wrapNumsList rest

/-- Number wrapping over property lists. -/
def wrapNumsProps : List (String × PValue) → List (String × PValue)
  | [] => []
  | (k, v) :: rest => (k, wrapNums v) :: wrapNumsProps rest

end

/-- Image of a document under the whole encoder: markers doubled in all
strings and keys, then every number value tagged as a marker-prefixed
string.  `parse (encode (serialize v)) = decorate v`. -/
def decorate (v : PValue) : PValue := wrapNums (doubleVal v)

/-- Full-token test for the JSON number grammar. -/
def jsonNumberB (s : List Char) : Bool := decide (numMatch s = some (s, []))

mutual

/-- Well-formedness of a document tree: every number leaf is a legal JSON
number token, and object keys are distinct (the pipeline's parser model
keeps duplicate keys, JS would collapse them). -/
def wfVal : PValue → Bool
  | .null => true
  | .bool _ => true
  | .num s => jsonNumberB s.data
  | .str _ => true
  | .arr l => wfList l
  | .obj ps => wfProps ps && decide ((ps.map Prod.fst).Nodup)

/-- Well-formedness over element lists. -/
def wfList : List PValue → Bool
  | [] => true
  | v :: rest => wfVal v && wfList rest

/-- Well-formedness over property lists. -/
def wfProps : List (String × PValue) → Bool
  | [] => true
  | (_, v) :: rest => wfVal v && wfProps rest

end

example : serialize (.obj [("a", .num "5"), ("b", .arr [.str "x\"y", .null])]) =
    "\x7b\"a\":5,\"b\":[\"x\\\"y\",null]\x7d" := by decide
example :
    parseJson (safeStringEncodeNums (serialize
      (.obj [("a", .num "12345678901234567890"), ("b", .arr [.str "x 42 y", .num "-0.5e+7"])]))) =
    some (decorate
      (.obj [("a", .num "12345678901234567890"), ("b", .arr [.str "x 42 y", .num "-0.5e+7"])])) := rfl
example : wfVal (.obj [("a", .num "12345678901234567890")]) = true := by decide

/-- Per-character form of `htmlEncode` (proved equal to the four chained
replaces below). -/
def htmlEncChar (c : Char) : List Char :=
  if c = '&' then "&amp;".data
  else if c = '"' then "&quot;".data
  else if c = '<' then "&lt;".data
  else if c = '>' then "&gt;".data
  else [c]

/-- Safety predicate: no raw double quote, less-than, or greater-than
character occurs. -/
def noRawQLG (cs : List Char) : Bool :=
  cs.all (fun c => c ≠ '"' ∧ c ≠ '<' ∧ c ≠ '>')

/-- Safety predicate: every ampersand starts one of the four entities
`&amp;` `&quot;` `&lt;` `&gt;`. -/
def ampOkL : List Char → Bool
  | [] => true
  | c :: rest =>
    (if c = '&' then
      (decide (rest.take 4 = "amp;".data) || decide (rest.take 5 = "quot;".data) ||
        decide (rest.take 3 = "lt;".data) || decide (rest.take 3 = "gt;".data))
    else true) && ampOkL rest

/-- One step of the forward quote-parity scan: a quote toggles the
inside-string flag when preceded by an even run of backslashes; the run
counter tracks consecutive backslashes. -/
def quoteStep (st : Bool × Nat) (c : Char) : Bool × Nat :=
  if c = '"' then (if st.2 % 2 = 0 then !st.1 else st.1, 0)
  else if c = '\\' then (st.1, st.2 + 1)
  else (st.1, 0)

/-- Forward quote-parity scan over a chunk from a given state. -/
def quoteFold (cs : List Char) (st : Bool × Nat) : Bool × Nat :=
  cs.foldl quoteStep st

/-- Character-driven reference scanner used to relate the incremental and
from-scratch encoders: outside strings it wraps every number match at the
current position, inside strings it copies characters while maintaining
quote parity.  Fueled by input length. -/
def charScan : Nat → List Char → Bool → Nat → List Char
  | 0, rest, _, _ => rest
  | _ + 1, [], _, _ => []
  | fuel + 1, c :: cs, inQ, run =>
    if inQ then
      c :: charScan fuel cs (quoteStep (inQ, run) c).1 (quoteStep (inQ, run) c).2
    else
      match numMatch (c :: cs) with
      | some (m, rest) => wrapNumL m ++ charScan fuel rest false 0
      | none => c :: charScan fuel cs (quoteStep (inQ, run) c).1 (quoteStep (inQ, run) c).2

/-- Comma-separated `<li>` rendering of an item list: a comma after every
item except the last, never a trailing comma. -/
def commaJoinItems : List String → String
  | [] => ""
  | x :: rest =>
    "<li>" ++ x ++ (if rest.isEmpty then "" else ",") ++ "</li>" ++ commaJoinItems rest

/-- Label-and-value rendering of one object property. -/
def propItemHTML (path : String) (p : String × PValue) : String :=
  propItemCore valueToHTML path p

/-- Rendering of one array element at its indexed sub-path. -/
def arrayItemHTML (path : String) (iv : Nat × PValue) : String :=
  valueToHTML iv.2 (path ++ "[" ++ toString iv.1 ++ "]")

example : ampOkL ("a&amp;b&quot;".data) = true := by decide
example : ampOkL ("a&b".data) = false := by decide
example : commaJoinItems ["a", "b", "c"] = "<li>a" ++ "," ++ "</li>" ++ ("<li>b" ++ "," ++ "</li>" ++ ("<li>c" ++ "" ++ "</li>" ++ "")) := by decide

/-- Characters a number-regex match can contain. -/
def numberChar (c : Char) : Bool :=
  isDigitC c || c = '-' || c = '.' || c = 'e' || c = 'E' || c = '+'

theorem strData_append (a b : String) : (a ++ b).data = a.data ++ b.data := rfl

theorem strMk_append (a b : List Char) :
    String.mk a ++ String.mk b = String.mk (a ++ b) := rfl

theorem strAssoc (a b c : String) : a ++ b ++ c = a ++ (b ++ c) := by
  cases a; cases b; cases c
  simp [strMk_append, List.append_assoc]

theorem replaceAllC_append (p : Char) (r a b : List Char) :
    replaceAllC p r (a ++ b) = replaceAllC p r a ++ replaceAllC p r b := by
  simp [replaceAllC]

theorem htmlEncodeL_cons (c : Char) (cs : List Char) :
    htmlEncodeL (c :: cs) = htmlEncChar c ++ htmlEncodeL cs := by
  by_cases h1 : c = '&'
  · subst h1; rfl
  by_cases h2 : c = '"'
  · subst h2; rfl
  by_cases h3 : c = '<'
  · subst h3; rfl
  by_cases h4 : c = '>'
  · subst h4; rfl
  simp [htmlEncodeL, replaceAllC, htmlEncChar, h1, h2, h3, h4]

theorem htmlEncodeL_eq_flatMap (cs : List Char) : htmlEncodeL cs = cs.flatMap htmlEncChar := by
  induction cs with
  | nil => rfl
  | cons c cs ih => rw [htmlEncodeL_cons, ih, List.flatMap_cons]

theorem noRawQLG_append (a b : List Char) :
    noRawQLG (a ++ b) = (noRawQLG a && noRawQLG b) := by
  simp [noRawQLG]

theorem htmlEncChar_noRaw (c : Char) : noRawQLG (htmlEncChar c) = true := by
  by_cases h1 : c = '&'
  · subst h1; decide
  by_cases h2 : c = '"'
  · subst h2; decide
  by_cases h3 : c = '<'
  · subst h3; decide
  by_cases h4 : c = '>'
  · subst h4; decide
  simp [htmlEncChar, h1, h2, h3, h4, noRawQLG]

theorem htmlEncodeL_noRaw (cs : List Char) : noRawQLG (htmlEncodeL cs) = true := by
  induction cs with
  | nil => decide
  | cons c cs ih =>
    rw [htmlEncodeL_cons, noRawQLG_append, htmlEncChar_noRaw, ih]
    decide

theorem ampOkL_cons (c : Char) (rest : List Char) :
    ampOkL (c :: rest) =
      ((if c = '&' then
        (decide (rest.take 4 = "amp;".data) || decide (rest.take 5 = "quot;".data) ||
          decide (rest.take 3 = "lt;".data) || decide (rest.take 3 = "gt;".data))
      else true) && ampOkL rest) := rfl

theorem take_append_of_take_eq {l pat b : List Char} {n : Nat} (hn : pat.length = n)
    (h : l.take n = pat) : (l ++ b).take n = pat := by
  have hlen : n ≤ l.length := by
    have := congrArg List.length h
    simp [hn] at this
    omega
  rw [List.take_append_of_le_length hlen, h]

theorem ampOkL_append {a b : List Char} (ha : ampOkL a = true) (hb : ampOkL b = true) :
    ampOkL (a ++ b) = true := by
  induction a with
  | nil => simpa using hb
  | cons c rest ih =>
    rw [ampOkL_cons, Bool.and_eq_true] at ha
    rw [List.cons_append, ampOkL_cons, Bool.and_eq_true]
    refine ⟨?_, ih ha.2⟩
    by_cases hc : c = '&'
    · have h1 := ha.1
      simp only [hc, if_pos, Bool.or_eq_true, decide_eq_true_eq] at h1
      simp only [hc, if_pos, Bool.or_eq_true, decide_eq_true_eq]
      rcases h1 with ((h | h) | h) | h
      · exact Or.inl (Or.inl (Or.inl (take_append_of_take_eq (by decide) h)))
      · exact Or.inl (Or.inl (Or.inr (take_append_of_take_eq (by decide) h)))
      · exact Or.inl (Or.inr (take_append_of_take_eq (by decide) h))
      · exact Or.inr (take_append_of_take_eq (by decide) h)
    · simp [hc]

theorem htmlEncChar_amp (c : Char) (rest : List Char) (hrest : ampOkL rest = true) :
    ampOkL (htmlEncChar c ++ rest) = true := by
  by_cases h1 : c = '&'
  · subst h1; simpa [htmlEncChar, ampOkL_cons] using hrest
  by_cases h2 : c = '"'
  · subst h2; simpa [htmlEncChar, ampOkL_cons] using hrest
  by_cases h3 : c = '<'
  · subst h3; simpa [htmlEncChar, ampOkL_cons] using hrest
  by_cases h4 : c = '>'
  · subst h4; simpa [htmlEncChar, ampOkL_cons] using hrest
  simpa [htmlEncChar, h1, h2, h3, h4, ampOkL_cons] using hrest

theorem htmlEncodeL_amp (cs : List Char) : ampOkL (htmlEncodeL cs) = true := by
  induction cs with
  | nil => decide
  | cons c cs ih => rw [htmlEncodeL_cons]; exact htmlEncChar_amp c _ ih

theorem htmlEncode_noRaw (t : String) : noRawQLG (htmlEncode t).data = true :=
  htmlEncodeL_noRaw t.data

theorem htmlEncode_amp (t : String) : ampOkL (htmlEncode t).data = true :=
  htmlEncodeL_amp t.data

theorem pvSize_pos (v : PValue) : 1 ≤ pvSize v := by
  cases v <;> simp [pvSize]

theorem pvSizeList_mem {v : PValue} {l : List PValue} (h : v ∈ l) :
    pvSize v ≤ pvSizeList l := by
  induction l with
  | nil => cases h
  | cons a rest ih =>
    rcases List.mem_cons.mp h with rfl | h2
    · simp [pvSizeList]
    · have := ih h2
      simp [pvSizeList]
      omega

theorem pvSizeProps_mem {k : String} {v : PValue} {ps : List (String × PValue)}
    (h : (k, v) ∈ ps) : pvSize v ≤ pvSizeProps ps := by
  induction ps with
  | nil => cases h
  | cons a rest ih =>
    obtain ⟨ak, av⟩ := a
    rcases List.mem_cons.mp h with heq | h2
    · cases heq
      simp [pvSizeProps]
    · have := ih h2
      simp [pvSizeProps]
      omega

theorem insertByKey_mem {x y : String × PValue} {l : List (String × PValue)} :
    x ∈ insertByKey y l ↔ x = y ∨ x ∈ l := by
  induction l with
  | nil => simp [insertByKey]
  | cons z zs ih =>
    simp only [insertByKey]
    split
    · simp [List.mem_cons]
    · simp only [List.mem_cons, ih]
      tauto

theorem foldlInsert_mem {l : List (String × PValue)} {acc : List (String × PValue)}
    {x : String × PValue} :
    x ∈ l.foldl (fun a z => insertByKey z a) acc ↔ x ∈ acc ∨ x ∈ l := by
  induction l generalizing acc with
  | nil => simp
  | cons z zs ih =>
    simp only [List.foldl_cons, ih, insertByKey_mem, List.mem_cons]
    tauto

theorem jsForInOrder_mem {x : String × PValue} {ps : List (String × PValue)}
    (h : x ∈ jsForInOrder ps) : x ∈ ps := by
  unfold jsForInOrder at h
  rcases List.mem_append.mp h with h1 | h1
  · rcases foldlInsert_mem.mp h1 with h2 | h2
    · cases h2
    · exact (List.mem_filter.mp h2).1
  · exact (List.mem_filter.mp h1).1

theorem arrayItemsGo_congr {g₁ g₂ : PValue → String → String} (path : String)
    (l : List PValue) (i len : Nat) (h : ∀ v ∈ l, ∀ p, g₁ v p = g₂ v p) :
    arrayItemsGo g₁ path l i len = arrayItemsGo g₂ path l i len := by
  induction l generalizing i with
  | nil => rfl
  | cons v rest ih =>
    simp only [arrayItemsGo]
    rw [h v (List.mem_cons_self _ _), ih _ (fun x hx p => h x (List.mem_cons_of_mem _ hx) p)]

theorem propItemCore_congr {g₁ g₂ : PValue → String → String} (path : String)
    (p : String × PValue) (h : ∀ q, g₁ p.2 q = g₂ p.2 q) :
    propItemCore g₁ path p = propItemCore g₂ path p := by
  simp only [propItemCore, h]

theorem objItemsGo_congr {g₁ g₂ : PValue → String → String} (path : String)
    (l : List (String × PValue)) (n : Nat)
    (h : ∀ kv ∈ l, ∀ p, g₁ kv.2 p = g₂ kv.2 p) :
    objItemsGo g₁ path l n = objItemsGo g₂ path l n := by
  induction l generalizing n with
  | nil => rfl
  | cons kv rest ih =>
    obtain ⟨k, v⟩ := kv
    simp only [objItemsGo]
    rw [propItemCore_congr path (k, v) (h (k, v) (List.mem_cons_self _ _)),
      ih _ (fun x hx p => h x (List.mem_cons_of_mem _ hx) p)]

theorem arrayBodyCore_congr {g₁ g₂ : PValue → String → String} (path : String)
    (l : List PValue) (h : ∀ v ∈ l, ∀ p, g₁ v p = g₂ v p) :
    arrayBodyCore g₁ l path = arrayBodyCore g₂ l path := by
  unfold arrayBodyCore
  rw [arrayItemsGo_congr path l 0 l.length h]

theorem objBodyCore_congr {g₁ g₂ : PValue → String → String} (path : String)
    (ps : List (String × PValue)) (h : ∀ kv ∈ ps, ∀ p, g₁ kv.2 p = g₂ kv.2 p) :
    objBodyCore g₁ ps path = objBodyCore g₂ ps path := by
  simp only [objBodyCore]
  rw [objItemsGo_congr path (jsForInOrder ps) (jsForInOrder ps).length
    (fun kv hkv p => h kv (jsForInOrder_mem hkv) p)]

theorem renderF_fuel (n : Nat) : ∀ (v : PValue) (path : String) (f g : Nat),
    pvSize v ≤ n → pvSize v ≤ f → pvSize v ≤ g → renderF f v path = renderF g v path := by
  induction n with
  | zero =>
    intro v path f g hn _ _
    have := pvSize_pos v
    omega
  | succ n ih =>
    intro v path f g hn hf hg
    have h1 := pvSize_pos v
    cases f with
    | zero => omega
    | succ f' =>
    cases g with
    | zero => omega
    | succ g' =>
      cases v with
      | null => rfl
      | bool b => rfl
      | num s => rfl
      | str s => rfl
      | arr l =>
        show arrayBodyCore (renderF f') l path = arrayBodyCore (renderF g') l path
        have hsz : pvSizeList l + 1 = pvSize (.arr l) := rfl
        refine arrayBodyCore_congr path l (fun x hx p => ?_)
        have hx1 := pvSizeList_mem hx
        exact ih x p f' g' (by omega) (by omega) (by omega)
      | obj ps =>
        show objBodyCore (renderF f') ps path = objBodyCore (renderF g') ps path
        have hsz : pvSizeProps ps + 1 = pvSize (.obj ps) := rfl
        refine objBodyCore_congr path ps (fun kv hkv p => ?_)
        obtain ⟨k, v⟩ := kv
        have hx1 := pvSizeProps_mem hkv
        exact ih v p f' g' (by omega) (by omega) (by omega)

theorem renderF_eq_valueToHTML {v : PValue} {path : String} {f : Nat} (hf : pvSize v ≤ f) :
    renderF f v path = valueToHTML v path :=
  renderF_fuel f v path f (pvSize v) hf hf (Nat.le_refl _)

theorem valueToHTML_null (path : String) :
    valueToHTML .null path = decorateWithSpan "null" "null" := rfl

theorem valueToHTML_bool (b : Bool) (path : String) :
    valueToHTML (.bool b) path = decorateWithSpan (if b then "true" else "false") "bool" := rfl

theorem valueToHTML_num (s : String) (path : String) :
    valueToHTML (.num s) path = decorateWithSpan s "num" := rfl

theorem valueToHTML_str (s : String) (path : String) :
    valueToHTML (.str s) path = stringToHTML s := rfl

theorem valueToHTML_arr (l : List PValue) (path : String) :
    valueToHTML (.arr l) path = arrayToHTML l path := by
  show arrayBodyCore (renderF (pvSizeList l)) l path = arrayBodyCore valueToHTML l path
  exact arrayBodyCore_congr path l
    (fun x hx p => renderF_eq_valueToHTML (pvSizeList_mem hx))

theorem valueToHTML_obj (ps : List (String × PValue)) (path : String) :
    valueToHTML (.obj ps) path = objectToHTML ps path := by
  show objBodyCore (renderF (pvSizeProps ps)) ps path = objBodyCore valueToHTML ps path
  refine objBodyCore_congr path ps (fun kv hkv p => ?_)
  obtain ⟨k, v⟩ := kv
  exact renderF_eq_valueToHTML (pvSizeProps_mem hkv)

theorem arrayItemsGo_eq_commaJoin (g : PValue → String → String) (path : String) :
    ∀ (l : List PValue) (i len : Nat), len = i + l.length →
      arrayItemsGo g path l i len =
        commaJoinItems ((List.enumFrom i l).map
          (fun iv => g iv.2 (path ++ "[" ++ toString iv.1 ++ "]"))) := by
  intro l
  induction l with
  | nil => intro i len _; rfl
  | cons v rest ih =>
    intro i len hlen
    simp only [arrayItemsGo, List.enumFrom, List.map_cons, commaJoinItems]
    cases rest with
    | nil =>
      have hc : ¬ (i < len - 1) := by simp at hlen; omega
      simp [hc, List.enumFrom, arrayItemsGo, commaJoinItems]
    | cons v2 rest2 =>
      have hc : i < len - 1 := by simp at hlen; omega
      have hne : ((List.enumFrom (i + 1) (v2 :: rest2)).map
          (fun iv => g iv.2 (path ++ "[" ++ toString iv.1 ++ "]"))).isEmpty = false := by
        simp [List.enumFrom]
      rw [if_pos hc, hne, ih (i + 1) len (by simp at hlen ⊢; omega)]
      simp

theorem objItemsGo_eq_commaJoin (g : PValue → String → String) (path : String) :
    ∀ (l : List (String × PValue)) (n : Nat), n = l.length →
      objItemsGo g path l n = commaJoinItems (l.map (propItemCore g path)) := by
  intro l
  induction l with
  | nil => intro n _; rfl
  | cons p rest ih =>
    intro n hn
    obtain ⟨k, v⟩ := p
    simp only [objItemsGo, List.map_cons, commaJoinItems]
    cases rest with
    | nil =>
      have hc : ¬ (n > 1) := by simp at hn; omega
      simp [hc, objItemsGo, commaJoinItems]
    | cons p2 rest2 =>
      have hc : n > 1 := by simp at hn; omega
      have hne : ((p2 :: rest2).map (propItemCore g path)).isEmpty = false := by simp
      rw [if_pos hc, hne, ih (n - 1) (by simp at hn ⊢; omega)]
      simp

theorem arrayToHTML_eq_commaJoin (l : List PValue) (path : String) :
    arrayToHTML l path =
      if l.length = 0 then "[ ]"
      else
        "<span class=\"collapser\"></span>" ++ "[<ul class=\"array collapsible\">" ++
          commaJoinItems (l.enum.map (arrayItemHTML path)) ++ "</ul>]" := by
  unfold arrayToHTML arrayBodyCore
  by_cases h : l.length = 0
  · simp [h]
  · rw [if_neg h, if_neg h, if_neg h,
      arrayItemsGo_eq_commaJoin valueToHTML path l 0 l.length (by omega)]
    rfl

theorem objectToHTML_eq_commaJoin (ps : List (String × PValue)) (path : String) :
    objectToHTML ps path =
      if (jsForInOrder ps).length = 0 then "\x7b \x7d"
      else
        "<span class=\"collapser\"></span>\x7b<ul class=\"obj collapsible\">" ++
          commaJoinItems ((jsForInOrder ps).map (propItemHTML path)) ++ "</ul>\x7d" := by
  unfold objectToHTML objBodyCore
  by_cases h : (jsForInOrder ps).length = 0
  · simp [h]
  · rw [if_neg h]
    simp only [if_neg h]
    rw [objItemsGo_eq_commaJoin valueToHTML path (jsForInOrder ps) (jsForInOrder ps).length rfl]
    rfl

theorem jsString_amp (s : String) : ampOkL (jsString s).data = true :=
  htmlEncode_amp _

theorem jsString_noRaw (s : String) : noRawQLG (jsString s).data = true :=
  htmlEncode_noRaw _

theorem decorateWithSpan_amp (value className : String)
    (h : ampOkL className.data = true) :
    ampOkL (decorateWithSpan value className).data = true := by
  unfold decorateWithSpan
  simp only [strData_append, List.append_assoc]
  exact ampOkL_append (by decide)
    (ampOkL_append h
      (ampOkL_append (by decide)
        (ampOkL_append (htmlEncode_amp value) (by decide))))

theorem stringToHTML_amp (s : String) : ampOkL (stringToHTML s).data = true := by
  unfold stringToHTML
  split
  · exact decorateWithSpan_amp _ _ (by decide)
  split
  · simp only [strData_append, List.append_assoc]
    exact ampOkL_append (by decide)
      (ampOkL_append (htmlEncode_amp s)
        (ampOkL_append (by decide)
          (ampOkL_append (jsString_amp s) (by decide))))
  · simp only [strData_append, List.append_assoc]
    exact ampOkL_append (by decide)
      (ampOkL_append (jsString_amp s) (by decide))

theorem propItemCore_amp (g : PValue → String → String) (path : String)
    (p : String × PValue) (hg : ∀ q, ampOkL (g p.2 q).data = true) :
    ampOkL (propItemCore g path p).data = true := by
  simp only [propItemCore]
  by_cases hb : isBareProp p.1 <;>
    · simp only [hb, if_true, if_false, Bool.false_eq_true, strData_append,
        List.append_assoc]
      refine ampOkL_append (by decide) ?_
      refine ampOkL_append (by decide) ?_
      refine ampOkL_append (by decide) ?_
      exact ampOkL_append (htmlEncode_amp _)
        (ampOkL_append (by decide)
          (ampOkL_append (jsString_amp _)
            (ampOkL_append (by decide) (hg _))))

theorem arrayItemsGo_amp (g : PValue → String → String) (path : String) :
    ∀ (l : List PValue) (i len : Nat),
      (∀ x ∈ l, ∀ p, ampOkL (g x p).data = true) →
      ampOkL (arrayItemsGo g path l i len).data = true := by
  intro l
  induction l with
  | nil => intro i len _; rfl
  | cons v rest ih =>
    intro i len h
    simp only [arrayItemsGo, strData_append, List.append_assoc]
    refine ampOkL_append (by decide) ?_
    refine ampOkL_append (h v (List.mem_cons_self _ _) _) ?_
    refine ampOkL_append ?_ ?_
    · split <;> decide
    refine ampOkL_append (by decide) ?_
    exact ih _ _ (fun x hx p => h x (List.mem_cons_of_mem _ hx) p)

theorem objItemsGo_amp (g : PValue → String → String) (path : String) :
    ∀ (l : List (String × PValue)) (n : Nat),
      (∀ kv ∈ l, ∀ p, ampOkL (g kv.2 p).data = true) →
      ampOkL (objItemsGo g path l n).data = true := by
  intro l
  induction l with
  | nil => intro n _; rfl
  | cons kv rest ih =>
    intro n h
    obtain ⟨k, v⟩ := kv
    simp only [objItemsGo, strData_append, List.append_assoc]
    refine ampOkL_append (by decide) ?_
    refine ampOkL_append (propItemCore_amp g path (k, v) (fun q => h (k, v) (List.mem_cons_self _ _) q)) ?_
    refine ampOkL_append ?_ ?_
    · split <;> decide
    refine ampOkL_append (by decide) ?_
    exact ih _ (fun x hx p => h x (List.mem_cons_of_mem _ hx) p)

theorem valueToHTML_amp_aux (n : Nat) : ∀ (v : PValue) (path : String), pvSize v ≤ n →
    ampOkL (valueToHTML v path).data = true := by
  induction n with
  | zero =>
    intro v path hn
    have := pvSize_pos v
    omega
  | succ n ih =>
    intro v path hn
    cases v with
    | null => exact decorateWithSpan_amp _ _ (by decide)
    | bool b => cases b <;> exact decorateWithSpan_amp _ _ (by decide)
    | num s => exact decorateWithSpan_amp _ _ (by decide)
    | str s => exact stringToHTML_amp s
    | arr l =>
      rw [valueToHTML_arr]
      unfold arrayToHTML arrayBodyCore
      split
      · decide
      · simp only [strData_append, List.append_assoc]
        refine ampOkL_append (by decide) ?_
        refine ampOkL_append (by decide) ?_
        refine ampOkL_append ?_ (by decide)
        refine arrayItemsGo_amp valueToHTML path l 0 l.length (fun x hx p => ?_)
        have h1 : pvSize x ≤ pvSizeList l := pvSizeList_mem hx
        have h2 : pvSizeList l + 1 = pvSize (.arr l) := rfl
        exact ih x p (by omega)
    | obj ps =>
      rw [valueToHTML_obj]
      unfold objectToHTML objBodyCore
      simp only
      split
      · decide
      · simp only [strData_append, List.append_assoc]
        refine ampOkL_append (by decide) ?_
        refine ampOkL_append ?_ (by decide)
        refine objItemsGo_amp valueToHTML path (jsForInOrder ps) _ (fun kv hkv p => ?_)
        obtain ⟨k, v⟩ := kv
        have h1 : pvSize v ≤ pvSizeProps ps := pvSizeProps_mem (jsForInOrder_mem hkv)
        have h2 : pvSizeProps ps + 1 = pvSize (.obj ps) := rfl
        exact ih v p (by omega)

theorem valueToHTML_amp (v : PValue) (path : String) :
    ampOkL (valueToHTML v path).data = true :=
  valueToHTML_amp_aux (pvSize v) v path (Nat.le_refl _)

theorem htmlEncodeOpt_amp (t : Option String) : ampOkL (htmlEncodeOpt t).data = true := by
  cases t with
  | none => decide
  | some s => exact htmlEncode_amp s

theorem highlightGo_amp (li ci : Nat) :
    ∀ (lines : List (List Char)) (i : Nat),
      ampOkL (highlightGo li ci lines i).data = true := by
  intro lines
  induction lines with
  | nil => intro i; rfl
  | cons line rest ih =>
    intro i
    simp only [highlightGo, strData_append, List.append_assoc]
    refine ampOkL_append ?_ (ih _)
    split
    · simp only [strData_append, List.append_assoc]
      refine ampOkL_append (by decide) ?_
      refine ampOkL_append (htmlEncode_amp _) ?_
      refine ampOkL_append (by decide) ?_
      refine ampOkL_append (htmlEncodeOpt_amp _) ?_
      refine ampOkL_append (by decide) ?_
      exact ampOkL_append (htmlEncode_amp _) (by decide)
    · exact htmlEncode_amp _

theorem highlightError_amp (data : String) (l c : Option Nat) :
    ampOkL (highlightError data l c).data = true := by
  unfold highlightError
  split
  · exact htmlEncode_amp data
  · exact highlightGo_amp _ _ _ _

/-- Claim C3: the claim states that a parsed string beginning with the
marker whose remainder is not a full JSON-number token (empty,
whitespace-padded, ...) renders as a quoted string.  The code instead
classifies the remainder with JS `isNaN` coercion, which accepts the
empty string and whitespace padding: evaluated at the failing inputs, a
string of just the marker renders as an empty bare numeric token, and
marker + `" 12 "` renders as a bare numeric token `" 12 "` — not quoted
strings. -/
theorem claimC3_markerString_looseNumberTest :
    valueToHTML (.str (String.mk [markerChar])) "<root>" = "<span class=\"num\"></span>" ∧
    valueToHTML (.str "​ 12 ") "<root>" = "<span class=\"num\"> 12 </span>" :=
  ⟨by decide, by decide⟩

/-- Claim C6: `&`, `"`, `<`, `>` from string values, keys, and the error
page's raw fallback text are always HTML-neutralized: `htmlEncode`
output contains no raw quote/angle character and every ampersand starts
an entity; `jsString` is exactly JSON-string-escaping followed by
`htmlEncode` (ampersand first inside `htmlEncode`); every ampersand in a
whole rendered fragment and in the error highlighter's output starts an
entity; and the no-position error body is the fully escaped raw text. -/
theorem claimC6_escaping :
    (∀ t : String, noRawQLG (htmlEncode t).data = true ∧ ampOkL (htmlEncode t).data = true) ∧
    (∀ s : String, jsString s = htmlEncode (String.mk (jsonEscape s.data)) ∧
      noRawQLG (jsString s).data = true ∧ ampOkL (jsString s).data = true) ∧
    (∀ (v : PValue) (path : String), ampOkL (valueToHTML v path).data = true) ∧
    (∀ (data : String) (l c : Option Nat), ampOkL (highlightError data l c).data = true) ∧
    (∀ data : String, highlightError data none none = htmlEncode data) :=
  ⟨fun t => ⟨htmlEncode_noRaw t, htmlEncode_amp t⟩,
   fun s => ⟨rfl, jsString_noRaw s, jsString_amp s⟩,
   valueToHTML_amp,
   highlightError_amp,
   fun _ => rfl⟩

/-- Claim C9 counterexample: object properties are not rendered in
insertion order when a key is array-index-like.  For the parsed object
`{"b": null, "1": null}` the code renders the later-inserted key `"1"`
first, so the output differs from the insertion-order rendering. -/
theorem claimC9_counterexample :
    objectToHTML [("b", .null), ("1", .null)] "<root>" =
      "<span class=\"collapser\"></span>\x7b<ul class=\"obj collapsible\">" ++
        commaJoinItems ([("1", PValue.null), ("b", PValue.null)].map (propItemHTML "<root>")) ++
        "</ul>\x7d" ∧
    objectToHTML [("b", .null), ("1", .null)] "<root>" ≠
      "<span class=\"collapser\"></span>\x7b<ul class=\"obj collapsible\">" ++
        commaJoinItems ([("b", PValue.null), ("1", PValue.null)].map (propItemHTML "<root>")) ++
        "</ul>\x7d" :=
  ⟨by decide, by decide⟩

/-- Claim C9 (amended): array elements render in index order and object
properties render in JS `for`-`in` order — array-index-like keys first in
ascending numeric order, then the remaining keys in insertion order — and
in both cases items are comma-joined with no trailing comma after the
final item. -/
theorem claimC9_amended :
    (∀ (l : List PValue) (path : String),
      valueToHTML (.arr l) path = arrayToHTML l path) ∧
    (∀ (ps : List (String × PValue)) (path : String),
      valueToHTML (.obj ps) path = objectToHTML ps path) ∧
    (∀ (l : List PValue) (path : String),
      arrayToHTML l path =
        if l.length = 0 then "[ ]"
        else
          "<span class=\"collapser\"></span>" ++ "[<ul class=\"array collapsible\">" ++
            commaJoinItems (l.enum.map (arrayItemHTML path)) ++ "</ul>]") ∧
    (∀ (ps : List (String × PValue)) (path : String),
      objectToHTML ps path =
        if (jsForInOrder ps).length = 0 then "\x7b \x7d"
        else
          "<span class=\"collapser\"></span>\x7b<ul class=\"obj collapsible\">" ++
            commaJoinItems ((jsForInOrder ps).map (propItemHTML path)) ++ "</ul>\x7d") :=
  ⟨valueToHTML_arr, valueToHTML_obj, arrayToHTML_eq_commaJoin, objectToHTML_eq_commaJoin⟩

/-- Claim C10: a non-bare object key produces a `quoted`-class label with
an empty `title` attribute, and its value — hence that key's entire
rendered subtree — is rendered with the empty string as its path, not the
parent's path. -/
theorem claimC10_nonBareKey_emptyPath (path prop : String) (v : PValue)
    (h : isBareProp prop = false) :
    propItemHTML path (prop, v) =
      "<span class=\"prop" ++ " quoted" ++ "\" title=\"" ++ "" ++
        "\"><span class=\"q\">&quot;</span>" ++ jsString prop ++
        "<span class=\"q\">&quot;</span></span>: " ++ valueToHTML v "" := by
  simp only [propItemHTML, propItemCore, h, Bool.false_eq_true, if_false]
  rfl

/-- Claim C10 witness at a concrete non-bare key. -/
theorem claimC10_witness :
    isBareProp "a b" = false ∧
    propItemHTML "<root>" ("a b", .arr [.null]) =
      "<span class=\"prop" ++ " quoted" ++ "\" title=\"" ++ "" ++
        "\"><span class=\"q\">&quot;</span>" ++ jsString "a b" ++
        "<span class=\"q\">&quot;</span></span>: " ++ valueToHTML (.arr [.null]) "" :=
  ⟨by decide, claimC10_nonBareKey_emptyPath "<root>" "a b" (.arr [.null]) (by decide)⟩

theorem massageError_noMatch {m : String} (hne : m.isEmpty = false)
    (hlc : findLineCol (removeFirstSub ("of the JSON data".data) (stripParseHead m.data)) = none) :
    massageError ⟨some m⟩ = ⟨some m, none, none⟩ := by
  simp only [massageError, hne, Bool.false_eq_true, if_false, hlc]

theorem errorPageBody_noMatch (errorParsingMsg : String) {m : String} (data : String)
    (hne : m.isEmpty = false)
    (hlc : findLineCol (removeFirstSub ("of the JSON data".data) (stripParseHead m.data)) = none) :
    errorPageBody errorParsingMsg ⟨some m⟩ data =
      "<div id=\"error\">" ++ errorParsingMsg ++
        ("<div class=\"errormessage\">" ++ m ++ "</div>") ++
        "</div><div id=\"json\">" ++
        htmlEncode (String.mk (replaceFirstChar '\u0000' '�' data.data)) ++ "</div>" := by
  unfold errorPageBody
  rw [massageError_noMatch hne hlc]
  simp only [hne, Bool.false_eq_true, if_false]
  rfl

/-- Claim C7 counterexample: for a parse error whose message has no
extractable `line N column M` pattern, the claim says the error path
shows the HTML-escaped normalized message; the code instead returns the
error object unchanged, so the page embeds the raw message — prefix not
stripped, `<` not escaped — while the body is the escaped raw text. -/
theorem claimC7_counterexample :
    massageError ⟨some "JSON.parse: boom <x> of the JSON data"⟩ =
      ⟨some "JSON.parse: boom <x> of the JSON data", none, none⟩ ∧
    massageError ⟨some "JSON.parse: boom <x> of the JSON data"⟩ ≠
      ⟨some (htmlEncode "boom <x> "), none, none⟩ ∧
    errorPageBody "EP" ⟨some "JSON.parse: boom <x> of the JSON data"⟩ "d" =
      "<div id=\"error\">EP<div class=\"errormessage\">JSON.parse: boom <x> of the JSON data" ++
        "</div></div><div id=\"json\">d</div>" :=
  ⟨by decide, by decide, by decide⟩

/-- Claim C7 (amended): when the (nonempty) message yields no
`line N column M` match after prefix stripping, `massageError` returns
the error unchanged — the raw message, not normalized and not
HTML-escaped — and the page body falls back to the fully HTML-escaped
raw text (after the first-NUL replacement) with no error-line or
error-column markup. -/
theorem claimC7_amended (errorParsingMsg m data : String) (hne : m.isEmpty = false)
    (hlc : findLineCol (removeFirstSub ("of the JSON data".data) (stripParseHead m.data)) = none) :
    massageError ⟨some m⟩ = ⟨some m, none, none⟩ ∧
    errorPageBody errorParsingMsg ⟨some m⟩ data =
      "<div id=\"error\">" ++ errorParsingMsg ++
        ("<div class=\"errormessage\">" ++ m ++ "</div>") ++
        "</div><div id=\"json\">" ++
        htmlEncode (String.mk (replaceFirstChar '\u0000' '�' data.data)) ++ "</div>" :=
  ⟨massageError_noMatch hne hlc, errorPageBody_noMatch errorParsingMsg data hne hlc⟩

/-- Claim C7 witness at a concrete position-free error message. -/
theorem claimC7_witness :
    massageError ⟨some "Unexpected end of data"⟩ =
      ⟨some "Unexpected end of data", none, none⟩ ∧
    errorPageBody "EP" ⟨some "Unexpected end of data"⟩ "a<b" =
      "<div id=\"error\">" ++ "EP" ++
        ("<div class=\"errormessage\">" ++ "Unexpected end of data" ++ "</div>") ++
        "</div><div id=\"json\">" ++
        htmlEncode (String.mk (replaceFirstChar '\u0000' '�' "a<b".data)) ++ "</div>" :=
  claimC7_amended "EP" "Unexpected end of data" "a<b" (by decide) (by decide)

/-- Claim C8: the claim states every NUL in the original text is replaced
by U+FFFD on the error path; the code calls `replace` with a string
pattern, which replaces only the first occurrence, so a two-NUL input
leaves a literal NUL in the error-page output. -/
theorem claimC8_nulReplace_firstOnly :
    replaceFirstChar '\u0000' '�' ("\u0000\u0000".data) = ['�', '\u0000'] ∧
    errorPageBody "EP" ⟨none⟩ "\u0000\u0000" =
      "<div id=\"error\">EP</div><div id=\"json\">�\u0000</div>" ∧
    (errorPageBody "EP" ⟨none⟩ "\u0000\u0000").data.count '\u0000' = 1 :=
  ⟨by decide, by decide, by decide⟩

theorem quotesGo_eq_fold : ∀ (cs rev : List Char) (inQ : Bool),
    quotesGo rev cs inQ = (quoteFold cs (inQ, backRun rev)).1 := by
  intro cs
  induction cs with
  | nil => intro rev inQ; rfl
  | cons c cs ih =>
    intro rev inQ
    have hstep : quoteStep (inQ, backRun rev) c =
        ((if c = '"' ∧ backRun rev % 2 = 0 then !inQ else inQ), backRun (c :: rev)) := by
      by_cases hq : c = '"'
      · subst hq
        simp [quoteStep, backRun, List.takeWhile]
      · by_cases hb : c = '\\'
        · subst hb
          simp [quoteStep, backRun, List.takeWhile]
        · simp [quoteStep, hq, hb, backRun, List.takeWhile]
    rw [quotesGo, ih (c :: rev)]
    simp only [quoteFold, List.foldl_cons]
    rw [hstep]

theorem isInsideQuotes_eq_fold (cs : List Char) :
    isInsideQuotes cs = (quoteFold cs (false, 0)).1 := by
  rw [isInsideQuotes, quotesGo_eq_fold cs [] false]
  rfl

theorem quoteFold_append (a b : List Char) (st : Bool × Nat) :
    quoteFold (a ++ b) st = quoteFold b (quoteFold a st) := by
  simp [quoteFold]

theorem quoteStep_not (q : Bool) (r : Nat) (c : Char) :
    quoteStep (!q, r) c = (!(quoteStep (q, r) c).1, (quoteStep (q, r) c).2) := by
  simp only [quoteStep]
  split
  · split <;> rfl
  split <;> rfl

theorem quoteFold_not : ∀ (cs : List Char) (q : Bool) (r : Nat),
    quoteFold cs (!q, r) = (!(quoteFold cs (q, r)).1, (quoteFold cs (q, r)).2) := by
  intro cs
  induction cs with
  | nil => intro q r; rfl
  | cons c cs ih =>
    intro q r
    simp only [quoteFold, List.foldl_cons]
    rw [quoteStep_not]
    exact ih (quoteStep (q, r) c).1 (quoteStep (q, r) c).2

theorem quoteFold_xor (cs : List Char) (q : Bool) :
    (quoteFold cs (q, 0)).1 = xor q (quoteFold cs (false, 0)).1 := by
  cases q
  · simp [Bool.xor]
  · have : (true : Bool) = !false := rfl
    rw [this, quoteFold_not]
    simp [Bool.xor]

theorem quoteFold_plain_fst : ∀ (m : List Char) (st : Bool × Nat),
    (∀ c ∈ m, ¬(c = '"') ∧ ¬(c = '\\')) → (quoteFold m st).1 = st.1 := by
  intro m
  induction m with
  | nil => intro st _; rfl
  | cons c cs ih =>
    intro st h
    have hc := h c (List.mem_cons_self _ _)
    simp only [quoteFold, List.foldl_cons]
    have hstep : quoteStep st c = (st.1, if c = '\\' then st.2 + 1 else 0) := by
      by_cases hb : c = '\\' <;> simp [quoteStep, hc.1, hb]
    rw [hstep]
    exact ih _ (fun x hx => h x (List.mem_cons_of_mem _ hx))

theorem quoteFold_plain : ∀ (m : List Char) (st : Bool × Nat),
    (∀ c ∈ m, ¬(c = '"') ∧ ¬(c = '\\')) → m ≠ [] → quoteFold m st = (st.1, 0) := by
  intro m
  induction m with
  | nil => intro st _ h; cases h rfl
  | cons c cs ih =>
    intro st h _
    have hc := h c (List.mem_cons_self _ _)
    simp only [quoteFold, List.foldl_cons]
    have hstep : quoteStep st c = (st.1, 0) := by simp [quoteStep, hc.1, hc.2]
    rw [hstep]
    cases cs with
    | nil => rfl
    | cons c2 cs2 =>
      exact ih (st.1, 0) (fun x hx => h x (List.mem_cons_of_mem _ hx)) (by simp)


theorem isDigit19_isDigitC {c : Char} (h : isDigit19 c = true) : isDigitC c = true := by
  simp only [isDigit19, decide_eq_true_eq] at h
  simp only [isDigitC, decide_eq_true_eq]
  omega

theorem isDigitC_numberChar {c : Char} (h : isDigitC c = true) : numberChar c = true := by
  simp [numberChar, h]

theorem numIntPart_decomp : ∀ {cs ip r : List Char}, numIntPart cs = some (ip, r) →
    cs = ip ++ r ∧ ip ≠ [] ∧ (∀ c ∈ ip, isDigitC c = true) := by
  intro cs ip r h
  cases cs with
  | nil => simp [numIntPart] at h
  | cons c cs' =>
    simp only [numIntPart] at h
    split_ifs at h with h0 h19
    · simp only [Option.some.injEq, Prod.mk.injEq] at h
      obtain ⟨h1, h2⟩ := h
      subst h1; subst h2; subst h0
      refine ⟨rfl, by simp, ?_⟩
      intro x hx
      rcases List.mem_cons.mp hx with rfl | hx2
      · decide
      · cases hx2
    · simp only [Option.some.injEq, Prod.mk.injEq] at h
      obtain ⟨h1, h2⟩ := h
      subst h1; subst h2
      refine ⟨by simp, by simp, ?_⟩
      intro x hx
      rcases List.mem_cons.mp hx with rfl | hx2
      · exact isDigit19_isDigitC h19
      · exact List.mem_takeWhile_imp hx2

theorem numFracPart_decomp (cs : List Char) :
    cs = (numFracPart cs).1 ++ (numFracPart cs).2 ∧
      (∀ c ∈ (numFracPart cs).1, numberChar c = true) := by
  match cs with
  | [] => exact ⟨rfl, by intro x hx; cases hx⟩
  | [c] => exact ⟨rfl, by intro x hx; cases hx⟩
  | p :: d :: rest =>
    simp only [numFracPart]
    split_ifs with hpd
    · obtain ⟨hp, hd⟩ := hpd
      subst hp
      refine ⟨by simp, ?_⟩
      intro x hx
      rcases List.mem_cons.mp hx with rfl | hx2
      · decide
      rcases List.mem_cons.mp hx2 with rfl | hx3
      · exact isDigitC_numberChar hd
      · exact isDigitC_numberChar (List.mem_takeWhile_imp hx3)
    · exact ⟨rfl, by intro x hx; cases hx⟩

theorem numExpPart_decomp (cs : List Char) :
    cs = (numExpPart cs).1 ++ (numExpPart cs).2 ∧
      (∀ c ∈ (numExpPart cs).1, numberChar c = true) := by
  match cs with
  | [] => exact ⟨rfl, by intro x hx; cases hx⟩
  | [c] => exact ⟨rfl, by intro x hx; cases hx⟩
  | e :: s :: rest =>
    by_cases he : e = 'e' ∨ e = 'E'
    · by_cases hs : s = '+' ∨ s = '-'
      · cases rest with
        | nil =>
          simp only [numExpPart, if_pos he, if_pos hs]
          exact ⟨rfl, by intro x hx; cases hx⟩
        | cons d rest2 =>
          by_cases hd : isDigitC d = true
          · simp only [numExpPart, if_pos he, if_pos hs, if_pos hd]
            refine ⟨by simp, ?_⟩
            intro x hx
            rcases List.mem_cons.mp hx with rfl | hx2
            · rcases he with rfl | rfl <;> decide
            rcases List.mem_cons.mp hx2 with rfl | hx3
            · rcases hs with rfl | rfl <;> decide
            rcases List.mem_cons.mp hx3 with rfl | hx4
            · exact isDigitC_numberChar hd
            · exact isDigitC_numberChar (List.mem_takeWhile_imp hx4)
          · simp only [numExpPart, if_pos he, if_pos hs,
              if_neg (fun hh => hd hh)]
            exact ⟨rfl, by intro x hx; cases hx⟩
      · by_cases hds : isDigitC s = true
        · simp only [numExpPart, if_pos he, if_neg hs, if_pos hds]
          refine ⟨by simp, ?_⟩
          intro x hx
          rcases List.mem_cons.mp hx with rfl | hx2
          · rcases he with rfl | rfl <;> decide
          rcases List.mem_cons.mp hx2 with rfl | hx3
          · exact isDigitC_numberChar hds
          · exact isDigitC_numberChar (List.mem_takeWhile_imp hx3)
        · simp only [numExpPart, if_pos he, if_neg hs,
            if_neg (fun hh => hds hh)]
          exact ⟨rfl, by intro x hx; cases hx⟩
    · simp only [numExpPart, if_neg he]
      exact ⟨rfl, by intro x hx; cases hx⟩

theorem numMatch_decomp : ∀ {cs m r : List Char}, numMatch cs = some (m, r) →
    cs = m ++ r ∧ m ≠ [] ∧ (∀ c ∈ m, numberChar c = true) := by
  intro cs m r h
  cases cs with
  | nil => simp [numMatch] at h
  | cons c cs' =>
    simp only [numMatch] at h
    split_ifs at h with hminus
    · cases hip : numIntPart cs' with
      | none => rw [hip] at h; cases h
      | some ipr =>
        obtain ⟨ip, r1⟩ := ipr
        rw [hip] at h
        simp only [Option.some.injEq, Prod.mk.injEq] at h
        obtain ⟨h1, h2⟩ := h
        obtain ⟨hd1, hd2, hd3⟩ := numIntPart_decomp hip
        obtain ⟨hf1, hf2⟩ := numFracPart_decomp r1
        obtain ⟨he1, he2⟩ := numExpPart_decomp (numFracPart r1).2
        subst hminus
        refine ⟨?_, by simp [← h1], ?_⟩
        · rw [← h1, ← h2]
          simp only [List.cons_append, List.append_assoc]
          rw [← he1, ← hf1, ← hd1]
        · intro x hx
          rw [← h1] at hx
          rcases List.mem_cons.mp hx with rfl | hx2
          · decide
          rcases List.mem_append.mp hx2 with hx3 | hx3
          · rcases List.mem_append.mp hx3 with hx4 | hx4
            · exact isDigitC_numberChar (hd3 x hx4)
            · exact hf2 x hx4
          · exact he2 x hx3
    · cases hip : numIntPart (c :: cs') with
      | none => rw [hip] at h; cases h
      | some ipr =>
        obtain ⟨ip, r1⟩ := ipr
        rw [hip] at h
        simp only [Option.some.injEq, Prod.mk.injEq] at h
        obtain ⟨h1, h2⟩ := h
        obtain ⟨hd1, hd2, hd3⟩ := numIntPart_decomp hip
        obtain ⟨hf1, hf2⟩ := numFracPart_decomp r1
        obtain ⟨he1, he2⟩ := numExpPart_decomp (numFracPart r1).2
        refine ⟨?_, by simp [← h1, hd2], ?_⟩
        · rw [← h1, ← h2]
          simp only [List.append_assoc]
          rw [← he1, ← hf1, ← hd1]
        · intro x hx
          rw [← h1] at hx
          rcases List.mem_append.mp hx with hx3 | hx3
          · rcases List.mem_append.mp hx3 with hx4 | hx4
            · exact isDigitC_numberChar (hd3 x hx4)
            · exact hf2 x hx4
          · exact he2 x hx3

theorem findNum_decomp : ∀ {cs pre m rest : List Char},
    findNum cs = some (pre, m, rest) →
    cs = pre ++ m ++ rest ∧ m ≠ [] ∧ (∀ c ∈ m, numberChar c = true) := by
  intro cs
  induction cs with
  | nil => intro pre m rest h; cases h
  | cons c cs' ih =>
    intro pre m rest h
    simp only [findNum] at h
    cases hnm : numMatch (c :: cs') with
    | some mr =>
      obtain ⟨m', rest'⟩ := mr
      rw [hnm] at h
      simp only [Option.some.injEq, Prod.mk.injEq] at h
      obtain ⟨h1, h2, h3⟩ := h
      subst h1; subst h2; subst h3
      obtain ⟨hd1, hd2, hd3⟩ := numMatch_decomp hnm
      exact ⟨by simpa using hd1, hd2, hd3⟩
    | none =>
      rw [hnm] at h
      cases hfn : findNum cs' with
      | some pmr =>
        obtain ⟨p, m', r⟩ := pmr
        rw [hfn] at h
        simp only [Option.some.injEq, Prod.mk.injEq] at h
        obtain ⟨h1, h2, h3⟩ := h
        subst h1; subst h2; subst h3
        obtain ⟨hd1, hd2, hd3⟩ := ih hfn
        exact ⟨by simp [hd1], hd2, hd3⟩
      | none => rw [hfn] at h; cases h

theorem findNum_pre_fail : ∀ {cs pre m rest : List Char},
    findNum cs = some (pre, m, rest) →
    ∀ p₁ c p₂, pre = p₁ ++ c :: p₂ → numMatch (c :: (p₂ ++ m ++ rest)) = none := by
  intro cs
  induction cs with
  | nil => intro pre m rest h; cases h
  | cons c0 cs' ih =>
    intro pre m rest h p₁ c p₂ hsplit
    simp only [findNum] at h
    cases hnm : numMatch (c0 :: cs') with
    | some mr =>
      obtain ⟨m', rest'⟩ := mr
      rw [hnm] at h
      simp only [Option.some.injEq, Prod.mk.injEq] at h
      obtain ⟨h1, _, _⟩ := h
      rw [← h1] at hsplit
      cases p₁ <;> cases hsplit
    | none =>
      rw [hnm] at h
      cases hfn : findNum cs' with
      | some pmr =>
        obtain ⟨p, m', r⟩ := pmr
        rw [hfn] at h
        simp only [Option.some.injEq, Prod.mk.injEq] at h
        obtain ⟨h1, h2, h3⟩ := h
        subst h2; subst h3
        cases p₁ with
        | nil =>
          simp only [List.nil_append] at hsplit
          rw [← h1] at hsplit
          cases hsplit
          have hd := (findNum_decomp hfn).1
          rw [← hd]
          exact hnm
        | cons d p₁' =>
          rw [← h1] at hsplit
          cases hsplit
          exact ih hfn p₁' c p₂ rfl
      | none => rw [hfn] at h; cases h

theorem findNum_none_suffix : ∀ {cs : List Char}, findNum cs = none →
    ∀ p₁ c p₂, cs = p₁ ++ c :: p₂ → numMatch (c :: p₂) = none := by
  intro cs
  induction cs with
  | nil =>
    intro _ p₁ c p₂ h
    cases p₁ <;> cases h
  | cons c0 cs' ih =>
    intro h p₁ c p₂ hsplit
    simp only [findNum] at h
    cases hnm : numMatch (c0 :: cs') with
    | some mr => rw [hnm] at h; cases h
    | none =>
      rw [hnm] at h
      cases hfn : findNum cs' with
      | some pmr => rw [hfn] at h; obtain ⟨p, m', r⟩ := pmr; cases h
      | none =>
        cases p₁ with
        | nil => cases hsplit; exact hnm
        | cons d p₁' =>
          cases hsplit
          exact ih hfn p₁' c p₂ rfl

theorem numberChar_plain {c : Char} (h : numberChar c = true) :
    ¬(c = '"') ∧ ¬(c = '\\') := by
  constructor
  · intro hq; subst hq; revert h; decide
  · intro hb; subst hb; revert h; decide

theorem piecesOut_cons (p : MatchPiece) (ps : List MatchPiece) (lo : List Char) :
    piecesOut (p :: ps) lo = pieceOut p ++ piecesOut ps lo := by
  simp [piecesOut]

theorem safeGo_eq_pieces : ∀ (fuel : Nat) (done rest : List Char),
    (quoteFold done (false, 0)).2 = 0 →
    (safeGoT fuel rest (quoteFold done (false, 0)).1).1 =
      piecesOut (encodePiecesGo fuel done rest).1 (encodePiecesGo fuel done rest).2 ∧
    (safeGoT fuel rest (quoteFold done (false, 0)).1).2 =
      (encodePiecesGo fuel done rest).1.map (fun p => (p.matchStr, p.inside)) := by
  intro fuel
  induction fuel with
  | zero => intro done rest _; exact ⟨rfl, rfl⟩
  | succ fuel ih =>
    intro done rest hrun
    cases hf : findNum rest with
    | none =>
      simp only [safeGoT, encodePiecesGo, hf]
      exact ⟨rfl, rfl⟩
    | some pmr =>
      obtain ⟨pre, m, rest2⟩ := pmr
      obtain ⟨hdec, hne, hchars⟩ := findNum_decomp hf
      have hpair : quoteFold done (false, 0) = ((quoteFold done (false, 0)).1, 0) :=
        Prod.ext rfl hrun
      have e1 : isInsideQuotes (done ++ pre) =
          xor (quoteFold done (false, 0)).1 (quoteFold pre (false, 0)).1 := by
        rw [isInsideQuotes_eq_fold, quoteFold_append, hpair, quoteFold_xor]
      have hclass : xor (isInsideQuotes pre) (quoteFold done (false, 0)).1 =
          isInsideQuotes (done ++ pre) := by
        rw [e1, isInsideQuotes_eq_fold]
        cases (quoteFold done (false, 0)).1 <;> cases (quoteFold pre (false, 0)).1 <;> rfl
      have hplain : ∀ c ∈ m, ¬(c = '"') ∧ ¬(c = '\\') :=
        fun c hc => numberChar_plain (hchars c hc)
      have hfold' : quoteFold (done ++ pre ++ m) (false, 0) =
          (isInsideQuotes (done ++ pre), 0) := by
        rw [quoteFold_append, quoteFold_plain m _ hplain hne, isInsideQuotes_eq_fold]
      have hrec := ih (done ++ pre ++ m) rest2 (by rw [hfold'])
      rw [hfold'] at hrec
      simp only [safeGoT, encodePiecesGo, hf]
      rw [hclass]
      constructor
      · rw [piecesOut_cons, hrec.1]
        simp [pieceOut, List.append_assoc]
      · rw [List.map_cons, hrec.2]

theorem encodePiecesGo_inside : ∀ (fuel : Nat) (done rest : List Char) (p : MatchPiece),
    p ∈ (encodePiecesGo fuel done rest).1 → p.inside = isInsideQuotes p.absPre := by
  intro fuel
  induction fuel with
  | zero => intro done rest p h; cases h
  | succ fuel ih =>
    intro done rest p h
    cases hf : findNum rest with
    | none => rw [encodePiecesGo, hf] at h; cases h
    | some pmr =>
      obtain ⟨pre, m, rest2⟩ := pmr
      rw [encodePiecesGo, hf] at h
      rcases List.mem_cons.mp h with rfl | h2
      · rfl
      · exact ih _ _ p h2

theorem encodePiecesGo_reconstruct : ∀ (fuel : Nat) (done rest : List Char),
    ((encodePiecesGo fuel done rest).1.map (fun p => p.localPre ++ p.matchStr)).flatten ++
      (encodePiecesGo fuel done rest).2 = rest := by
  intro fuel
  induction fuel with
  | zero => intro done rest; simp [encodePiecesGo]
  | succ fuel ih =>
    intro done rest
    cases hf : findNum rest with
    | none => simp [encodePiecesGo, hf]
    | some pmr =>
      obtain ⟨pre, m, rest2⟩ := pmr
      have hdec := (findNum_decomp hf).1
      simp only [encodePiecesGo, hf, List.map_cons, List.flatten_cons, List.append_assoc]
      rw [ih, hdec]
      simp [List.append_assoc]

/-- Claim C5: the incremental quote-parity scan of the source encoder —
which carries `wasInQuotes` and the last-scanned offset across match
callbacks and scans only the chunk since the previous match — produces
exactly the same output and the same per-match inside-string
classifications as the from-scratch scan that reclassifies every match by
scanning the whole consumed prefix from offset 0 starting
outside-string. -/
theorem claimC5_incremental_eq_fromScratch (s : String) :
    safeStringEncodeNums s = safeStringEncodeNumsSpec s ∧
    (safeGoT (doubleMarkersL s.data).length (doubleMarkersL s.data) false).2 =
      (encodePieces (doubleMarkersL s.data)).1.map (fun p => (p.matchStr, p.inside)) := by
  have h := safeGo_eq_pieces (doubleMarkersL s.data).length [] (doubleMarkersL s.data) rfl
  exact ⟨congrArg String.mk h.1, h.2⟩

/-- Claim C4: the encoder never wraps a number-regex match that lies
inside an unescaped string literal.  The source encoder's output equals
the piece decomposition in which every match is classified by the
quote-parity scan over the entire consumed prefix (a double quote
preceded by an odd run of backslashes does not toggle the state, per
`isInsideQuotes`); a piece classified inside emits exactly its unmatched
chunk followed by the match itself, untouched; and when every match is
inside a string literal the whole text passes through unchanged beyond
marker doubling. -/
theorem claimC4_insideMatches_untouched (s : String) :
    safeStringEncodeNums s =
      String.mk (piecesOut (encodePieces (doubleMarkersL s.data)).1
        (encodePieces (doubleMarkersL s.data)).2) ∧
    (∀ p ∈ (encodePieces (doubleMarkersL s.data)).1,
      p.inside = isInsideQuotes p.absPre) ∧
    (∀ p ∈ (encodePieces (doubleMarkersL s.data)).1, p.inside = true →
      pieceOut p = p.localPre ++ p.matchStr) ∧
    ((∀ p ∈ (encodePieces (doubleMarkersL s.data)).1, p.inside = true) →
      safeStringEncodeNums s = String.mk (doubleMarkersL s.data)) := by
  have h := safeGo_eq_pieces (doubleMarkersL s.data).length [] (doubleMarkersL s.data) rfl
  refine ⟨congrArg String.mk h.1,
    fun p hp => encodePiecesGo_inside _ _ _ p hp,
    fun p _ hin => by simp [pieceOut, hin],
    fun hall => ?_⟩
  have hout : piecesOut (encodePieces (doubleMarkersL s.data)).1
      (encodePieces (doubleMarkersL s.data)).2 = doubleMarkersL s.data := by
    have hmap : (encodePieces (doubleMarkersL s.data)).1.map pieceOut =
        (encodePieces (doubleMarkersL s.data)).1.map (fun p => p.localPre ++ p.matchStr) := by
      refine List.map_congr_left (fun p hp => ?_)
      simp [pieceOut, hall p hp]
    rw [piecesOut, hmap]
    exact encodePiecesGo_reconstruct (doubleMarkersL s.data).length [] (doubleMarkersL s.data)
  have h1 : safeStringEncodeNums s =
      String.mk (piecesOut (encodePieces (doubleMarkersL s.data)).1
        (encodePieces (doubleMarkersL s.data)).2) := congrArg String.mk h.1
  rw [h1, hout]

/-- Claim C4 witness: in `{"a": "x 42"}` the only number match (`42`)
lies inside a string literal, so the encoder leaves the document
unchanged. -/
theorem claimC4_witness :
    safeStringEncodeNums "\x7b\"a\": \"x 42\"\x7d" =
      String.mk (doubleMarkersL ("\x7b\"a\": \"x 42\"\x7d" : String).data) :=
  (claimC4_insideMatches_untouched "\x7b\"a\": \"x 42\"\x7d").2.2.2 (by decide)

theorem charScan_fuel : ∀ (n : Nat) (cs : List Char) (f f' : Nat) (q : Bool) (r : Nat),
    cs.length ≤ n → cs.length ≤ f → cs.length ≤ f' →
    charScan f cs q r = charScan f' cs q r := by
  intro n
  induction n with
  | zero =>
    intro cs f f' q r hn _ _
    have : cs = [] := List.eq_nil_of_length_eq_zero (by omega)
    subst this
    cases f <;> cases f' <;> rfl
  | succ n ih =>
    intro cs f f' q r hn hf hf'
    cases cs with
    | nil => cases f <;> cases f' <;> rfl
    | cons c cs' =>
      simp only [List.length_cons] at hn hf hf'
      cases f with
      | zero => omega
      | succ f1 =>
        cases f' with
        | zero => omega
        | succ f2 =>
          simp only [charScan]
          cases q with
          | true =>
            rw [if_pos rfl, if_pos rfl]
            rw [ih cs' f1 f2 _ _ (by omega) (by omega) (by omega)]
          | false =>
            rw [if_neg (by simp), if_neg (by simp)]
            cases hnm : numMatch (c :: cs') with
            | some mr =>
              obtain ⟨m, rest⟩ := mr
              simp only [hnm]
              obtain ⟨hd1, hd2, _⟩ := numMatch_decomp hnm
              have hlen : m.length + rest.length = cs'.length + 1 := by
                have := congrArg List.length hd1
                simp at this
                omega
              have hm1 : 1 ≤ m.length := by
                cases m with
                | nil => cases hd2 rfl
                | cons _ _ => simp
              rw [ih rest f1 f2 _ _ (by omega) (by omega) (by omega)]
            | none =>
              simp only [hnm]
              rw [ih cs' f1 f2 _ _ (by omega) (by omega) (by omega)]

theorem charScan_noMatch : ∀ (cs : List Char) (f : Nat) (q : Bool) (r : Nat),
    cs.length ≤ f → findNum cs = none → charScan f cs q r = cs := by
  intro cs
  induction cs with
  | nil => intro f q r _ _; cases f <;> rfl
  | cons c cs' ih =>
    intro f q r hf h
    simp only [findNum] at h
    cases hnm : numMatch (c :: cs') with
    | some mr => obtain ⟨m, rest⟩ := mr; rw [hnm] at h; cases h
    | none =>
      rw [hnm] at h
      cases hfn : findNum cs' with
      | some pmr => obtain ⟨p, m, r2⟩ := pmr; rw [hfn] at h; cases h
      | none =>
        simp only [List.length_cons] at hf
        cases f with
        | zero => omega
        | succ f1 =>
          simp only [charScan]
          cases q with
          | true =>
            rw [if_pos rfl, ih f1 _ _ (by omega) hfn]
          | false =>
            rw [if_neg (by simp)]
            simp only [hnm]
            rw [ih f1 _ _ (by omega) hfn]

theorem findNum_match : ∀ {cs pre m rest : List Char},
    findNum cs = some (pre, m, rest) → numMatch (m ++ rest) = some (m, rest) := by
  intro cs
  induction cs with
  | nil => intro pre m rest h; cases h
  | cons c cs' ih =>
    intro pre m rest h
    simp only [findNum] at h
    cases hnm : numMatch (c :: cs') with
    | some mr =>
      obtain ⟨m', rest'⟩ := mr
      rw [hnm] at h
      simp only [Option.some.injEq, Prod.mk.injEq] at h
      obtain ⟨_, h2, h3⟩ := h
      subst h2; subst h3
      have hd := (numMatch_decomp hnm).1
      rw [← hd]
      exact hnm
    | none =>
      rw [hnm] at h
      cases hfn : findNum cs' with
      | some pmr =>
        obtain ⟨p, m', r⟩ := pmr
        rw [hfn] at h
        simp only [Option.some.injEq, Prod.mk.injEq] at h
        obtain ⟨_, h2, h3⟩ := h
        subst h2; subst h3
        exact ih hfn
      | none => rw [hfn] at h; cases h

theorem charScan_pre : ∀ (pre tail : List Char) (q : Bool) (r f : Nat),
    (∀ p₁ c p₂, pre = p₁ ++ c :: p₂ → numMatch (c :: (p₂ ++ tail)) = none) →
    (pre ++ tail).length ≤ f →
    charScan f (pre ++ tail) q r =
      pre ++ charScan tail.length tail (quoteFold pre (q, r)).1 (quoteFold pre (q, r)).2 := by
  intro pre
  induction pre with
  | nil =>
    intro tail q r f _ hf
    simp only [List.nil_append] at hf
    simp only [List.nil_append, quoteFold, List.foldl_nil]
    exact charScan_fuel f tail f tail.length q r hf hf (Nat.le_refl _)
  | cons c pre' ih =>
    intro tail q r f hfail hf
    simp only [List.cons_append, List.length_cons] at hf ⊢
    cases f with
    | zero => omega
    | succ f1 =>
      have hstate : quoteFold (c :: pre') (q, r) = quoteFold pre' (quoteStep (q, r) c) := by
        simp [quoteFold]
      have hrec := ih tail (quoteStep (q, r) c).1 (quoteStep (q, r) c).2 f1
        (fun p₁ d p₂ hsplit => hfail (c :: p₁) d p₂ (by rw [hsplit]; rfl))
        (by simp at hf ⊢; omega)
      simp only [charScan]
      cases q with
      | true =>
        rw [if_pos rfl, hstate, hrec]
      | false =>
        rw [if_neg (by simp)]
        have hnm : numMatch (c :: (pre' ++ tail)) = none := hfail [] c pre' rfl
        simp only [hnm]
        rw [hstate, hrec]

theorem charScan_plain_copy : ∀ (m : List Char) (tail : List Char) (r f : Nat),
    (∀ c ∈ m, ¬(c = '"') ∧ ¬(c = '\\')) → m ≠ [] → m.length + tail.length ≤ f →
    charScan f (m ++ tail) true r = m ++ charScan tail.length tail true 0 := by
  intro m
  induction m with
  | nil => intro tail r f _ hne _; cases hne rfl
  | cons c m' ih =>
    intro tail r f h _ hf
    have hc := h c (List.mem_cons_self _ _)
    simp only [List.length_cons] at hf
    cases f with
    | zero => omega
    | succ f1 =>
      have hstep : quoteStep (true, r) c = (true, 0) := by
        simp [quoteStep, hc.1, hc.2]
      show c :: charScan f1 (m' ++ tail) (quoteStep (true, r) c).1 (quoteStep (true, r) c).2 =
        (c :: m') ++ charScan tail.length tail true 0
      rw [hstep]
      show c :: charScan f1 (m' ++ tail) true 0 = (c :: m') ++ charScan tail.length tail true 0
      cases m' with
      | nil =>
        rw [show ([] : List Char) ++ tail = tail from rfl,
          charScan_fuel f1 tail f1 tail.length true 0 (by simp at hf; omega)
            (by simp at hf; omega) (Nat.le_refl _)]
        rfl
      | cons c2 m'' =>
        rw [ih tail 0 f1 (fun x hx => h x (List.mem_cons_of_mem _ hx)) (by simp)
          (by simp at hf ⊢; omega)]
        rfl

theorem safeGoT_eq_charScan : ∀ (n : Nat) (rest : List Char) (q : Bool) (f1 f2 : Nat),
    rest.length ≤ n → rest.length ≤ f1 → rest.length ≤ f2 →
    (safeGoT f1 rest q).1 = charScan f2 rest q 0 := by
  intro n
  induction n with
  | zero =>
    intro rest q f1 f2 hn _ _
    have : rest = [] := List.eq_nil_of_length_eq_zero (by omega)
    subst this
    cases f1 <;> cases f2 <;> rfl
  | succ n ih =>
    intro rest q f1 f2 hn hf1 hf2
    cases hf : findNum rest with
    | none =>
      have hsafe : (safeGoT f1 rest q).1 = rest := by
        cases f1 with
        | zero => rfl
        | succ f1' => simp [safeGoT, hf]
      rw [hsafe, charScan_noMatch rest f2 q 0 hf2 hf]
    | some pmr =>
      obtain ⟨pre, m, rest2⟩ := pmr
      obtain ⟨hdec, hne, hchars⟩ := findNum_decomp hf
      have hm1 : 1 ≤ m.length := by
        cases m with
        | nil => cases hne rfl
        | cons _ _ => simp
      have hlen : pre.length + m.length + rest2.length = rest.length := by
        have := congrArg List.length hdec
        simp at this
        omega
      cases f1 with
      | zero => omega
      | succ f1' =>
        have hplain : ∀ c ∈ m, ¬(c = '"') ∧ ¬(c = '\\') :=
          fun c hc => numberChar_plain (hchars c hc)
        have hfail : ∀ p₁ c p₂, pre = p₁ ++ c :: p₂ →
            numMatch (c :: (p₂ ++ (m ++ rest2))) = none := by
          intro p₁ c p₂ hs
          have := findNum_pre_fail hf p₁ c p₂ hs
          simpa [List.append_assoc] using this
        have hrhs : charScan f2 rest q 0 =
            pre ++ charScan (m ++ rest2).length (m ++ rest2)
              (quoteFold pre (q, 0)).1 (quoteFold pre (q, 0)).2 := by
          rw [hdec, List.append_assoc]
          exact charScan_pre pre (m ++ rest2) q 0 f2 hfail
            (by rw [← List.append_assoc, ← hdec]; omega)
        have hfst : (quoteFold pre (q, 0)).1 = xor (isInsideQuotes pre) q := by
          rw [quoteFold_xor, isInsideQuotes_eq_fold]
          cases q <;> cases (quoteFold pre (false, 0)).1 <;> rfl
        have hlhs : (safeGoT (f1' + 1) rest q).1 =
            pre ++ ((if xor (isInsideQuotes pre) q then m else wrapNumL m) ++
              (safeGoT f1' rest2 (xor (isInsideQuotes pre) q)).1) := by
          simp [safeGoT, hf, List.append_assoc]
        rw [hlhs, hrhs, hfst]
        refine congrArg (fun t => pre ++ t) ?_
        cases hq2 : xor (isInsideQuotes pre) q with
        | false =>
          cases m with
          | nil => cases hne rfl
          | cons cm m' =>
            have hmm : numMatch (cm :: (m' ++ rest2)) = some (cm :: m', rest2) :=
              findNum_match hf
            show (wrapNumL (cm :: m')) ++ (safeGoT f1' rest2 false).1 =
              charScan ((m' ++ rest2).length + 1) (cm :: (m' ++ rest2)) false
                (quoteFold pre (q, 0)).2
            have hstep : charScan ((m' ++ rest2).length + 1) (cm :: (m' ++ rest2)) false
                (quoteFold pre (q, 0)).2 =
                wrapNumL (cm :: m') ++ charScan (m' ++ rest2).length rest2 false 0 := by
              simp only [charScan, if_neg (by simp : ¬(false = true)), hmm]
            rw [hstep]
            refine congrArg (fun t => wrapNumL (cm :: m') ++ t) ?_
            have hlen2 : pre.length + (m'.length + 1) + rest2.length = rest.length := by
              simpa using hlen
            have hlap : (m' ++ rest2).length = m'.length + rest2.length := by simp
            rw [ih rest2 false f1' (m' ++ rest2).length (by omega) (by omega) (by omega)]
        | true =>
          rw [charScan_plain_copy m rest2 (quoteFold pre (q, 0)).2 (m ++ rest2).length
            hplain hne (by simp)]
          refine congrArg (fun t => m ++ t) ?_
          rw [ih rest2 true f1' rest2.length (by omega) (by omega) (Nat.le_refl _)]

theorem numMatch_none_head {c : Char} (cs : List Char) (h1 : isDigitC c = false)
    (h2 : ¬(c = '-')) : numMatch (c :: cs) = none := by
  have h0 : ¬(c = '0') := by
    intro h; subst h; simp [isDigitC] at h1
  have h19 : ¬(isDigit19 c = true) := by
    intro h
    rw [isDigit19_isDigitC h] at h1
    cases h1
  simp only [numMatch, if_neg h2, numIntPart, if_neg h0, if_neg h19]

theorem fold_noQuote_fst : ∀ (cs : List Char) (st : Bool × Nat),
    (∀ c ∈ cs, ¬(c = '"')) → (quoteFold cs st).1 = st.1 := by
  intro cs
  induction cs with
  | nil => intro st _; rfl
  | cons c cs' ih =>
    intro st h
    have hc := h c (List.mem_cons_self _ _)
    have hstep : (quoteStep st c).1 = st.1 := by
      by_cases hb : c = '\\' <;> simp [quoteStep, hc, hb]
    show (quoteFold cs' (quoteStep st c)).1 = st.1
    rw [ih (quoteStep st c) (fun x hx => h x (List.mem_cons_of_mem _ hx))]
    exact hstep

theorem charScan_inside : ∀ (cs tail : List Char) (r f : Nat),
    (∀ a b, cs = a ++ b → (quoteFold a (true, r)).1 = true) →
    (cs ++ tail).length ≤ f →
    charScan f (cs ++ tail) true r =
      cs ++ charScan tail.length tail true (quoteFold cs (true, r)).2 := by
  intro cs
  induction cs with
  | nil =>
    intro tail r f _ hf
    simp only [List.nil_append] at hf ⊢
    exact charScan_fuel f tail f tail.length true r hf hf (Nat.le_refl _)
  | cons c cs' ih =>
    intro tail r f hsafe hf
    simp only [List.cons_append, List.length_cons] at hf ⊢
    cases f with
    | zero => omega
    | succ f1 =>
      have hfst : (quoteStep (true, r) c).1 = true := by
        have := hsafe [c] cs' rfl
        simpa [quoteFold] using this
      have hpair : quoteStep (true, r) c = (true, (quoteStep (true, r) c).2) :=
        Prod.ext hfst rfl
      show c :: charScan f1 (cs' ++ tail) (quoteStep (true, r) c).1 (quoteStep (true, r) c).2 =
        c :: (cs' ++ charScan tail.length tail true (quoteFold (c :: cs') (true, r)).2)
      rw [hfst]
      have hsafe' : ∀ a b, cs' = a ++ b → (quoteFold a (true, (quoteStep (true, r) c).2)).1 = true := by
        intro a b hab
        have := hsafe (c :: a) b (by rw [hab]; rfl)
        rw [show quoteFold (c :: a) (true, r) = quoteFold a (quoteStep (true, r) c) by
          simp [quoteFold]] at this
        rwa [hpair] at this
      rw [ih tail (quoteStep (true, r) c).2 f1 hsafe' (by omega)]
      have hfold : quoteFold (c :: cs') (true, r) =
          quoteFold cs' (true, (quoteStep (true, r) c).2) := by
        simp only [quoteFold, List.foldl_cons]
        rw [← hpair]
      rw [hfold]

theorem hexDigitLower_props : ∀ n : Nat, n < 16 →
    ¬(hexDigitLower n = '"') ∧ ¬(hexDigitLower n = '\\') ∧
      ¬(hexDigitLower n = markerChar) ∧ hexVal (hexDigitLower n) = some n := by
  intro n hn
  interval_cases n <;> exact (by decide)

theorem two_append_cases {x y : Char} {a b : List Char}
    (hab : ([x, y] : List Char) = a ++ b) : a = [] ∨ a = [x] ∨ a = [x, y] := by
  cases a with
  | nil => exact Or.inl rfl
  | cons u a' =>
    cases a' with
    | nil =>
      simp only [List.cons_append, List.nil_append, List.cons.injEq] at hab
      exact Or.inr (Or.inl (by rw [hab.1]))
    | cons v a'' =>
      simp only [List.cons_append, List.cons.injEq] at hab
      obtain ⟨h1, h2, h3⟩ := hab
      have hnil : a'' = [] := by
        have := congrArg List.length h3
        simp at this
        exact List.eq_nil_of_length_eq_zero (by omega)
      exact Or.inr (Or.inr (by rw [h1, h2, hnil]))

theorem escToken_safe (c : Char) (r : Nat) (hr : r % 2 = 0) :
    (∀ a b, jsonEscapeChar c = a ++ b → (quoteFold a (true, r)).1 = true) ∧
    (quoteFold (jsonEscapeChar c) (true, r)).2 % 2 = 0 := by
  have hqfree : ∀ (tok : List Char), (∀ x ∈ tok, ¬(x = '"')) →
      ∀ a b, tok = a ++ b → (quoteFold a (true, r)).1 = true := by
    intro tok hnq a b hab
    refine fold_noQuote_fst a (true, r) (fun x hx => hnq x ?_)
    rw [hab]
    exact List.mem_append_left b hx
  unfold jsonEscapeChar
  split_ifs with h1 h2 h3 h4 h5 h6 h7 h8
  · constructor
    · intro a b hab
      rcases two_append_cases hab with rfl | rfl | rfl
      · rfl
      · simp [quoteFold, quoteStep]
      · have hodd : ¬((r + 1) % 2 = 0) := by omega
        simp [quoteFold, quoteStep, hodd]
    · have hodd : ¬((r + 1) % 2 = 0) := by omega
      simp [quoteFold, quoteStep, hodd]
  · exact ⟨hqfree _ (by decide), by simp [quoteFold, quoteStep]; omega⟩
  · exact ⟨hqfree _ (by decide), by simp [quoteFold, quoteStep]⟩
  · exact ⟨hqfree _ (by decide), by simp [quoteFold, quoteStep]⟩
  · exact ⟨hqfree _ (by decide), by simp [quoteFold, quoteStep]⟩
  · exact ⟨hqfree _ (by decide), by simp [quoteFold, quoteStep]⟩
  · exact ⟨hqfree _ (by decide), by simp [quoteFold, quoteStep]⟩
  · have hdiv : c.toNat / 16 < 16 := by omega
    have hmod : c.toNat % 16 < 16 := Nat.mod_lt _ (by norm_num)
    have hp1 := hexDigitLower_props (c.toNat / 16) hdiv
    have hp2 := hexDigitLower_props (c.toNat % 16) hmod
    constructor
    · refine hqfree _ ?_
      intro x hx
      simp only [List.mem_cons, List.not_mem_nil, or_false] at hx
      rcases hx with rfl | rfl | rfl | rfl | rfl | rfl
      · decide
      · decide
      · decide
      · decide
      · exact hp1.1
      · exact hp2.1
    · simp [quoteFold, quoteStep, hp1.1, hp1.2.1, hp2.1, hp2.2.1]
  · constructor
    · refine hqfree _ ?_
      intro x hx
      simp only [List.mem_cons, List.not_mem_nil, or_false] at hx
      subst hx
      exact h1
    · simp [quoteFold, quoteStep, h1, h2]

theorem jsonEscape_cons (c : Char) (s : List Char) :
    jsonEscape (c :: s) = jsonEscapeChar c ++ jsonEscape s := by
  simp [jsonEscape]

theorem charScan_esc : ∀ (s : List Char) (tail : List Char) (r f : Nat), r % 2 = 0 →
    (jsonEscape s ++ tail).length ≤ f →
    ∃ r', r' % 2 = 0 ∧
      charScan f (jsonEscape s ++ tail) true r =
        jsonEscape s ++ charScan tail.length tail true r' := by
  intro s
  induction s with
  | nil =>
    intro tail r f hr hf
    refine ⟨r, hr, ?_⟩
    have he : jsonEscape [] = ([] : List Char) := rfl
    rw [he, List.nil_append] at hf ⊢
    exact charScan_fuel f tail f tail.length true r hf hf (Nat.le_refl _)
  | cons c s' ih =>
    intro tail r f hr hf
    have htok := escToken_safe c r hr
    rw [jsonEscape_cons] at hf ⊢
    rw [List.append_assoc] at hf ⊢
    have hins := charScan_inside (jsonEscapeChar c) (jsonEscape s' ++ tail) r f htok.1 hf
    obtain ⟨r', hr', hrec⟩ := ih tail (quoteFold (jsonEscapeChar c) (true, r)).2
      (jsonEscape s' ++ tail).length htok.2 (Nat.le_refl _)
    refine ⟨r', hr', ?_⟩
    rw [hins, hrec, List.append_assoc]

theorem charScan_strLit : ∀ (s rest : List Char) (f : Nat),
    ('"' :: (jsonEscape s ++ '"' :: rest)).length ≤ f →
    charScan f ('"' :: (jsonEscape s ++ '"' :: rest)) false 0 =
      '"' :: (jsonEscape s ++ '"' :: charScan rest.length rest false 0) := by
  intro s rest f hf
  simp only [List.length_cons] at hf
  cases f with
  | zero => omega
  | succ f1 =>
    have hnm : numMatch ('"' :: (jsonEscape s ++ '"' :: rest)) = none :=
      numMatch_none_head _ (by decide) (by decide)
    have hstep :
        charScan (f1 + 1) ('"' :: (jsonEscape s ++ '"' :: rest)) false 0 =
          '"' :: charScan f1 (jsonEscape s ++ '"' :: rest) true 0 := by
      simp only [charScan, if_neg (by simp : ¬(false = true)), hnm]
      have : quoteStep (false, 0) '"' = (true, 0) := by simp [quoteStep]
      rw [this]
    rw [hstep]
    obtain ⟨r', hr', hesc⟩ := charScan_esc s ('"' :: rest) 0 f1 (by omega) (by omega)
    rw [hesc]
    have hclose : charScan ('"' :: rest).length ('"' :: rest) true r' =
        '"' :: charScan rest.length rest false 0 := by
      have hq : quoteStep (true, r') '"' = (false, 0) := by
        simp [quoteStep, hr']
      show '"' :: charScan rest.length rest (quoteStep (true, r') '"').1
        (quoteStep (true, r') '"').2 = '"' :: charScan rest.length rest false 0
      rw [hq]
    rw [hclose]

theorem charScan_lit : ∀ (lit tail : List Char) (f : Nat),
    (∀ c ∈ lit, isDigitC c = false ∧ ¬(c = '-') ∧ ¬(c = '"') ∧ ¬(c = '\\')) →
    (lit ++ tail).length ≤ f →
    charScan f (lit ++ tail) false 0 = lit ++ charScan tail.length tail false 0 := by
  intro lit
  induction lit with
  | nil =>
    intro tail f _ hf
    simp only [List.nil_append] at hf ⊢
    exact charScan_fuel f tail f tail.length false 0 hf hf (Nat.le_refl _)
  | cons c lit' ih =>
    intro tail f h hf
    have hc := h c (List.mem_cons_self _ _)
    simp only [List.cons_append, List.length_cons] at hf ⊢
    cases f with
    | zero => omega
    | succ f1 =>
      have hnm : numMatch (c :: (lit' ++ tail)) = none :=
        numMatch_none_head _ hc.1 hc.2.1
      have hstep : quoteStep (false, 0) c = (false, 0) := by
        simp [quoteStep, hc.2.2.1, hc.2.2.2]
      simp only [charScan, if_neg (by simp : ¬(false = true)), hnm, hstep]
      rw [ih tail f1 (fun x hx => h x (List.mem_cons_of_mem _ hx)) (by omega)]

theorem notNumber_notDigit {c : Char} (h : numberChar c = false) : isDigitC c = false := by
  by_contra hd
  simp only [Bool.not_eq_false] at hd
  simp [numberChar, hd] at h

theorem takeWhile_digits_ext : ∀ (l ext : List Char),
    (∀ c t, ext = c :: t → numberChar c = false) →
    (l ++ ext).takeWhile isDigitC = l.takeWhile isDigitC ∧
      (l ++ ext).dropWhile isDigitC = l.dropWhile isDigitC ++ ext := by
  intro l
  induction l with
  | nil =>
    intro ext hext
    cases ext with
    | nil => exact ⟨rfl, rfl⟩
    | cons c t =>
      have hc := notNumber_notDigit (hext c t rfl)
      simp [List.takeWhile_cons, List.dropWhile_cons, hc]
  | cons a l' ih =>
    intro ext hext
    obtain ⟨h1, h2⟩ := ih ext hext
    cases ha : isDigitC a with
    | true =>
      simp [List.takeWhile_cons, List.dropWhile_cons, ha, h1, h2]
    | false =>
      simp [List.takeWhile_cons, List.dropWhile_cons, ha]

theorem numIntPart_ext {cs ip r1 : List Char} (h : numIntPart cs = some (ip, r1))
    (ext : List Char) (hext : ∀ c t, ext = c :: t → numberChar c = false) :
    numIntPart (cs ++ ext) = some (ip, r1 ++ ext) := by
  cases cs with
  | nil => simp [numIntPart] at h
  | cons c cs' =>
    simp only [numIntPart] at h
    simp only [List.cons_append, numIntPart]
    split_ifs at h with h0 h19
    · rw [if_pos h0]
      simp only [Option.some.injEq, Prod.mk.injEq] at h
      rw [← h.1, ← h.2]
    · rw [if_neg h0, if_pos h19]
      obtain ⟨hw1, hw2⟩ := takeWhile_digits_ext cs' ext hext
      simp only [Option.some.injEq, Prod.mk.injEq] at h
      rw [hw1, hw2, h.1, h.2]

theorem numFracPart_ext (cs ext : List Char)
    (hext : ∀ c t, ext = c :: t → numberChar c = false) :
    numFracPart (cs ++ ext) = ((numFracPart cs).1, (numFracPart cs).2 ++ ext) := by
  match cs with
  | [] =>
    cases ext with
    | nil => rfl
    | cons c t =>
      cases t with
      | nil => rfl
      | cons d t' =>
        have hc : ¬(c = '.') := by
          intro hh
          have hn := hext c (d :: t') rfl
          rw [hh] at hn
          revert hn
          decide
        simp only [List.nil_append, numFracPart]
        rw [if_neg (fun hh => hc hh.1)]
  | [x] =>
    cases ext with
    | nil => rfl
    | cons c t =>
      have hc := notNumber_notDigit (hext c t rfl)
      simp only [List.cons_append, List.nil_append, numFracPart]
      rw [if_neg (by intro hh; rw [hc] at hh; exact absurd hh.2 (by decide))]
  | p :: d :: rest =>
    by_cases hpd : p = '.' ∧ isDigitC d
    · obtain ⟨hw1, hw2⟩ := takeWhile_digits_ext rest ext hext
      simp only [List.cons_append, numFracPart, if_pos hpd, hw1, hw2]
    · simp only [List.cons_append, numFracPart, if_neg hpd]

theorem numExpPart_ext (cs ext : List Char)
    (hext : ∀ c t, ext = c :: t → numberChar c = false) :
    numExpPart (cs ++ ext) = ((numExpPart cs).1, (numExpPart cs).2 ++ ext) := by
  match cs with
  | [] =>
    cases ext with
    | nil => rfl
    | cons c t =>
      cases t with
      | nil => rfl
      | cons s t' =>
        have hn := hext c (s :: t') rfl
        have hce : ¬(c = 'e' ∨ c = 'E') := by
          rintro (rfl | rfl) <;> revert hn <;> decide
        simp only [List.nil_append, numExpPart]
        rw [if_neg hce]
  | [x] =>
    cases ext with
    | nil => rfl
    | cons c t =>
      have hn := hext c t rfl
      have hsign : ¬(c = '+' ∨ c = '-') := by
        rintro (rfl | rfl) <;> revert hn <;> decide
      have hdig := notNumber_notDigit hn
      by_cases hx : x = 'e' ∨ x = 'E'
      · simp only [List.cons_append, List.nil_append, numExpPart, if_pos hx, if_neg hsign]
        rw [if_neg (by intro hh; rw [hdig] at hh; exact absurd hh (by decide))]
      · simp only [List.cons_append, List.nil_append, numExpPart, if_neg hx]
  | e :: s :: rest =>
    by_cases he : e = 'e' ∨ e = 'E'
    · by_cases hs : s = '+' ∨ s = '-'
      · cases rest with
        | nil =>
          cases ext with
          | nil =>
            simp only [List.cons_append, List.nil_append, List.append_nil, numExpPart,
              if_pos he, if_pos hs]
          | cons d t =>
            have hd := notNumber_notDigit (hext d t rfl)
            simp only [List.cons_append, List.nil_append, numExpPart, if_pos he, if_pos hs]
            rw [if_neg (by intro hh; rw [hd] at hh; exact absurd hh (by decide))]
        | cons d rest2 =>
          by_cases hd : isDigitC d = true
          · obtain ⟨hw1, hw2⟩ := takeWhile_digits_ext rest2 ext hext
            simp only [List.cons_append, numExpPart, if_pos he, if_pos hs, if_pos hd,
              hw1, hw2]
          · simp only [List.cons_append, numExpPart, if_pos he, if_pos hs, if_neg hd]
      · by_cases hds : isDigitC s = true
        · obtain ⟨hw1, hw2⟩ := takeWhile_digits_ext rest ext hext
          simp only [List.cons_append, numExpPart, if_pos he, if_neg hs, if_pos hds,
            hw1, hw2]
        · simp only [List.cons_append, numExpPart, if_pos he, if_neg hs, if_neg hds]
    · simp only [List.cons_append, numExpPart, if_neg he]

theorem numMatch_extend {m : List Char} (h : numMatch m = some (m, []))
    (ext : List Char) (hext : ∀ c t, ext = c :: t → numberChar c = false) :
    numMatch (m ++ ext) = some (m, ext) := by
  cases hm : m with
  | nil => rw [hm] at h; simp [numMatch] at h
  | cons c m' =>
    rw [hm] at h
    simp only [numMatch] at h
    simp only [List.cons_append, numMatch]
    split_ifs at h with hminus
    · rw [if_pos hminus]
      cases hip : numIntPart m' with
      | none => rw [hip] at h; cases h
      | some ipr =>
        obtain ⟨ip, r1⟩ := ipr
        rw [hip] at h
        simp only [Option.some.injEq, Prod.mk.injEq] at h
        rw [numIntPart_ext hip ext hext]
        simp only [numFracPart_ext r1 ext hext, numExpPart_ext (numFracPart r1).2 ext hext,
          h.2, List.nil_append, Option.some.injEq, Prod.mk.injEq]
        exact ⟨h.1, trivial⟩
    · rw [if_neg hminus]
      cases hip : numIntPart (c :: m') with
      | none => rw [hip] at h; cases h
      | some ipr =>
        obtain ⟨ip, r1⟩ := ipr
        rw [hip] at h
        simp only [Option.some.injEq, Prod.mk.injEq] at h
        rw [← List.cons_append c m' ext, numIntPart_ext hip ext hext]
        simp only [numFracPart_ext r1 ext hext, numExpPart_ext (numFracPart r1).2 ext hext,
          h.2, List.nil_append, Option.some.injEq, Prod.mk.injEq]
        exact ⟨h.1, trivial⟩

theorem jsonEscapeChar_plainNum {c : Char} (h : numberChar c = true) :
    jsonEscapeChar c = [c] := by
  simp only [numberChar, Bool.or_eq_true, decide_eq_true_eq] at h
  rcases h with ((((hd | rfl) | rfl) | rfl) | rfl) | rfl
  · have hb : 48 ≤ c.toNat ∧ c.toNat ≤ 57 := by
      simpa [isDigitC] using hd
    simp only [jsonEscapeChar]
    rw [if_neg (fun hq => by rw [hq] at hb; revert hb; decide),
        if_neg (fun hq => by rw [hq] at hb; revert hb; decide),
        if_neg (fun hq => by rw [hq] at hb; revert hb; decide),
        if_neg (fun hq => by rw [hq] at hb; revert hb; decide),
        if_neg (fun hq => by rw [hq] at hb; revert hb; decide),
        if_neg (fun hq => by rw [hq] at hb; revert hb; decide),
        if_neg (fun hq => by rw [hq] at hb; revert hb; decide),
        if_neg (by omega)]
  all_goals decide

theorem jsonEscape_plain : ∀ (cs : List Char), (∀ c ∈ cs, numberChar c = true) →
    jsonEscape cs = cs := by
  intro cs
  induction cs with
  | nil => intro _; rfl
  | cons c cs' ih =>
    intro h
    rw [jsonEscape_cons, jsonEscapeChar_plainNum (h c (List.mem_cons_self _ _)),
      ih (fun x hx => h x (List.mem_cons_of_mem _ hx))]
    rfl

theorem charScan_match (m rest : List Char) (f : Nat)
    (hm : numMatch (m ++ rest) = some (m, rest)) (hf : (m ++ rest).length ≤ f) :
    charScan f (m ++ rest) false 0 = wrapNumL m ++ charScan rest.length rest false 0 := by
  cases m with
  | nil => exact absurd rfl (numMatch_decomp hm).2.1
  | cons c m' =>
    simp only [List.cons_append] at hm hf ⊢
    simp only [List.length_cons, List.length_append] at hf
    cases f with
    | zero => omega
    | succ f1 =>
      simp only [charScan, if_neg (by simp : ¬(false = true)), hm]
      rw [charScan_fuel f1 rest f1 rest.length false 0 (by omega) (by omega) (Nat.le_refl _)]

theorem charScan_cons_lit (c : Char) (tail : List Char) (f : Nat)
    (hc : isDigitC c = false ∧ ¬(c = '-') ∧ ¬(c = '"') ∧ ¬(c = '\\'))
    (hf : tail.length + 1 ≤ f) :
    charScan f (c :: tail) false 0 = c :: charScan tail.length tail false 0 := by
  have h := charScan_lit [c] tail f
    (by intro x hx; rcases List.mem_singleton.mp hx with rfl; exact hc)
    (by simpa using hf)
  simpa using h

theorem charScan_ser : ∀ (n : Nat) (v : PValue) (ext : List Char) (f : Nat),
    pvSize v ≤ n → wfVal v = true →
    (∀ c t, ext = c :: t → numberChar c = false) →
    (serVal v ++ ext).length ≤ f →
    charScan f (serVal v ++ ext) false 0 =
      serVal (wrapNums v) ++ charScan ext.length ext false 0 := by
  intro n
  induction n with
  | zero =>
    intro v ext f hn _ _ _
    have := pvSize_pos v
    omega
  | succ n ih =>
    intro v ext f hn hwf hext hf
    cases v with
    | null =>
      simp only [serVal, wrapNums] at hf ⊢
      exact charScan_lit "null".data ext f (by decide) hf
    | bool b =>
      cases b with
      | true =>
        simp only [serVal, wrapNums, if_pos rfl] at hf ⊢
        exact charScan_lit "true".data ext f (by decide) hf
      | false =>
        simp only [serVal, wrapNums, Bool.false_eq_true, if_false] at hf ⊢
        exact charScan_lit "false".data ext f (by decide) hf
    | num s =>
      have hnum : numMatch s.data = some (s.data, []) := by
        simp only [wfVal, jsonNumberB, decide_eq_true_eq] at hwf
        exact hwf
      have hchars : ∀ c ∈ s.data, numberChar c = true :=
        fun c hc => (numMatch_decomp hnum).2.2 c hc
      have hmm := numMatch_extend hnum ext hext
      simp only [serVal, wrapNums] at hf ⊢
      rw [charScan_match s.data ext f hmm hf]
      rw [jsonEscape_cons, (by decide : jsonEscapeChar markerChar = [markerChar]),
        jsonEscape_plain s.data hchars]
      simp only [wrapNumL, List.cons_append, List.append_assoc, List.singleton_append, List.nil_append]
    | str s =>
      simp only [serVal, wrapNums, List.cons_append, List.append_assoc,
        List.singleton_append, List.nil_append] at hf ⊢
      exact charScan_strLit s.data ext f hf
    | arr l =>
      simp only [pvSize] at hn
      simp only [wfVal] at hwf
      have hlist : ∀ (l' : List PValue) (ext' : List Char) (f' : Nat),
          (∀ v' ∈ l', pvSize v' ≤ n) → wfList l' = true →
          (∀ c t, ext' = c :: t → numberChar c = false) →
          (serElems l' ++ ext').length ≤ f' →
          charScan f' (serElems l' ++ ext') false 0 =
            serElems (wrapNumsList l') ++ charScan ext'.length ext' false 0 := by
        intro l'
        induction l' with
        | nil =>
          intro ext' f' _ _ _ hf'
          simp only [serElems, wrapNumsList, List.nil_append] at hf' ⊢
          exact charScan_fuel f' ext' f' ext'.length false 0 hf' hf' (Nat.le_refl _)
        | cons v' rest ih2 =>
          intro ext' f' hsz hwl hext' hf'
          cases rest with
          | nil =>
            simp only [serElems, wrapNumsList] at hf' ⊢
            rw [wfList, Bool.and_eq_true] at hwl
            exact ih v' ext' f' (hsz v' (List.mem_cons_self _ _)) hwl.1 hext' hf'
          | cons v2 rest2 =>
            rw [wfList, Bool.and_eq_true] at hwl
            simp only [serElems, wrapNumsList, List.cons_append, List.append_assoc, List.nil_append] at hf' ⊢
            rw [ih v' (',' :: (serElems (v2 :: rest2) ++ ext')) f'
              (hsz v' (List.mem_cons_self _ _)) hwl.1
              (fun c t he => by injection he with h1 _; rw [← h1]; decide) hf']
            rw [charScan_cons_lit ',' (serElems (v2 :: rest2) ++ ext') _ (by decide)
              (by simp)]
            rw [ih2 ext' (serElems (v2 :: rest2) ++ ext').length
              (fun x hx => hsz x (List.mem_cons_of_mem _ hx)) hwl.2 hext' (Nat.le_refl _)]
            simp only [wrapNumsList, serElems, List.cons_append, List.append_assoc, List.nil_append]
      simp only [serVal, wrapNums, List.cons_append, List.append_assoc,
        List.singleton_append, List.nil_append] at hf ⊢
      rw [charScan_cons_lit '[' (serElems l ++ ']' :: ext) f (by decide) (by
        simpa using hf)]
      rw [hlist l (']' :: ext) (serElems l ++ ']' :: ext).length
        (fun v' hv' => by have := pvSizeList_mem hv'; omega) hwf
        (fun c t he => by injection he with h1 _; rw [← h1]; decide) (Nat.le_refl _)]
      rw [charScan_cons_lit ']' ext (']' :: ext).length (by decide) (by simp)]
    | obj ps =>
      simp only [pvSize] at hn
      simp only [wfVal, Bool.and_eq_true] at hwf
      have hprops : ∀ (ps' : List (String × PValue)) (ext' : List Char) (f' : Nat),
          (∀ k' v', (k', v') ∈ ps' → pvSize v' ≤ n) → wfProps ps' = true →
          (∀ c t, ext' = c :: t → numberChar c = false) →
          (serMembers ps' ++ ext').length ≤ f' →
          charScan f' (serMembers ps' ++ ext') false 0 =
            serMembers (wrapNumsProps ps') ++ charScan ext'.length ext' false 0 := by
        intro ps'
        induction ps' with
        | nil =>
          intro ext' f' _ _ _ hf'
          simp only [serMembers, wrapNumsProps, List.nil_append] at hf' ⊢
          exact charScan_fuel f' ext' f' ext'.length false 0 hf' hf' (Nat.le_refl _)
        | cons kv rest ih2 =>
          obtain ⟨k, v⟩ := kv
          intro ext' f' hsz hwl hext' hf'
          cases rest with
          | nil =>
            rw [wfProps, Bool.and_eq_true] at hwl
            simp only [serMembers, wrapNumsProps, List.cons_append, List.append_assoc, List.nil_append] at hf' ⊢
            rw [charScan_strLit k.data (':' :: (serVal v ++ ext')) f' hf']
            rw [charScan_cons_lit ':' (serVal v ++ ext') _ (by decide) (by simp)]
            rw [ih v ext' (serVal v ++ ext').length (hsz k v (List.mem_cons_self _ _))
              hwl.1 hext' (Nat.le_refl _)]
          | cons m2 rest2 =>
            rw [wfProps, Bool.and_eq_true] at hwl
            simp only [serMembers, wrapNumsProps, List.cons_append, List.append_assoc, List.nil_append] at hf' ⊢
            rw [charScan_strLit k.data
              (':' :: (serVal v ++ ',' :: (serMembers (m2 :: rest2) ++ ext'))) f' hf']
            rw [charScan_cons_lit ':'
              (serVal v ++ ',' :: (serMembers (m2 :: rest2) ++ ext')) _ (by decide) (by simp)]
            rw [ih v (',' :: (serMembers (m2 :: rest2) ++ ext'))
              (serVal v ++ ',' :: (serMembers (m2 :: rest2) ++ ext')).length
              (hsz k v (List.mem_cons_self _ _)) hwl.1
              (fun c t he => by injection he with h1 _; rw [← h1]; decide) (Nat.le_refl _)]
            rw [charScan_cons_lit ',' (serMembers (m2 :: rest2) ++ ext') _ (by decide)
              (by simp)]
            rw [ih2 ext' (serMembers (m2 :: rest2) ++ ext').length
              (fun k' v' hm => hsz k' v' (List.mem_cons_of_mem _ hm)) hwl.2 hext'
              (Nat.le_refl _)]
            simp only [wrapNumsProps, serMembers, List.cons_append, List.append_assoc, List.nil_append]
      simp only [serVal, wrapNums, List.cons_append, List.append_assoc,
        List.singleton_append, List.nil_append] at hf ⊢
      rw [charScan_cons_lit '\x7b' (serMembers ps ++ '\x7d' :: ext) f (by decide) (by
        simpa using hf)]
      rw [hprops ps ('\x7d' :: ext) (serMembers ps ++ '\x7d' :: ext).length
        (fun k' v' hm => by have := pvSizeProps_mem hm; omega) hwf.1
        (fun c t he => by injection he with h1 _; rw [← h1]; decide) (Nat.le_refl _)]
      rw [charScan_cons_lit '\x7d' ext ('\x7d' :: ext).length (by decide) (by simp)]

theorem doubleMarkersL_append (a b : List Char) :
    doubleMarkersL (a ++ b) = doubleMarkersL a ++ doubleMarkersL b := by
  simp [doubleMarkersL]

theorem doubleMarkersL_cons (c : Char) (cs : List Char) :
    doubleMarkersL (c :: cs) =
      (if c = markerChar then [markerChar, markerChar] else [c]) ++ doubleMarkersL cs := by
  simp [doubleMarkersL]

theorem doubleMarkersL_nomark : ∀ {cs : List Char}, (∀ c ∈ cs, ¬(c = markerChar)) →
    doubleMarkersL cs = cs := by
  intro cs
  induction cs with
  | nil => intro _; rfl
  | cons c cs' ih =>
    intro h
    rw [doubleMarkersL_cons, if_neg (h c (List.mem_cons_self _ _)),
      ih (fun x hx => h x (List.mem_cons_of_mem _ hx))]
    rfl

theorem jsonEscapeChar_nomarker {c : Char} (hc : ¬(c = markerChar)) :
    ∀ x ∈ jsonEscapeChar c, ¬(x = markerChar) := by
  intro x hx
  simp only [jsonEscapeChar] at hx
  split_ifs at hx with h1 h2 h3 h4 h5 h6 h7 h8
  · rcases List.mem_cons.mp hx with rfl | hx2
    · decide
    rcases List.mem_cons.mp hx2 with rfl | hx3
    · decide
    · cases hx3
  · rcases List.mem_cons.mp hx with rfl | hx2
    · decide
    rcases List.mem_cons.mp hx2 with rfl | hx3
    · decide
    · cases hx3
  · rcases List.mem_cons.mp hx with rfl | hx2
    · decide
    rcases List.mem_cons.mp hx2 with rfl | hx3
    · decide
    · cases hx3
  · rcases List.mem_cons.mp hx with rfl | hx2
    · decide
    rcases List.mem_cons.mp hx2 with rfl | hx3
    · decide
    · cases hx3
  · rcases List.mem_cons.mp hx with rfl | hx2
    · decide
    rcases List.mem_cons.mp hx2 with rfl | hx3
    · decide
    · cases hx3
  · rcases List.mem_cons.mp hx with rfl | hx2
    · decide
    rcases List.mem_cons.mp hx2 with rfl | hx3
    · decide
    · cases hx3
  · rcases List.mem_cons.mp hx with rfl | hx2
    · decide
    rcases List.mem_cons.mp hx2 with rfl | hx3
    · decide
    · cases hx3
  · have h16a : c.toNat / 16 < 16 := by omega
    have h16b : c.toNat % 16 < 16 := by omega
    rcases List.mem_cons.mp hx with rfl | hx2
    · decide
    rcases List.mem_cons.mp hx2 with rfl | hx3
    · decide
    rcases List.mem_cons.mp hx3 with rfl | hx4
    · decide
    rcases List.mem_cons.mp hx4 with rfl | hx5
    · decide
    rcases List.mem_cons.mp hx5 with rfl | hx6
    · exact (hexDigitLower_props _ h16a).2.2.1
    rcases List.mem_cons.mp hx6 with rfl | hx7
    · exact (hexDigitLower_props _ h16b).2.2.1
    · cases hx7
  · rcases List.mem_cons.mp hx with rfl | hx2
    · exact hc
    · cases hx2

theorem doubleMarkers_jsonEscape : ∀ (cs : List Char),
    doubleMarkersL (jsonEscape cs) = jsonEscape (doubleMarkersL cs) := by
  intro cs
  induction cs with
  | nil => rfl
  | cons c cs' ih =>
    rw [jsonEscape_cons, doubleMarkersL_append, ih, doubleMarkersL_cons,
      (by simp [jsonEscape] : jsonEscape
        ((if c = markerChar then [markerChar, markerChar] else [c]) ++ doubleMarkersL cs') =
        jsonEscape (if c = markerChar then [markerChar, markerChar] else [c]) ++
          jsonEscape (doubleMarkersL cs'))]
    by_cases hc : c = markerChar
    · subst hc
      rw [if_pos rfl]
      rfl
    · rw [if_neg hc, doubleMarkersL_nomark (jsonEscapeChar_nomarker hc)]
      simp [jsonEscape]

theorem doubleMarkersL_inj : ∀ (xs ys : List Char),
    doubleMarkersL xs = doubleMarkersL ys → xs = ys := by
  intro xs
  induction xs with
  | nil =>
    intro ys h
    cases ys with
    | cons d u =>
      rw [doubleMarkersL_cons] at h
      split_ifs at h <;> cases h
    | nil => rfl
  | cons c t ih =>
    intro ys h
    cases ys with
    | nil =>
      rw [doubleMarkersL_cons] at h
      split_ifs at h <;> cases h
    | cons d u =>
      rw [doubleMarkersL_cons, doubleMarkersL_cons] at h
      by_cases hc : c = markerChar
      · by_cases hd : d = markerChar
        · rw [if_pos hc, if_pos hd] at h
          simp only [List.cons_append, List.nil_append, List.cons.injEq] at h
          rw [hc, hd, ih u h.2.2]
        · rw [if_pos hc, if_neg hd] at h
          simp only [List.cons_append, List.nil_append, List.cons.injEq] at h
          exact absurd h.1.symm hd
      · by_cases hd : d = markerChar
        · rw [if_neg hc, if_pos hd] at h
          simp only [List.cons_append, List.nil_append, List.cons.injEq] at h
          exact absurd h.1 hc
        · rw [if_neg hc, if_neg hd] at h
          simp only [List.cons_append, List.nil_append, List.cons.injEq] at h
          rw [h.1, ih u h.2]

theorem numberChar_nomarker {c : Char} (h : numberChar c = true) : ¬(c = markerChar) := by
  intro hh
  rw [hh] at h
  revert h
  decide

theorem doubleMarkers_serVal : ∀ (n : Nat) (v : PValue), pvSize v ≤ n → wfVal v = true →
    doubleMarkersL (serVal v) = serVal (doubleVal v) := by
  intro n
  induction n with
  | zero =>
    intro v hn _
    have := pvSize_pos v
    omega
  | succ n ih =>
    intro v hn hwf
    cases v with
    | null => decide
    | bool b => cases b <;> decide
    | num s =>
      simp only [wfVal, jsonNumberB, decide_eq_true_eq] at hwf
      have hchars := (numMatch_decomp hwf).2.2
      simp only [serVal, doubleVal]
      exact doubleMarkersL_nomark (fun c hc => numberChar_nomarker (hchars c hc))
    | str s =>
      simp only [serVal, doubleVal]
      rw [doubleMarkersL_cons, if_neg (by decide), doubleMarkersL_append,
        doubleMarkers_jsonEscape, (by decide : doubleMarkersL ['"'] = ['"'])]
      rfl
    | arr l =>
      simp only [pvSize] at hn
      have hlist : ∀ (l' : List PValue), (∀ v' ∈ l', pvSize v' ≤ n) → wfList l' = true →
          doubleMarkersL (serElems l') = serElems (doubleValList l') := by
        intro l'
        induction l' with
        | nil => intro _ _; rfl
        | cons v' rest ih2 =>
          intro hsz hwl
          rw [wfList, Bool.and_eq_true] at hwl
          cases rest with
          | nil =>
            simp only [serElems, doubleValList]
            exact ih v' (hsz v' (List.mem_cons_self _ _)) hwl.1
          | cons v2 rest2 =>
            simp only [serElems, doubleValList]
            rw [doubleMarkersL_append, doubleMarkersL_cons, if_neg (by decide),
              ih v' (hsz v' (List.mem_cons_self _ _)) hwl.1,
              ih2 (fun x hx => hsz x (List.mem_cons_of_mem _ hx)) hwl.2]
            simp only [doubleValList, serElems, List.cons_append, List.nil_append,
              List.singleton_append]
      simp only [serVal, doubleVal, wfVal] at hwf ⊢
      rw [doubleMarkersL_cons, if_neg (by decide), doubleMarkersL_append,
        hlist l (fun v' hv' => by have := pvSizeList_mem hv'; omega) hwf,
        (by decide : doubleMarkersL [']'] = [']'])]
      rfl
    | obj ps =>
      simp only [pvSize] at hn
      simp only [wfVal, Bool.and_eq_true] at hwf
      have hprops : ∀ (ps' : List (String × PValue)),
          (∀ k' v', (k', v') ∈ ps' → pvSize v' ≤ n) → wfProps ps' = true →
          doubleMarkersL (serMembers ps') = serMembers (doubleValProps ps') := by
        intro ps'
        induction ps' with
        | nil => intro _ _; rfl
        | cons kv rest ih2 =>
          obtain ⟨k, v⟩ := kv
          intro hsz hwl
          rw [wfProps, Bool.and_eq_true] at hwl
          cases rest with
          | nil =>
            simp only [serMembers, doubleValProps]
            rw [doubleMarkersL_cons, if_neg (by decide), doubleMarkersL_append,
              doubleMarkers_jsonEscape,
              doubleMarkersL_cons, if_neg (by decide),
              doubleMarkersL_cons, if_neg (by decide),
              ih v (hsz k v (List.mem_cons_self _ _)) hwl.1]
            rfl
          | cons m2 rest2 =>
            simp only [serMembers, doubleValProps]
            rw [doubleMarkersL_append, doubleMarkersL_cons, if_neg (by decide),
              doubleMarkersL_append, doubleMarkers_jsonEscape,
              doubleMarkersL_cons, if_neg (by decide),
              doubleMarkersL_cons, if_neg (by decide),
              ih v (hsz k v (List.mem_cons_self _ _)) hwl.1,
              doubleMarkersL_cons, if_neg (by decide),
              ih2 (fun k' v' hm => hsz k' v' (List.mem_cons_of_mem _ hm)) hwl.2]
            simp only [doubleValProps, serMembers, List.cons_append, List.nil_append,
              List.singleton_append, List.append_assoc]
      simp only [serVal, doubleVal]
      rw [doubleMarkersL_cons, if_neg (by decide), doubleMarkersL_append,
        hprops ps (fun k' v' hm => by have := pvSizeProps_mem hm; omega) hwf.1,
        (by decide : doubleMarkersL ['\x7d'] = ['\x7d'])]
      rfl

theorem doubleKey_inj : Function.Injective
    (fun k : String => String.mk (doubleMarkersL k.data)) := by
  intro a b h
  have h2 : doubleMarkersL a.data = doubleMarkersL b.data := congrArg String.data h
  exact congrArg String.mk (doubleMarkersL_inj _ _ h2)

theorem doubleValProps_keys : ∀ (ps : List (String × PValue)),
    (doubleValProps ps).map Prod.fst =
      (ps.map Prod.fst).map (fun k : String => String.mk (doubleMarkersL k.data)) := by
  intro ps
  induction ps with
  | nil => rfl
  | cons kv rest ih =>
    obtain ⟨k, v⟩ := kv
    simp only [doubleValProps, List.map_cons, ih]

theorem wfVal_double : ∀ (n : Nat) (v : PValue), pvSize v ≤ n → wfVal v = true →
    wfVal (doubleVal v) = true := by
  intro n
  induction n with
  | zero =>
    intro v hn _
    have := pvSize_pos v
    omega
  | succ n ih =>
    intro v hn hwf
    cases v with
    | null => exact hwf
    | bool b => exact hwf
    | num s => exact hwf
    | str s => rfl
    | arr l =>
      simp only [pvSize] at hn
      simp only [wfVal] at hwf ⊢
      simp only [doubleVal]
      have hlist : ∀ (l' : List PValue), (∀ v' ∈ l', pvSize v' ≤ n) → wfList l' = true →
          wfList (doubleValList l') = true := by
        intro l'
        induction l' with
        | nil => intro _ _; rfl
        | cons v' rest ih2 =>
          intro hsz hwl
          rw [wfList, Bool.and_eq_true] at hwl
          simp only [doubleValList]
          rw [wfList, Bool.and_eq_true]
          exact ⟨ih v' (hsz v' (List.mem_cons_self _ _)) hwl.1,
            ih2 (fun x hx => hsz x (List.mem_cons_of_mem _ hx)) hwl.2⟩
      exact hlist l (fun v' hv' => by have := pvSizeList_mem hv'; omega) hwf
    | obj ps =>
      simp only [pvSize] at hn
      simp only [wfVal, Bool.and_eq_true, decide_eq_true_eq] at hwf
      simp only [doubleVal]
      simp only [wfVal, Bool.and_eq_true, decide_eq_true_eq]
      have hprops : ∀ (ps' : List (String × PValue)),
          (∀ k' v', (k', v') ∈ ps' → pvSize v' ≤ n) → wfProps ps' = true →
          wfProps (doubleValProps ps') = true := by
        intro ps'
        induction ps' with
        | nil => intro _ _; rfl
        | cons kv rest ih2 =>
          obtain ⟨k, v⟩ := kv
          intro hsz hwl
          rw [wfProps, Bool.and_eq_true] at hwl
          simp only [doubleValProps]
          rw [wfProps, Bool.and_eq_true]
          exact ⟨ih v (hsz k v (List.mem_cons_self _ _)) hwl.1,
            ih2 (fun k' v' hm => hsz k' v' (List.mem_cons_of_mem _ hm)) hwl.2⟩
      refine ⟨?_, ?_⟩
      · exact hprops ps (fun k' v' hm => by have := pvSizeProps_mem hm; omega) hwf.1
      · rw [doubleValProps_keys]
        exact List.Nodup.map doubleKey_inj hwf.2

theorem encode_serialize (v : PValue) (hwf : wfVal v = true) :
    safeStringEncodeNums (serialize v) = String.mk (serVal (decorate v)) := by
  have hD : doubleMarkersL (serVal v) = serVal (doubleVal v) :=
    doubleMarkers_serVal (pvSize v) v (Nat.le_refl _) hwf
  have hwfd : wfVal (doubleVal v) = true := wfVal_double (pvSize v) v (Nat.le_refl _) hwf
  have hscan := charScan_ser (pvSize (doubleVal v)) (doubleVal v) []
    (serVal (doubleVal v)).length (Nat.le_refl _) hwfd (fun c t h => nomatch h)
    (by simp)
  simp only [List.append_nil, List.length_nil, charScan] at hscan
  have hbr := safeGoT_eq_charScan (serVal (doubleVal v)).length (serVal (doubleVal v)) false
    (serVal (doubleVal v)).length (serVal (doubleVal v)).length
    (Nat.le_refl _) (Nat.le_refl _) (Nat.le_refl _)
  show String.mk (safeGoT (doubleMarkersL (serVal v)).length (doubleMarkersL (serVal v))
      false).1 = String.mk (serVal (decorate v))
  rw [hD, hbr, hscan]
  simp only [decorate]


theorem parseStr_plain (c : Char) (T : List Char) (h1 : ¬(c = '"')) (h2 : ¬(c = '\\'))
    (h8 : ¬(c.toNat < 32)) :
    parseStr (c :: T) = match parseStr T with
      | some (s, r) => some (c :: s, r)
      | none => none := by
  rw [parseStr.eq_def]
  simp only [if_neg h1, if_neg h2, if_neg h8]

theorem parseStr_esc2 (e : Char) (T : List Char) (hne : ¬(e = 'u')) :
    parseStr ('\\' :: e :: T) =
      match parseStr T with
      | some (s, r) =>
        if e = '"' then some ('"' :: s, r)
        else if e = '\\' then some ('\\' :: s, r)
        else if e = '/' then some ('/' :: s, r)
        else if e = 'b' then some ('\u0008' :: s, r)
        else if e = 'f' then some ('\u000C' :: s, r)
        else if e = 'n' then some ('\n' :: s, r)
        else if e = 'r' then some ('\r' :: s, r)
        else if e = 't' then some ('\t' :: s, r)
        else none
      | none => none := by
  rw [parseStr.eq_def]
  simp only [if_neg (by decide : ¬('\\' = '"')), if_pos (rfl : '\\' = '\\'), if_true,
    if_neg hne]

theorem parseStr_hex (a b c2 d : Char) (T : List Char) :
    parseStr ('\\' :: 'u' :: a :: b :: c2 :: d :: T) =
      match hexVal a, hexVal b, hexVal c2, hexVal d with
      | some ha, some hb, some hc, some hd =>
        match parseStr T with
        | some (s, r) => some (Char.ofNat (((ha * 16 + hb) * 16 + hc) * 16 + hd) :: s, r)
        | none => none
      | _, _, _, _ => none := by
  rw [parseStr.eq_def]
  simp only [if_neg (by decide : ¬('\\' = '"')), if_pos (rfl : '\\' = '\\'), if_true,
    if_pos (rfl : 'u' = 'u')]

theorem parseStr_escape_rt : ∀ (s rest : List Char),
    parseStr (jsonEscape s ++ '"' :: rest) = some (s, rest) := by
  intro s
  induction s with
  | nil =>
    intro rest
    show parseStr ('"' :: rest) = some ([], rest)
    rw [parseStr.eq_def]
    simp only [if_pos (rfl : '"' = '"'), if_true]
  | cons c s' ih =>
    intro rest
    rw [jsonEscape_cons, List.append_assoc]
    by_cases h1 : c = '"'
    · subst h1
      rw [(by decide : jsonEscapeChar '"' = ['\\', '"'])]
      simp only [List.cons_append, List.nil_append]
      rw [parseStr_esc2 '"' _ (by decide), ih rest]
      rfl
    · by_cases h2 : c = '\\'
      · subst h2
        rw [(by decide : jsonEscapeChar '\\' = ['\\', '\\'])]
        simp only [List.cons_append, List.nil_append]
        rw [parseStr_esc2 '\\' _ (by decide), ih rest]
        rfl
      · by_cases h3 : c = '\u0008'
        · subst h3
          rw [(by decide : jsonEscapeChar '\u0008' = ['\\', 'b'])]
          simp only [List.cons_append, List.nil_append]
          rw [parseStr_esc2 'b' _ (by decide), ih rest]
          rfl
        · by_cases h4 : c = '\t'
          · subst h4
            rw [(by decide : jsonEscapeChar '\t' = ['\\', 't'])]
            simp only [List.cons_append, List.nil_append]
            rw [parseStr_esc2 't' _ (by decide), ih rest]
            rfl
          · by_cases h5 : c = '\n'
            · subst h5
              rw [(by decide : jsonEscapeChar '\n' = ['\\', 'n'])]
              simp only [List.cons_append, List.nil_append]
              rw [parseStr_esc2 'n' _ (by decide), ih rest]
              rfl
            · by_cases h6 : c = '\u000C'
              · subst h6
                rw [(by decide : jsonEscapeChar '\u000C' = ['\\', 'f'])]
                simp only [List.cons_append, List.nil_append]
                rw [parseStr_esc2 'f' _ (by decide), ih rest]
                rfl
              · by_cases h7 : c = '\r'
                · subst h7
                  rw [(by decide : jsonEscapeChar '\r' = ['\\', 'r'])]
                  simp only [List.cons_append, List.nil_append]
                  rw [parseStr_esc2 'r' _ (by decide), ih rest]
                  rfl
                · by_cases h8 : c.toNat < 32
                  · have hdiv : c.toNat / 16 < 16 := by omega
                    have hmod : c.toNat % 16 < 16 := by omega
                    simp only [jsonEscapeChar, if_neg h1, if_neg h2, if_neg h3, if_neg h4,
                      if_neg h5, if_neg h6, if_neg h7, if_pos h8]
                    simp only [List.cons_append, List.nil_append]
                    rw [parseStr_hex _ _ _ _ _,
                      (by decide : hexVal '0' = some 0),
                      (hexDigitLower_props _ hdiv).2.2.2,
                      (hexDigitLower_props _ hmod).2.2.2, ih rest]
                    show some (Char.ofNat
                        (((0 * 16 + 0) * 16 + c.toNat / 16) * 16 + c.toNat % 16) :: s', rest) =
                      some (c :: s', rest)
                    have harg : ((0 * 16 + 0) * 16 + c.toNat / 16) * 16 + c.toNat % 16 =
                        c.toNat := by omega
                    rw [harg, Char.ofNat_toNat]
                  · simp only [jsonEscapeChar, if_neg h1, if_neg h2, if_neg h3, if_neg h4,
                      if_neg h5, if_neg h6, if_neg h7, if_neg h8]
                    simp only [List.cons_append, List.nil_append]
                    rw [parseStr_plain c _ h1 h2 h8, ih rest]


theorem skipWs_cons {c : Char} (t : List Char) (h : isJsonWS c = false) :
    skipWs (c :: t) = c :: t := by
  simp [skipWs, List.dropWhile_cons, h]

theorem serVal_wrap_head (w : PValue) : ∃ c t, serVal (wrapNums w) = c :: t ∧
    isJsonWS c = false ∧ ¬(c = ']') ∧ ¬(c = '\x7d') := by
  have key : ∀ c ∈ ['n', 't', 'f', '"', '[', '\x7b'],
      isJsonWS c = false ∧ ¬(c = ']') ∧ ¬(c = '\x7d') := by decide
  cases w with
  | null => exact ⟨_, "ull".data, rfl, key 'n' (by decide)⟩
  | bool b =>
    rcases b with _ | _
    · exact ⟨_, "alse".data, rfl, key 'f' (by decide)⟩
    · exact ⟨_, "rue".data, rfl, key 't' (by decide)⟩
  | num s => exact ⟨_, _, rfl, key '"' (by decide)⟩
  | str s => exact ⟨_, _, rfl, key '"' (by decide)⟩
  | arr l => exact ⟨_, _, rfl, key '[' (by decide)⟩
  | obj ps => exact ⟨_, _, rfl, key '\x7b' (by decide)⟩

theorem skipWs_serWrap (w : PValue) (X : List Char) :
    skipWs (serVal (wrapNums w) ++ X) = serVal (wrapNums w) ++ X := by
  obtain ⟨c, t, hser, hws, _, _⟩ := serVal_wrap_head w
  rw [hser, List.cons_append, skipWs_cons _ hws]

theorem serVal_wrap_len (w : PValue) : 1 ≤ (serVal (wrapNums w)).length := by
  obtain ⟨c, t, hser, _, _, _⟩ := serVal_wrap_head w
  rw [hser]
  simp

theorem serElems_wrap_len : ∀ (l : List PValue),
    l.length ≤ (serElems (wrapNumsList l)).length := by
  intro l
  induction l with
  | nil => simp [wrapNumsList, serElems]
  | cons v rest ih =>
    cases rest with
    | nil =>
      simp only [wrapNumsList, serElems, List.length_cons, List.length_nil]
      have := serVal_wrap_len v
      omega
    | cons v2 rest2 =>
      simp only [wrapNumsList, serElems] at ih ⊢
      simp only [List.length_cons, List.length_append] at ih ⊢
      have := serVal_wrap_len v
      omega

theorem serMembers_wrap_len : ∀ (ps : List (String × PValue)),
    ps.length ≤ (serMembers (wrapNumsProps ps)).length := by
  intro ps
  induction ps with
  | nil => simp [wrapNumsProps, serMembers]
  | cons kv rest ih =>
    obtain ⟨k, v⟩ := kv
    cases rest with
    | nil => simp [wrapNumsProps, serMembers]
    | cons m2 rest2 =>
      simp only [wrapNumsProps, serMembers] at ih ⊢
      simp only [List.length_cons, List.length_append] at ih ⊢
      omega

theorem parseValF_str (f : Nat) (s T : List Char) :
    parseValF (f + 1) ('"' :: (jsonEscape s ++ '"' :: T)) = some (.str (String.mk s), T) := by
  have h0 : parseValF (f + 1) ('"' :: (jsonEscape s ++ '"' :: T)) =
      (match parseStr (jsonEscape s ++ '"' :: T) with
       | some (s2, r) => some (.str (String.mk s2), r)
       | none => none) := rfl
  rw [h0, parseStr_escape_rt]

theorem parseValF_arr (f : Nat) (T : List Char) :
    parseValF (f + 1) ('[' :: T) =
      (match skipWs T with
       | ']' :: r2 => some (.arr [], r2)
       | r1 =>
         match parseElemsF (parseValF f) (r1.length + 1) r1 with
         | some (vs, r) => some (.arr vs, r)
         | none => none) := rfl

theorem parseValF_obj (f : Nat) (T : List Char) :
    parseValF (f + 1) ('\x7b' :: T) =
      (match skipWs T with
       | '\x7d' :: r2 => some (.obj [], r2)
       | r1 =>
         match parseMembersF (parseValF f) (r1.length + 1) r1 with
         | some (ms, r) => some (.obj ms, r)
         | none => none) := rfl

theorem parseElemsF_step (g : List Char → Option (PValue × List Char)) (fe : Nat)
    (cs : List Char) :
    parseElemsF g (fe + 1) cs =
      (match g cs with
       | none => none
       | some (pv, ra) =>
         match skipWs ra with
         | ',' :: rb =>
           (match parseElemsF g fe (skipWs rb) with
            | some (tl, rc) => some (pv :: tl, rc)
            | none => none)
         | ']' :: rb => some ([pv], rb)
         | _ => none) := rfl

theorem parseMembersF_step (g : List Char → Option (PValue × List Char)) (fe : Nat)
    (cs : List Char) :
    parseMembersF g (fe + 1) cs =
      (match cs with
       | '"' :: ks =>
         (match parseStr ks with
          | none => none
          | some (key, ra) =>
            match skipWs ra with
            | ':' :: rb =>
              (match g (skipWs rb) with
               | none => none
               | some (pv, rc) =>
                 match skipWs rc with
                 | ',' :: rd =>
                   (match parseMembersF g fe (skipWs rd) with
                    | some (mm, re) => some ((String.mk key, pv) :: mm, re)
                    | none => none)
                 | '\x7d' :: rd => some ([(String.mk key, pv)], rd)
                 | _ => none)
            | _ => none)
       | _ => none) := rfl

theorem serElems_head (v : PValue) (l' : List PValue) : ∃ c t,
    serElems (wrapNumsList (v :: l')) = c :: t ∧ isJsonWS c = false ∧
    ¬(c = ']') ∧ ¬(c = '\x7d') := by
  obtain ⟨c, t, hser, h1, h2, h3⟩ := serVal_wrap_head v
  cases l' with
  | nil => exact ⟨c, t, hser, h1, h2, h3⟩
  | cons v2 l2 =>
    refine ⟨c, t ++ ',' :: serElems (wrapNumsList (v2 :: l2)), ?_, h1, h2, h3⟩
    show serVal (wrapNums v) ++ ',' :: serElems (wrapNumsList (v2 :: l2)) = _
    rw [hser]
    rfl

theorem serMembers_head (k : String) (v : PValue) (ps' : List (String × PValue)) : ∃ t,
    serMembers (wrapNumsProps ((k, v) :: ps')) = '"' :: t := by
  cases ps' with
  | nil => exact ⟨_, rfl⟩
  | cons m2 ps2 =>
    refine ⟨(jsonEscape k.data ++ '"' :: ':' :: serVal (wrapNums v)) ++
      ',' :: serMembers (wrapNumsProps (m2 :: ps2)), ?_⟩
    show ('"' :: (jsonEscape k.data ++ '"' :: ':' :: serVal (wrapNums v))) ++
      ',' :: serMembers (wrapNumsProps (m2 :: ps2)) = _
    rfl


theorem parseElemsF_elem (g : List Char → Option (PValue × List Char)) (fe : Nat)
    (w : PValue) (T : List Char)
    (hg : g (serVal (wrapNums w) ++ T) = some (wrapNums w, T)) :
    parseElemsF g (fe + 1) (serVal (wrapNums w) ++ T) =
      (match skipWs T with
       | ',' :: rb =>
         (match parseElemsF g fe (skipWs rb) with
          | some (tl, rc) => some (wrapNums w :: tl, rc)
          | none => none)
       | ']' :: rb => some ([wrapNums w], rb)
       | _ => none) := by
  rw [parseElemsF_step, hg]

theorem parseMembersF_member (g : List Char → Option (PValue × List Char)) (fe : Nat)
    (k : List Char) (w : PValue) (T : List Char)
    (hg : g (serVal (wrapNums w) ++ T) = some (wrapNums w, T)) :
    parseMembersF g (fe + 1)
      ('"' :: (jsonEscape k ++ '"' :: ':' :: (serVal (wrapNums w) ++ T))) =
      (match skipWs T with
       | ',' :: rd =>
         (match parseMembersF g fe (skipWs rd) with
          | some (mm, re) => some ((String.mk k, wrapNums w) :: mm, re)
          | none => none)
       | '\x7d' :: rd => some ([(String.mk k, wrapNums w)], rd)
       | _ => none) := by
  have h0 : parseMembersF g (fe + 1)
      ('"' :: (jsonEscape k ++ '"' :: ':' :: (serVal (wrapNums w) ++ T))) =
      (match parseStr (jsonEscape k ++ '"' :: (':' :: (serVal (wrapNums w) ++ T))) with
       | none => none
       | some (key, ra) =>
         match skipWs ra with
         | ':' :: rb =>
           (match g (skipWs rb) with
            | none => none
            | some (pv, rc) =>
              match skipWs rc with
              | ',' :: rd =>
                (match parseMembersF g fe (skipWs rd) with
                 | some (mm, re) => some ((String.mk key, pv) :: mm, re)
                 | none => none)
              | '\x7d' :: rd => some ([(String.mk key, pv)], rd)
              | _ => none)
         | _ => none) := rfl
  rw [h0, parseStr_escape_rt]
  show (match g (skipWs (serVal (wrapNums w) ++ T)) with
       | none => none
       | some (pv, rc) =>
         match skipWs rc with
         | ',' :: rd =>
           (match parseMembersF g fe (skipWs rd) with
            | some (mm, re) => some ((String.mk k, pv) :: mm, re)
            | none => none)
         | '\x7d' :: rd => some ([(String.mk k, pv)], rd)
         | _ => none) = _
  rw [skipWs_serWrap, hg]

theorem serMembers_headKV (kv : String × PValue) (ps' : List (String × PValue)) : ∃ t,
    serMembers (wrapNumsProps (kv :: ps')) = '"' :: t := by
  obtain ⟨k, v⟩ := kv
  exact serMembers_head k v ps'

theorem parse_wrap : ∀ (n : Nat) (w : PValue) (rest : List Char) (f : Nat),
    pvSize w ≤ n → pvSize w ≤ f →
    parseValF (f + 1) (serVal (wrapNums w) ++ rest) = some (wrapNums w, rest) := by
  intro n
  induction n with
  | zero =>
    intro w rest f hn _
    have := pvSize_pos w
    omega
  | succ n ih =>
    intro w rest f hn hf
    cases w with
    | null => rfl
    | bool b => cases b <;> rfl
    | num s =>
      have h1 : serVal (wrapNums (.num s)) ++ rest =
          '"' :: (jsonEscape (markerChar :: s.data) ++ '"' :: rest) := by
        show ('"' :: (jsonEscape (markerChar :: s.data) ++ ['"'])) ++ rest = _
        simp [List.cons_append, List.append_assoc]
      rw [h1, parseValF_str]
      rfl
    | str s =>
      have h1 : serVal (wrapNums (.str s)) ++ rest =
          '"' :: (jsonEscape s.data ++ '"' :: rest) := by
        show ('"' :: (jsonEscape s.data ++ ['"'])) ++ rest = _
        simp [List.cons_append, List.append_assoc]
      rw [h1, parseValF_str]
      rfl
    | arr l =>
      cases l with
      | nil => rfl
      | cons v l' =>
        simp only [pvSize, pvSizeList] at hn hf
        have hv1 := pvSize_pos v
        have hl1 : 1 ≤ pvSizeList l' := by
          cases l' with
          | nil => exact Nat.le_refl 1
          | cons a b =>
            simp only [pvSizeList]
            have := pvSize_pos a
            omega
        cases f with
        | zero => omega
        | succ fm =>
          have helems : ∀ (l2 : List PValue), l2 ≠ [] →
              ∀ (fe : Nat) (rest2 : List Char),
              (∀ v' ∈ l2, pvSize v' ≤ n ∧ pvSize v' ≤ fm) → l2.length ≤ fe →
              parseElemsF (parseValF (fm + 1)) fe
                (serElems (wrapNumsList l2) ++ ']' :: rest2) =
                some (wrapNumsList l2, rest2) := by
            intro l2
            induction l2 with
            | nil => intro hne _ _ _ _; exact absurd rfl hne
            | cons v' l3 ih2 =>
              intro _ fe rest2 hsz hlen
              simp only [List.length_cons] at hlen
              cases fe with
              | zero => omega
              | succ fe' =>
                cases l3 with
                | nil =>
                  show parseElemsF (parseValF (fm + 1)) (fe' + 1)
                      (serVal (wrapNums v') ++ ']' :: rest2) = some ([wrapNums v'], rest2)
                  rw [parseElemsF_elem _ fe' v' _
                    (ih v' _ fm (hsz v' (List.mem_cons_self _ _)).1
                      (hsz v' (List.mem_cons_self _ _)).2)]
                  rfl
                | cons v2 l4 =>
                  show parseElemsF (parseValF (fm + 1)) (fe' + 1)
                      ((serVal (wrapNums v') ++
                        ',' :: serElems (wrapNumsList (v2 :: l4))) ++ ']' :: rest2) =
                      some (wrapNums v' :: wrapNumsList (v2 :: l4), rest2)
                  rw [List.append_assoc, List.cons_append,
                    parseElemsF_elem _ fe' v' _
                      (ih v' _ fm (hsz v' (List.mem_cons_self _ _)).1
                        (hsz v' (List.mem_cons_self _ _)).2)]
                  show (match parseElemsF (parseValF (fm + 1)) fe'
                      (skipWs (serElems (wrapNumsList (v2 :: l4)) ++ ']' :: rest2)) with
                    | some (vs, r4) => some (wrapNums v' :: vs, r4)
                    | none => none) = some (wrapNums v' :: wrapNumsList (v2 :: l4), rest2)
                  obtain ⟨c2, t2, hser2, hws2, _, _⟩ := serElems_head v2 l4
                  rw [hser2, List.cons_append, skipWs_cons _ hws2, ← List.cons_append,
                    ← hser2,
                    ih2 (by simp) fe' rest2
                      (fun x hx => hsz x (List.mem_cons_of_mem _ hx)) (by omega)]
          have hT : serVal (wrapNums (.arr (v :: l'))) ++ rest =
              '[' :: (serElems (wrapNumsList (v :: l')) ++ ']' :: rest) := by
            show ('[' :: (serElems (wrapNumsList (v :: l')) ++ [']'])) ++ rest = _
            simp [List.cons_append, List.append_assoc]
          rw [hT, parseValF_arr]
          obtain ⟨c, t, hser, hws, hnr, _⟩ := serElems_head v l'
          rw [hser, List.cons_append, skipWs_cons _ hws]
          split
          · rename_i r2 heq
            rw [List.cons.injEq] at heq
            exact absurd heq.1 hnr
          · rw [← List.cons_append, ← hser,
              helems (v :: l') (by simp) _ rest
                (fun x hx => by
                  have := pvSizeList_mem hx
                  simp only [pvSizeList] at this
                  constructor <;> omega)
                (by
                  have hlen := serElems_wrap_len (v :: l')
                  simp only [List.length_cons, List.length_append] at hlen ⊢
                  omega)]
            rfl
    | obj ps =>
      cases ps with
      | nil => rfl
      | cons kv ps' =>
        obtain ⟨k, v⟩ := kv
        simp only [pvSize, pvSizeProps] at hn hf
        have hv1 := pvSize_pos v
        have hp1 : 1 ≤ pvSizeProps ps' := by
          cases ps' with
          | nil => exact Nat.le_refl 1
          | cons a b =>
            obtain ⟨k2, v2⟩ := a
            simp only [pvSizeProps]
            have := pvSize_pos v2
            omega
        cases f with
        | zero => omega
        | succ fm =>
          have hmems : ∀ (ps2 : List (String × PValue)), ps2 ≠ [] →
              ∀ (fe : Nat) (rest2 : List Char),
              (∀ k' v', (k', v') ∈ ps2 → pvSize v' ≤ n ∧ pvSize v' ≤ fm) →
              ps2.length ≤ fe →
              parseMembersF (parseValF (fm + 1)) fe
                (serMembers (wrapNumsProps ps2) ++ '\x7d' :: rest2) =
                some (wrapNumsProps ps2, rest2) := by
            intro ps2
            induction ps2 with
            | nil => intro hne _ _ _ _; exact absurd rfl hne
            | cons kv2 ps3 ih2 =>
              obtain ⟨k', v'⟩ := kv2
              intro _ fe rest2 hsz hlen
              simp only [List.length_cons] at hlen
              cases fe with
              | zero => omega
              | succ fe' =>
                cases ps3 with
                | nil =>
                  show parseMembersF (parseValF (fm + 1)) (fe' + 1)
                      (('"' :: (jsonEscape k'.data ++ '"' :: ':' :: serVal (wrapNums v'))) ++
                        '\x7d' :: rest2) = some ([(k', wrapNums v')], rest2)
                  simp only [List.cons_append, List.append_assoc]
                  rw [parseMembersF_member _ fe' k'.data v' _
                    (ih v' _ fm (hsz k' v' (List.mem_cons_self _ _)).1
                      (hsz k' v' (List.mem_cons_self _ _)).2)]
                  rfl
                | cons m2 ps4 =>
                  show parseMembersF (parseValF (fm + 1)) (fe' + 1)
                      ((('"' :: (jsonEscape k'.data ++ '"' :: ':' :: serVal (wrapNums v'))) ++
                        ',' :: serMembers (wrapNumsProps (m2 :: ps4))) ++ '\x7d' :: rest2) =
                      some ((k', wrapNums v') :: wrapNumsProps (m2 :: ps4), rest2)
                  simp only [List.cons_append, List.append_assoc]
                  rw [parseMembersF_member _ fe' k'.data v' _
                    (ih v' _ fm (hsz k' v' (List.mem_cons_self _ _)).1
                      (hsz k' v' (List.mem_cons_self _ _)).2)]
                  show (match parseMembersF (parseValF (fm + 1)) fe'
                      (skipWs (serMembers (wrapNumsProps (m2 :: ps4)) ++
                        '\x7d' :: rest2)) with
                    | some (ms, r5) => some ((String.mk k'.data, wrapNums v') :: ms, r5)
                    | none => none) =
                      some ((k', wrapNums v') :: wrapNumsProps (m2 :: ps4), rest2)
                  obtain ⟨t2, hser2⟩ := serMembers_headKV m2 ps4
                  rw [hser2, List.cons_append, skipWs_cons _ (by decide),
                    ← List.cons_append, ← hser2,
                    ih2 (by simp) fe' rest2
                      (fun k2 v2 hm => hsz k2 v2 (List.mem_cons_of_mem _ hm)) (by omega)]
          have hT : serVal (wrapNums (.obj ((k, v) :: ps'))) ++ rest =
              '\x7b' :: (serMembers (wrapNumsProps ((k, v) :: ps')) ++ '\x7d' :: rest) := by
            show ('\x7b' :: (serMembers (wrapNumsProps ((k, v) :: ps')) ++ ['\x7d'])) ++
              rest = _
            simp [List.cons_append, List.append_assoc]
          rw [hT, parseValF_obj]
          obtain ⟨t, hser⟩ := serMembers_headKV (k, v) ps'
          rw [hser, List.cons_append, skipWs_cons _ (by decide)]
          split
          · rename_i r2 heq
            rw [List.cons.injEq] at heq
            exact absurd heq.1 (by decide)
          · rw [← List.cons_append, ← hser,
              hmems ((k, v) :: ps') (by simp) _ rest
                (fun k2 v2 hm => by
                  have := pvSizeProps_mem hm
                  simp only [pvSizeProps] at this
                  constructor <;> omega)
                (by
                  have hlen := serMembers_wrap_len ((k, v) :: ps')
                  simp only [List.length_cons, List.length_append] at hlen ⊢
                  omega)]
            rfl

theorem pvSize_le_serWrapLen : ∀ (n : Nat) (w : PValue), pvSize w ≤ n →
    pvSize w ≤ (serVal (wrapNums w)).length := by
  intro n
  induction n with
  | zero =>
    intro w hn
    have := pvSize_pos w
    omega
  | succ n ih =>
    intro w hn
    cases w with
    | null => decide
    | bool b => cases b <;> decide
    | num s =>
      show pvSize (.num s) ≤ ('"' :: (jsonEscape (markerChar :: s.data) ++ ['"'])).length
      simp [pvSize]
    | str s =>
      show pvSize (.str s) ≤ ('"' :: (jsonEscape s.data ++ ['"'])).length
      simp [pvSize]
    | arr l =>
      simp only [pvSize] at hn ⊢
      have hlist : ∀ (l2 : List PValue), (∀ v' ∈ l2, pvSize v' ≤ n) →
          pvSizeList l2 ≤ (serElems (wrapNumsList l2)).length + 1 := by
        intro l2
        induction l2 with
        | nil => intro _; simp [pvSizeList, wrapNumsList, serElems]
        | cons v' l3 ih2 =>
          intro hsz
          cases l3 with
          | nil =>
            show pvSize v' + pvSizeList [] ≤ (serVal (wrapNums v')).length + 1
            have := ih v' (hsz v' (List.mem_cons_self _ _))
            simp only [pvSizeList]
            omega
          | cons v2 l4 =>
            show pvSize v' + pvSizeList (v2 :: l4) ≤
              ((serVal (wrapNums v') ++
                ',' :: serElems (wrapNumsList (v2 :: l4))).length) + 1
            have h1 := ih v' (hsz v' (List.mem_cons_self _ _))
            have h2 := ih2 (fun x hx => hsz x (List.mem_cons_of_mem _ hx))
            simp only [List.length_append, List.length_cons] at h2 ⊢
            omega
      have hl := hlist l (fun v' hv' => by
        have := pvSizeList_mem hv'
        omega)
      show pvSizeList l + 1 ≤ ('[' :: (serElems (wrapNumsList l) ++ [']'])).length
      simp only [List.length_cons, List.length_append, List.length_singleton]
      omega
    | obj ps =>
      simp only [pvSize] at hn ⊢
      have hprops : ∀ (ps2 : List (String × PValue)),
          (∀ k' v', (k', v') ∈ ps2 → pvSize v' ≤ n) →
          pvSizeProps ps2 ≤ (serMembers (wrapNumsProps ps2)).length + 1 := by
        intro ps2
        induction ps2 with
        | nil => intro _; simp [pvSizeProps, wrapNumsProps, serMembers]
        | cons kv2 ps3 ih2 =>
          obtain ⟨k', v'⟩ := kv2
          intro hsz
          cases ps3 with
          | nil =>
            show pvSize v' + pvSizeProps [] ≤
              ('"' :: (jsonEscape k'.data ++ '"' :: ':' :: serVal (wrapNums v'))).length + 1
            have := ih v' (hsz k' v' (List.mem_cons_self _ _))
            simp only [pvSizeProps, List.length_cons, List.length_append]
            omega
          | cons m2 ps4 =>
            show pvSize v' + pvSizeProps (m2 :: ps4) ≤
              (('"' :: (jsonEscape k'.data ++ '"' :: ':' :: serVal (wrapNums v'))) ++
                ',' :: serMembers (wrapNumsProps (m2 :: ps4))).length + 1
            have h1 := ih v' (hsz k' v' (List.mem_cons_self _ _))
            have h2 := ih2 (fun k2 v2 hm => hsz k2 v2 (List.mem_cons_of_mem _ hm))
            simp only [List.length_append, List.length_cons] at h2 ⊢
            omega
      have hp := hprops ps (fun k' v' hm => by
        have := pvSizeProps_mem hm
        omega)
      show pvSizeProps ps + 1 ≤ ('\x7b' :: (serMembers (wrapNumsProps ps) ++ ['\x7d'])).length
      simp only [List.length_cons, List.length_append, List.length_singleton]
      omega

theorem parseJson_eq (s : String) : parseJson s =
    (match parseValF ((skipWs s.data).length + 1) (skipWs s.data) with
     | some (u, rest) => if (skipWs rest).isEmpty then some u else none
     | none => none) := rfl

theorem parseJson_decorate (v : PValue) (hwf : wfVal v = true) :
    parseJson (safeStringEncodeNums (serialize v)) = some (decorate v) := by
  rw [encode_serialize v hwf, parseJson_eq]
  simp only [decorate]
  have hskip : skipWs (serVal (wrapNums (doubleVal v))) =
      serVal (wrapNums (doubleVal v)) := by
    obtain ⟨c, t, hser, hws, _, _⟩ := serVal_wrap_head (doubleVal v)
    rw [hser, skipWs_cons _ hws]
  show (match parseValF ((skipWs (serVal (wrapNums (doubleVal v)))).length + 1)
      (skipWs (serVal (wrapNums (doubleVal v)))) with
    | some (u, rest) => if (skipWs rest).isEmpty then some u else none
    | none => none) = some (wrapNums (doubleVal v))
  rw [hskip]
  have hp := parse_wrap (pvSize (doubleVal v)) (doubleVal v) []
    (serVal (wrapNums (doubleVal v))).length (Nat.le_refl _)
    (pvSize_le_serWrapLen (pvSize (doubleVal v)) (doubleVal v) (Nat.le_refl _))
  rw [List.append_nil] at hp
  rw [hp]
  rfl

theorem dropWhile_noFalse (p : Char → Bool) : ∀ (l : List Char),
    (∀ c ∈ l, p c = false) → l.dropWhile p = l := by
  intro l
  induction l with
  | nil => intro _; rfl
  | cons c t ih =>
    intro h
    rw [List.dropWhile_cons, if_neg (by simp [h c (List.mem_cons_self _ _)])]

theorem digits_prefix_split : ∀ (l ext : List Char),
    (∀ c ∈ l, isDigitC c = true) →
    (∀ c t, ext = c :: t → isDigitC c = false) →
    (l ++ ext).takeWhile isDigitC = l ∧ (l ++ ext).dropWhile isDigitC = ext := by
  intro l
  induction l with
  | nil =>
    intro ext _ hext
    cases ext with
    | nil => exact ⟨rfl, rfl⟩
    | cons c t =>
      have := hext c t rfl
      simp [List.takeWhile_cons, List.dropWhile_cons, this]
  | cons a l' ih =>
    intro ext hl hext
    have ha := hl a (List.mem_cons_self _ _)
    obtain ⟨h1, h2⟩ := ih ext (fun c hc => hl c (List.mem_cons_of_mem _ hc)) hext
    simp [List.takeWhile_cons, List.dropWhile_cons, ha, h1, h2]

theorem numberChar_notJsWS {c : Char} (h : numberChar c = true) : isJsWS c = false := by
  simp only [numberChar, Bool.or_eq_true, decide_eq_true_eq] at h
  rcases h with ((((hd | rfl) | rfl) | rfl) | rfl) | rfl
  · have hb : 48 ≤ c.toNat ∧ c.toNat ≤ 57 := by
      simpa [isDigitC] using hd
    by_contra hws
    rw [Bool.not_eq_false] at hws
    have hmem : c ∈ ([' ', '\t', '\n', '\r', '\u000B', '\u000C', '\u00A0', '\uFEFF',
        '\u1680', '\u2000', '\u2001', '\u2002', '\u2003', '\u2004', '\u2005', '\u2006',
        '\u2007', '\u2008', '\u2009', '\u200A', '\u2028', '\u2029', '\u202F', '\u205F',
        '\u3000'] : List Char) := by
      simpa [isJsWS] using hws
    fin_cases hmem <;> revert hb <;> decide
  all_goals decide

theorem numFracPart_shape (cs : List Char) :
    (numFracPart cs).1 = [] ∨
    ∃ d ds, (numFracPart cs).1 = '.' :: d :: ds ∧ isDigitC d = true ∧
      (∀ c ∈ ds, isDigitC c = true) := by
  match cs with
  | [] => exact Or.inl rfl
  | [c] => exact Or.inl rfl
  | p :: d :: rest =>
    by_cases hpd : p = '.' ∧ isDigitC d
    · right
      refine ⟨d, rest.takeWhile isDigitC, ?_, hpd.2, fun c hc => List.mem_takeWhile_imp hc⟩
      simp only [numFracPart, if_pos hpd]
      rw [hpd.1]
    · left
      simp only [numFracPart, if_neg hpd]

theorem dropWhile_allTrue (p : Char → Bool) : ∀ (l : List Char),
    (∀ c ∈ l, p c = true) → l.dropWhile p = [] := by
  intro l
  induction l with
  | nil => intro _; rfl
  | cons c t ih =>
    intro h
    rw [List.dropWhile_cons, if_pos (by simp [h c (List.mem_cons_self _ _)])]
    exact ih (fun c hc => h c (List.mem_cons_of_mem _ hc))

theorem numExpPart_consume (cs : List Char) :
    jsExpConsume ((numExpPart cs).1) = [] ∧
    ((numExpPart cs).1 = [] ∨
      ∃ t, (numExpPart cs).1 = 'e' :: t ∨ (numExpPart cs).1 = 'E' :: t) := by
  match cs with
  | [] => exact ⟨rfl, Or.inl rfl⟩
  | [c] => exact ⟨rfl, Or.inl rfl⟩
  | e :: s :: rest =>
    by_cases he : e = 'e' ∨ e = 'E'
    · by_cases hs : s = '+' ∨ s = '-'
      · cases rest with
        | nil =>
          have hx : (numExpPart (e :: s :: [])).1 = [] := by
            simp only [numExpPart, if_pos he, if_pos hs]
          rw [hx]
          exact ⟨rfl, Or.inl rfl⟩
        | cons d rest2 =>
          by_cases hd : isDigitC d = true
          · simp only [numExpPart, if_pos he, if_pos hs, if_pos hd]
            constructor
            · simp only [jsExpConsume, if_pos he, if_pos hs, if_pos hd]
              exact dropWhile_allTrue _ _ (fun c hc => List.mem_takeWhile_imp hc)
            · right
              rcases he with rfl | rfl
              · exact ⟨_, Or.inl rfl⟩
              · exact ⟨_, Or.inr rfl⟩
          · have hx : (numExpPart (e :: s :: d :: rest2)).1 = [] := by
              simp only [numExpPart, if_pos he, if_pos hs, if_neg hd]
            rw [hx]
            exact ⟨rfl, Or.inl rfl⟩
      · by_cases hds : isDigitC s = true
        · simp only [numExpPart, if_pos he, if_neg hs, if_pos hds]
          constructor
          · simp only [jsExpConsume, if_pos he, if_neg hs, if_pos hds]
            exact dropWhile_allTrue _ _ (fun c hc => List.mem_takeWhile_imp hc)
          · right
            rcases he with rfl | rfl
            · exact ⟨_, Or.inl rfl⟩
            · exact ⟨_, Or.inr rfl⟩
        · have hx : (numExpPart (e :: s :: rest)).1 = [] := by
            simp only [numExpPart, if_pos he, if_neg hs, if_neg hds]
          rw [hx]
          exact ⟨rfl, Or.inl rfl⟩
    · have hx : (numExpPart (e :: s :: rest)).1 = [] := by
        simp only [numExpPart, if_neg he]
      rw [hx]
      exact ⟨rfl, Or.inl rfl⟩

theorem jsDecMatch_full (ip fr ex : List Char) (hip : ip ≠ [])
    (hipd : ∀ c ∈ ip, isDigitC c = true)
    (hfr : fr = [] ∨ ∃ d ds, fr = '.' :: d :: ds ∧ isDigitC d = true ∧
      (∀ c ∈ ds, isDigitC c = true))
    (hexc : jsExpConsume ex = [])
    (hexh : ex = [] ∨ ∃ t, ex = 'e' :: t ∨ ex = 'E' :: t) :
    jsDecMatch (ip ++ fr ++ ex) = some [] := by
  have hfrexh : ∀ c t, fr ++ ex = c :: t → isDigitC c = false := by
    intro c t he
    rcases hfr with rfl | ⟨d, ds, rfl, _, _⟩
    · rw [List.nil_append] at he
      rcases hexh with rfl | ⟨t2, rfl | rfl⟩
      · cases he
      · rw [List.cons.injEq] at he
        rw [← he.1]
        decide
      · rw [List.cons.injEq] at he
        rw [← he.1]
        decide
    · rw [List.cons_append, List.cons.injEq] at he
      rw [← he.1]
      decide
  obtain ⟨htake, hdrop⟩ := digits_prefix_split ip (fr ++ ex) hipd hfrexh
  obtain ⟨c0, ip', rfl⟩ : ∃ c0 ip', ip = c0 :: ip' := by
    cases ip with
    | nil => exact absurd rfl hip
    | cons a b => exact ⟨a, b, rfl⟩
  have hc0 := hipd c0 (List.mem_cons_self _ _)
  rw [jsDecMatch.eq_def]
  rw [List.append_assoc]
  split
  · rename_i rest heq
    rw [List.cons_append, List.cons.injEq] at heq
    rw [heq.1] at hc0
    exact absurd hc0 (by decide)
  · rw [if_neg (by rw [htake]; simp), hdrop]
    rcases hfr with rfl | ⟨d, ds, rfl, hd, hds⟩
    · rw [List.nil_append]
      rcases hexh with rfl | ⟨t2, rfl | rfl⟩
      · rfl
      · show some (jsExpConsume ('e' :: t2)) = some []
        rw [hexc]
      · show some (jsExpConsume ('E' :: t2)) = some []
        rw [hexc]
    · rw [List.cons_append]
      have hexh2 : ∀ c t, ex = c :: t → isDigitC c = false := by
        intro c t he
        rcases hexh with rfl | ⟨t2, rfl | rfl⟩
        · cases he
        · rw [List.cons.injEq] at he
          rw [← he.1]
          decide
        · rw [List.cons.injEq] at he
          rw [← he.1]
          decide
      obtain ⟨_, hdrop2⟩ := digits_prefix_split (d :: ds) ex
        (by
          intro c hc
          rcases List.mem_cons.mp hc with rfl | hc2
          · exact hd
          · exact hds c hc2) hexh2
      show some (jsExpConsume (List.dropWhile isDigitC (d :: ds ++ ex))) = some []
      rw [hdrop2, hexc]

theorem jsNumericLiteral_full : ∀ {m : List Char}, numMatch m = some (m, []) →
    jsNumericLiteral m = true := by
  intro m h
  cases m with
  | nil => cases h
  | cons c m' =>
    simp only [numMatch] at h
    split_ifs at h with hminus
    · cases hip : numIntPart m' with
      | none => rw [hip] at h; cases h
      | some ipr =>
        obtain ⟨ip, r1⟩ := ipr
        rw [hip] at h
        simp only [Option.some.injEq, Prod.mk.injEq] at h
        obtain ⟨hid1, hid2, hid3⟩ := numIntPart_decomp hip
        have hjs := jsDecMatch_full ip (numFracPart r1).1 (numExpPart (numFracPart r1).2).1
          hid2 hid3 (numFracPart_shape r1)
          (numExpPart_consume (numFracPart r1).2).1 (numExpPart_consume (numFracPart r1).2).2
        have hm' : m' = ip ++ (numFracPart r1).1 ++ (numExpPart (numFracPart r1).2).1 := by
          have h2 := h.1
          rw [List.cons.injEq] at h2
          exact h2.2.symm
        subst hminus
        rw [hm']
        generalize hgen : ip ++ (numFracPart r1).1 ++ (numExpPart (numFracPart r1).2).1 = u
          at hjs ⊢
        have h0 : jsNumericLiteral ('-' :: u) =
            (decide (u = "Infinity".data) ||
             (match jsDecMatch u with
              | some [] => true
              | _ => false)) := rfl
        rw [h0, hjs]
        simp
    · cases hip : numIntPart (c :: m') with
      | none => rw [hip] at h; cases h
      | some ipr =>
        obtain ⟨ip, r1⟩ := ipr
        rw [hip] at h
        simp only [Option.some.injEq, Prod.mk.injEq] at h
        obtain ⟨hid1, hid2, hid3⟩ := numIntPart_decomp hip
        have hjs := jsDecMatch_full ip (numFracPart r1).1 (numExpPart (numFracPart r1).2).1
          hid2 hid3 (numFracPart_shape r1)
          (numExpPart_consume (numFracPart r1).2).1 (numExpPart_consume (numFracPart r1).2).2
        rw [← h.1]
        obtain ⟨c0, ip', rfl⟩ : ∃ a b, ip = a :: b := by
          cases ip with
          | nil => exact absurd rfl hid2
          | cons a b => exact ⟨a, b, rfl⟩
        have hc0 := hid3 c0 (List.mem_cons_self _ _)
        simp only [List.cons_append] at hjs ⊢
        simp only [List.append_assoc] at hjs ⊢
        rw [jsNumericLiteral.eq_def]
        split
        · rename_i rest heq
          rw [List.cons.injEq] at heq
          rw [heq.1] at hc0
          exact absurd hc0 (by decide)
        · rename_i rest heq
          rw [List.cons.injEq] at heq
          rw [heq.1] at hc0
          exact absurd hc0 (by decide)
        · rename_i x rest3 heq
          rw [← heq]
          simp [hjs]
        · simp [hjs]

theorem jsonNumber_notNaN {m : List Char} (h : numMatch m = some (m, [])) :
    strToNumberIsNaN m = false := by
  obtain ⟨_, hne, hchars⟩ := numMatch_decomp h
  have hws : ∀ c ∈ m, isJsWS c = false := fun c hc => numberChar_notJsWS (hchars c hc)
  have h1 : m.dropWhile isJsWS = m := dropWhile_noFalse _ m hws
  have h2 : m.reverse.dropWhile isJsWS = m.reverse :=
    dropWhile_noFalse _ m.reverse (fun c hc => hws c (List.mem_reverse.mp hc))
  show (if (((m.dropWhile isJsWS).reverse.dropWhile isJsWS).reverse).isEmpty then false
    else !jsNumericLiteral (((m.dropWhile isJsWS).reverse.dropWhile isJsWS).reverse)) = false
  rw [h1, h2, List.reverse_reverse]
  cases m with
  | nil => exact absurd rfl hne
  | cons c m' =>
    rw [if_neg (by simp [List.isEmpty]), jsNumericLiteral_full h]
    rfl

theorem htmlEncChar_plainNum {c : Char} (h : numberChar c = true) : htmlEncChar c = [c] := by
  simp only [numberChar, Bool.or_eq_true, decide_eq_true_eq] at h
  rcases h with ((((hd | rfl) | rfl) | rfl) | rfl) | rfl
  · have hb : 48 ≤ c.toNat ∧ c.toNat ≤ 57 := by
      simpa [isDigitC] using hd
    simp only [htmlEncChar]
    rw [if_neg (fun hq => by rw [hq] at hb; revert hb; decide),
        if_neg (fun hq => by rw [hq] at hb; revert hb; decide),
        if_neg (fun hq => by rw [hq] at hb; revert hb; decide),
        if_neg (fun hq => by rw [hq] at hb; revert hb; decide)]
  all_goals decide

theorem htmlEncode_plainNum {s : String} (h : ∀ c ∈ s.data, numberChar c = true) :
    htmlEncode s = s := by
  show String.mk (htmlEncodeL s.data) = s
  rw [htmlEncodeL_eq_flatMap]
  have hgen : ∀ (l : List Char), (∀ c ∈ l, numberChar c = true) →
      l.flatMap htmlEncChar = l := by
    intro l
    induction l with
    | nil => intro _; rfl
    | cons c cs ih =>
      intro hl
      rw [List.flatMap_cons, htmlEncChar_plainNum (hl c (List.mem_cons_self _ _)),
        ih (fun x hx => hl x (List.mem_cons_of_mem _ hx))]
      rfl
  rw [hgen s.data h]

theorem render_wrappedNum (s : String) (hnum : jsonNumberB s.data = true) (path : String) :
    valueToHTML (.str (String.mk (markerChar :: s.data))) path =
      "<span class=\"num\">" ++ s ++ "</span>" := by
  rw [valueToHTML_str]
  have hmatch : numMatch s.data = some (s.data, []) := by
    simpa [jsonNumberB] using hnum
  have hmt : markerNumTest (String.mk (markerChar :: s.data)) = true := by
    show (decide (markerChar.toNat = 8203) && !strToNumberIsNaN s.data) = true
    rw [jsonNumber_notNaN hmatch]
    decide
  show (if markerNumTest (String.mk (markerChar :: s.data)) then
      decorateWithSpan (sliceFrom1 (String.mk (markerChar :: s.data))) "num"
    else if urlTest (String.mk (markerChar :: s.data)) then _ else _) = _
  rw [if_pos hmt]
  show "<span class=\"" ++ "num" ++ "\">" ++
      htmlEncode (sliceFrom1 (String.mk (markerChar :: s.data))) ++ "</span>" =
    "<span class=\"num\">" ++ s ++ "</span>"
  have hslice : sliceFrom1 (String.mk (markerChar :: s.data)) = s := rfl
  rw [hslice, htmlEncode_plainNum (numMatch_decomp hmatch).2.2]
  rfl

/-- C1: for every well-formed document (every number leaf a legal JSON number
token, object keys distinct), encoding with `safeStringEncodeNums` and parsing
yields exactly the decorated tree, in which each number leaf keeps its source
token verbatim as a marker-prefixed string; and the renderer turns every such
wrapped token into a bare numeric-styled span whose text is character-for-
character the original literal — including integers far beyond the 64-bit
float safe range, since the token is carried as a string throughout. -/
theorem claimC1_number_roundtrip (v : PValue) (hwf : wfVal v = true) :
    parseJson (safeStringEncodeNums (serialize v)) = some (decorate v) ∧
    (∀ s : String, jsonNumberB s.data = true →
      decorate (.num s) = .str (String.mk (markerChar :: s.data)) ∧
      ∀ path, valueToHTML (.str (String.mk (markerChar :: s.data))) path =
        "<span class=\"num\">" ++ s ++ "</span>") :=
  ⟨parseJson_decorate v hwf,
   fun s hs => ⟨rfl, fun path => render_wrappedNum s hs path⟩⟩

/-- Witness for C1 at a concrete document holding an integer beyond the
safe-integer range: the hypotheses hold and the round trip and rendering
produce the literal digit string. -/
theorem claimC1_witness :
    wfVal (.obj [("a", .num "12345678901234567890")]) = true ∧
    jsonNumberB ("12345678901234567890" : String).data = true ∧
    parseJson (safeStringEncodeNums (serialize (.obj [("a", .num "12345678901234567890")]))) =
      some (decorate (.obj [("a", .num "12345678901234567890")])) ∧
    valueToHTML (.str (String.mk (markerChar :: ("12345678901234567890" : String).data))) "p" =
      "<span class=\"num\">" ++ "12345678901234567890" ++ "</span>" :=
  ⟨by decide, by decide,
   (claimC1_number_roundtrip (.obj [("a", .num "12345678901234567890")]) (by decide)).1,
   ((claimC1_number_roundtrip (.obj [("a", .num "12345678901234567890")]) (by decide)).2
     "12345678901234567890" (by decide)).2 "p"⟩

theorem htmlEncChar_nomarker {c : Char} (hc : ¬(c = markerChar)) :
    ∀ x ∈ htmlEncChar c, ¬(x = markerChar) := by
  intro x hx
  simp only [htmlEncChar] at hx
  split_ifs at hx
  · fin_cases hx <;> decide
  · fin_cases hx <;> decide
  · fin_cases hx <;> decide
  · fin_cases hx <;> decide
  · rcases List.mem_singleton.mp hx with rfl
    exact hc

theorem count_marker_jsonEscape : ∀ (cs : List Char),
    (jsonEscape cs).count markerChar = cs.count markerChar := by
  intro cs
  induction cs with
  | nil => rfl
  | cons c t ih =>
    rw [jsonEscape_cons, List.count_append, ih]
    by_cases hc : c = markerChar
    · subst hc
      rw [(by decide : jsonEscapeChar markerChar = [markerChar])]
      simp [List.count_cons]
      omega
    · have h0 : (jsonEscapeChar c).count markerChar = 0 := by
        rw [List.count_eq_zero]
        intro hmem
        exact (jsonEscapeChar_nomarker hc markerChar hmem) rfl
      rw [h0]
      simp [List.count_cons, hc]

theorem count_marker_htmlEncodeL : ∀ (cs : List Char),
    (htmlEncodeL cs).count markerChar = cs.count markerChar := by
  intro cs
  rw [htmlEncodeL_eq_flatMap]
  induction cs with
  | nil => rfl
  | cons c t ih =>
    rw [List.flatMap_cons, List.count_append, ih]
    by_cases hc : c = markerChar
    · subst hc
      rw [(by decide : htmlEncChar markerChar = [markerChar])]
      simp [List.count_cons]
      omega
    · have h0 : (htmlEncChar c).count markerChar = 0 := by
        rw [List.count_eq_zero]
        intro hmem
        exact (htmlEncChar_nomarker hc markerChar hmem) rfl
      rw [h0]
      simp [List.count_cons, hc]

theorem count_marker_double : ∀ (cs : List Char),
    (doubleMarkersL cs).count markerChar = 2 * cs.count markerChar := by
  intro cs
  induction cs with
  | nil => rfl
  | cons c t ih =>
    rw [doubleMarkersL_cons, List.count_append, ih]
    by_cases hc : c = markerChar
    · rw [if_pos hc]
      subst hc
      simp [List.count_cons]
      omega
    · rw [if_neg hc]
      simp [List.count_cons, hc]

/-- C2 counterexample: a string value holding exactly one marker character
round-trips to a string holding two markers, and renders with both visible —
the doubling is never undone for ordinary strings. -/
theorem claimC2_counterexample :
    ("a​b" : String).data.count markerChar = 1 ∧
    parseJson (safeStringEncodeNums (serialize (.str "a​b"))) =
      some (.str "a​​b") ∧
    valueToHTML (.str "a​​b") "p" =
      "<span class=\"string\">&quot;a​​b&quot;</span>" ∧
    ¬(("a​​b" : String).data.count markerChar = 1) :=
  ⟨by decide, rfl, by decide, by decide⟩

/-- C2 amended: the encoder doubles every pre-existing marker in a string
value and the renderer does not strip them: parsing the encoded document
yields the marker-doubled string, which (when it renders through the
ordinary quoted-string branch) displays a text carrying exactly twice the
original number of markers. -/
theorem claimC2_markers_doubled (s : String)
    (hmt : markerNumTest (String.mk (doubleMarkersL s.data)) = false)
    (hurl : urlTest (String.mk (doubleMarkersL s.data)) = false) :
    parseJson (safeStringEncodeNums (serialize (.str s))) =
      some (.str (String.mk (doubleMarkersL s.data))) ∧
    (∀ path, valueToHTML (.str (String.mk (doubleMarkersL s.data))) path =
      "<span class=\"string\">&quot;" ++ jsString (String.mk (doubleMarkersL s.data)) ++
        "&quot;</span>") ∧
    (jsString (String.mk (doubleMarkersL s.data))).data.count markerChar =
      2 * s.data.count markerChar := by
  refine ⟨parseJson_decorate (.str s) rfl, ?_, ?_⟩
  · intro path
    rw [valueToHTML_str]
    show (if markerNumTest (String.mk (doubleMarkersL s.data)) then _
      else if urlTest (String.mk (doubleMarkersL s.data)) then _ else _) = _
    rw [if_neg (by simp [hmt]), if_neg (by simp [hurl])]
  · show (htmlEncodeL (jsonEscape (doubleMarkersL s.data))).count markerChar =
      2 * s.data.count markerChar
    rw [count_marker_htmlEncodeL, count_marker_jsonEscape, count_marker_double]

/-- Witness for C2's amended statement at the one-marker input string. -/
theorem claimC2_witness :
    markerNumTest (String.mk (doubleMarkersL ("a​b" : String).data)) = false ∧
    urlTest (String.mk (doubleMarkersL ("a​b" : String).data)) = false ∧
    parseJson (safeStringEncodeNums (serialize (.str "a​b"))) =
      some (.str (String.mk (doubleMarkersL ("a​b" : String).data))) ∧
    (jsString (String.mk (doubleMarkersL ("a​b" : String).data))).data.count markerChar =
      2 * ("a​b" : String).data.count markerChar :=
  ⟨by decide, by decide,
   (claimC2_markers_doubled "a​b" (by decide) (by decide)).1,
   (claimC2_markers_doubled "a​b" (by decide) (by decide)).2.2⟩
